import Mathlib

/-!
# Verification of the `bpt` B+-tree map

Shallow embedding of the `bpt` repository: a B+-tree ordered map with a
linked-leaf chain and cached subtree boundary (head/tail) leaf references.

The embedding follows the const-generic variant (`src/leaf.rs`,
`src/internal.rs`, `src/node.rs`), which the design document declares
canonical; the generic helpers (`insert_or_split`, linear search) are shared
with the fixed-capacity variant in `src/lib.rs` (`B = 12`, `CAPACITY = 23`,
i.e. `cap = 23`, `b = cap / 2 + 1 = 12`).

Shared `Rc`/`Weak` leaf references are modelled by an arena: leaves live in a
store indexed by `Nat` handles; `prev`/`next` chain links and the `head`/`tail`
caches of internal nodes hold handles.  Panics (`unwrap` on
invariant-guaranteed values, `unreachable!`) are modelled by returning the
input unchanged or a default; the well-formedness invariants proved below show
those branches are never taken on reachable states.
-/

set_option maxHeartbeats 1000000

namespace Bpt

/-- Minimum fill of a node: `B = CAP / 2 + 1` (leaf.rs line 146 etc.). -/
def minFill (cap : Nat) : Nat := cap / 2 + 1

/-- Model of `Ord::cmp` for integer keys. -/
def natCmp (a q : Nat) : Ordering :=
  if a < q then .lt else if a = q then .eq else .gt

/-- `query_idx` (leaf.rs lines 177-187) / `linear_search_by` (lib.rs lines
544-554): scan for the first entry whose key is ≥ the query.  `.ok idx` means
the key at `idx` compares equal to the query, `.error idx` means the query is
absent and would be inserted at `idx`. -/
def query_idx (cmp : K → K → Ordering) (slice : List (K × V)) (q : K) :
    Except Nat Nat :=
  go slice 0
where
  go : List (K × V) → Nat → Except Nat Nat
    | [], idx => .error idx
    | e :: rest, idx =>
      match cmp e.fst q with
      | .gt => .error idx
      | .eq => .ok idx
      | .lt => go rest (idx + 1)

/-- `insert_or_split` (lib.rs lines 518-542), generalised over the capacity:
insert `new` at `idx`; when the buffer already holds `cap` elements, split at
index `b - 1` (`b = cap / 2 + 1`), route the new element to whichever half its
index falls in, and return the upper half. -/
def insert_or_split (cap : Nat) (buf : List α) (idx : Nat) (new : α) :
    List α × Option (List α) :=
  let b := minFill cap
  if buf.length ≠ cap then
    (buf.insertIdx idx new, none)
  else if idx < b then
    ((buf.take (b - 1)).insertIdx idx new, some (buf.drop (b - 1)))
  else
    (buf.take b, some ((buf.drop b).insertIdx (idx - b) new))

/-- `LeafNode` / `LeafData` (leaf.rs lines 14-19, lib.rs lines 171-176):
a sorted entry sequence plus non-owning links to the chain neighbours,
modelled as arena handles. -/
structure LeafData (K V : Type) where
  entries : List (K × V)
  prev : Option Nat
  next : Option Nat
deriving Repr, DecidableEq

/-- The leaf arena: `Rc<Shared<LeafNode>>` cells addressed by stable handles. -/
def Store (K V : Type) := Nat → Option (LeafData K V)

/-- Point update of the arena (mutation through an `Rc` handle). -/
def Store.set (s : Store K V) (id : Nat) (d : LeafData K V) : Store K V :=
  fun j => if j = id then some d else s j

theorem Store.set_self (s : Store K V) (id : Nat) (d : LeafData K V) :
    s.set id d id = some d := by
  simp [Store.set]

theorem Store.set_other (s : Store K V) (id : Nat) (d : LeafData K V)
    (j : Nat) (h : j ≠ id) : s.set id d j = s j := by
  simp [Store.set, h]

namespace Leaf

/-- `Leaf::first` (leaf.rs lines 44-49): key of the first entry.  The `None`
branches model the `unreachable!("Leaf node can't be empty")` panic and a
dangling handle. -/
def firstKey (s : Store Nat V) (id : Nat) : Nat :=
  match s id with
  | some d =>
    match d.entries with
    | (k, _) :: _ => k
    | [] => 0
  | none => 0

/-- `Leaf::last` (leaf.rs lines 51-56): key of the last entry. -/
def lastKey (s : Store Nat V) (id : Nat) : Nat :=
  match s id with
  | some d =>
    match d.entries.getLast? with
    | some (k, _) => k
    | none => 0
  | none => 0

/-- `Leaf::get` (leaf.rs lines 87-95): linear search, returning a view of the
matching entry. -/
def get (cmp : K → K → Ordering) (s : Store K V) (id : Nat) (q : K) :
    Option (K × V) :=
  match s id with
  | none => none
  | some d =>
    match query_idx cmp d.entries q with
    | .ok idx => d.entries.get? idx
    | .error _ => none

/-- `Leaf::insert` (leaf.rs lines 108-137, lib.rs lines 452-478).  Result:
updated store, updated fresh-handle counter, previous entry when the key was
already present, and the handle of the freshly created upper leaf on a split.
On a split the new leaf receives `prev = this` and `next =` this leaf's old
`next`, and this leaf's `next` is re-pointed at the new leaf. -/
def insert (cap : Nat) (cmp : K → K → Ordering) (s : Store K V) (id : Nat)
    (fresh : Nat) (new_entry : K × V) :
    Store K V × Nat × Option (K × V) × Option Nat :=
  match s id with
  | none => (s, fresh, none, none)
  | some this =>
    match query_idx cmp this.entries new_entry.fst with
    | .ok idx =>
      match this.entries.get? idx with
      | some prevEntry =>
        (s.set id { this with entries := this.entries.set idx new_entry },
          fresh, some prevEntry, none)
      | none => (s, fresh, none, none)
    | .error idx =>
      match insert_or_split cap this.entries idx new_entry with
      | (es, none) =>
        (s.set id { this with entries := es }, fresh, none, none)
      | (es, some new_es) =>
        let next_next := this.next
        let newId := fresh
        let s₁ := s.set id { entries := es, prev := this.prev, next := some newId }
        let s₂ := s₁.set newId { entries := new_es, prev := some id, next := next_next }
        (s₂, fresh + 1, none, some newId)

/-- `Leaf::remove` (leaf.rs lines 139-148): erase the matching entry, report
the removed entry and whether the leaf is now under the minimum fill. -/
def remove (cap : Nat) (cmp : K → K → Ordering) (s : Store K V) (id : Nat)
    (q : K) : Store K V × Option ((K × V) × Bool) :=
  match s id with
  | none => (s, none)
  | some this =>
    match query_idx cmp this.entries q with
    | .error _ => (s, none)
    | .ok idx =>
      match this.entries.get? idx with
      | none => (s, none)
      | some e =>
        let es := this.entries.eraseIdx idx
        (s.set id { this with entries := es },
          some (e, es.length < minFill cap))

/-- `Leaf::balance_or_drain` (leaf.rs lines 150-174, lib.rs lines 494-511):
move one boundary entry towards the deficient side when the donor holds more
than `b` entries; otherwise drain the right leaf into the left one and re-link
the left leaf's `next` past the drained leaf.  Returns `true` iff the right
leaf was drained. -/
def balance_or_drain (cap : Nat) (s : Store K V) (thisId nextId : Nat)
    (lacking_next : Bool) : Store K V × Bool :=
  match s thisId, s nextId with
  | some this, some next =>
    let b := minFill cap
    if lacking_next ∧ b < this.entries.length then
      match this.entries.getLast? with
      | some last =>
        let s₁ := s.set thisId { this with entries := this.entries.dropLast }
        (s₁.set nextId { next with entries := last :: next.entries }, false)
      | none => (s, false)
    else if ¬lacking_next ∧ b < next.entries.length then
      match next.entries with
      | first :: rest =>
        let s₁ := s.set thisId { this with entries := this.entries ++ [first] }
        (s₁.set nextId { next with entries := rest }, false)
      | [] => (s, false)
    else
      let s₁ := s.set thisId
        { this with entries := this.entries ++ next.entries, next := next.next }
      (s₁.set nextId { next with entries := [], next := none }, true)
  | _, _ => (s, false)

end Leaf

/-- `Internal` (internal.rs lines 11-22): an internal node caches handles to
the leftmost (`head`) and rightmost (`tail`) leaf of its subtree and holds a
homogeneous child sequence — either all leaves (handles) or all internal
nodes, mirroring the `Children` enum. -/
inductive NodeM : Type where
  | leaves (head tail : Nat) (cs : List Nat)
  | internals (head tail : Nat) (cs : List NodeM)
deriving Repr

namespace NodeM

/-- Cached `head` handle (`Node::head` via the cache). -/
def headId : NodeM → Nat
  | .leaves h _ _ => h
  | .internals h _ _ => h

/-- Cached `tail` handle (`Node::tail` via the cache). -/
def tailId : NodeM → Nat
  | .leaves _ t _ => t
  | .internals _ t _ => t

/-- Number of levels of the subtree (a leaves-kind internal node has height
1).  Used to discharge the recursion fuel. -/
def height : NodeM → Nat
  | .leaves _ _ _ => 1
  | .internals _ _ cs => 1 + goList cs
where goList : List NodeM → Nat
  | [] => 0
  | c :: rest => max (height c) (goList rest)

/-- Leaf handles of the subtree, left to right. -/
def leafIds : NodeM → List Nat
  | .leaves _ _ cs => cs
  | .internals _ _ cs => goList cs
where goList : List NodeM → List Nat
  | [] => []
  | c :: rest => leafIds c ++ goList rest

end NodeM

/-- `find_idx` (internal.rs lines 284-299): linear scan of the children's
cached boundary keys; returns the index of the highest child whose first key
is ≤ the query (or `0` when even the second child starts above it, and
`len - 1` when every child starts at or below it). -/
def find_idx (key : χ → Nat) (q : Nat) (cs : List χ) : Nat :=
  match go (cs.drop 1) 0 with
  | some idx => idx
  | none => cs.length - 1
where
  go : List χ → Nat → Option Nat
    | [], _ => none
    | c :: rest, idx =>
      match natCmp (key c) q with
      | .gt => some idx
      | .eq => some (idx + 1)
      | .lt => go rest (idx + 1)

/-- First key of a child, read through its cached `head` leaf
(`node.head().first()`). -/
def childFirstKey (s : Store Nat V) : NodeM → Nat :=
  fun c => Leaf.firstKey s c.headId

/-- `Internal::child_idx` (internal.rs lines 59-77): answer `none` when the
query exceeds the subtree's last key (read through the cached `tail`),
otherwise select a child by `find_idx`.  The lower-bound `debug_assert!` is
checked one level up (`check_lower`). -/
def child_idx (s : Store Nat V) (n : NodeM) (q : Nat) : Option Nat :=
  if Leaf.lastKey s n.tailId < q then none
  else some
    (match n with
     | .leaves _ _ cs => find_idx (fun id => Leaf.firstKey s id) q cs
     | .internals _ _ cs => find_idx (fun c => Leaf.firstKey s c.headId) q cs)

/-- `Internal::get` (internal.rs lines 96-105): select a child, recurse; at a
leaves-kind node delegate to `Leaf::get`.  The fuel argument bounds the
recursion depth; it never runs out when it exceeds the node's height. -/
def nodeGet (s : Store Nat V) : Nat → NodeM → Nat → Option (Nat × V)
  | 0, _, _ => none
  | _ + 1, .leaves h t cs, q =>
    match child_idx s (.leaves h t cs) q with
    | none => none
    | some idx =>
      match cs.get? idx with
      | some cid => Leaf.get natCmp s cid q
      | none => none
  | fuel + 1, .internals h t cs, q =>
    match child_idx s (.internals h t cs) q with
    | none => none
    | some idx =>
      match cs.get? idx with
      | some c => nodeGet s fuel c q
      | none => none

/-- Head handle of the first element of a child list together with tail handle
of its last element, as read when building a fresh internal node
(internal.rs lines 131-138: `children.first().head()` / `children.last().tail()`).
For leaf children the head/tail of a child is the leaf itself. -/
def leavesHeadTail (cs : List Nat) : Nat × Nat :=
  (cs.head?.getD 0, cs.getLast?.getD 0)

def internalsHeadTail (cs : List NodeM) : Nat × Nat :=
  ((cs.head?.map NodeM.headId).getD 0, (cs.getLast?.map NodeM.tailId).getD 0)

/-- `Internal::insert` (internal.rs lines 118-179).  Returns the updated node,
store, fresh counter, the replaced entry (upsert) and the new right sibling
when this node itself split.  After a mutating insert the cached `tail` is
refreshed from the last child; the `head` cache is left as is (the leftmost
leaf never changes during an insert). -/
def nodeInsert (cap : Nat) (s : Store Nat V) (fresh : Nat) :
    Nat → NodeM → Nat × V →
    NodeM × Store Nat V × Nat × Option (Nat × V) × Option NodeM
  | 0, n, _ => (n, s, fresh, none, none)
  | _ + 1, .leaves h t cs, e =>
    let idx := find_idx (fun id => Leaf.firstKey s id) e.fst cs
    match cs.get? idx with
    | none => (.leaves h t cs, s, fresh, none, none)
    | some cid =>
      match Leaf.insert cap natCmp s cid fresh e with
      | (s₁, f₁, prev, none) =>
        let t' := if prev.isNone then cs.getLast?.getD t else t
        (.leaves h t' cs, s₁, f₁, prev, none)
      | (s₁, f₁, prev, some newId) =>
        match insert_or_split cap cs (idx + 1) newId with
        | (cs', none) =>
          let t' := if prev.isNone then cs'.getLast?.getD t else t
          (.leaves h t' cs', s₁, f₁, prev, none)
        | (cs', some upper) =>
          let t' := if prev.isNone then cs'.getLast?.getD t else t
          let (uh, ut) := leavesHeadTail upper
          (.leaves h t' cs', s₁, f₁, prev, some (.leaves uh ut upper))
  | fuel + 1, .internals h t cs, e =>
    let idx := find_idx (fun c => Leaf.firstKey s c.headId) e.fst cs
    match cs.get? idx with
    | none => (.internals h t cs, s, fresh, none, none)
    | some c =>
      match nodeInsert cap s fresh fuel c e with
      | (c', s₁, f₁, prev, none) =>
        let cs₁ := cs.set idx c'
        let t' := if prev.isNone then (cs₁.getLast?.map NodeM.tailId).getD t else t
        (.internals h t' cs₁, s₁, f₁, prev, none)
      | (c', s₁, f₁, prev, some sib) =>
        let cs₁ := cs.set idx c'
        match insert_or_split cap cs₁ (idx + 1) sib with
        | (cs', none) =>
          let t' := if prev.isNone then (cs'.getLast?.map NodeM.tailId).getD t else t
          (.internals h t' cs', s₁, f₁, prev, none)
        | (cs', some upper) =>
          let t' := if prev.isNone then (cs'.getLast?.map NodeM.tailId).getD t else t
          let (uh, ut) := internalsHeadTail upper
          (.internals h t' cs', s₁, f₁, prev, some (.internals uh ut upper))

/-- `Internal::balance_or_drain` (internal.rs lines 226-281): rebalance two
adjacent sibling internal nodes by moving one child across, or drain the right
node's children into the left one.  The left node's `tail` cache and — when
the right node survives — the right node's `head` cache are refreshed. -/
def nodeBalanceOrDrain (cap : Nat) (s : Store Nat V) :
    NodeM → NodeM → Bool → NodeM × NodeM × Store Nat V × Bool
  | .leaves h₁ t₁ cs₁, .leaves h₂ t₂ cs₂, lacking_next =>
    let b := minFill cap
    if lacking_next ∧ b < cs₁.length then
      let cs₁' := cs₁.dropLast
      let cs₂' := cs₁.getLast?.getD 0 :: cs₂
      (.leaves h₁ (cs₁'.getLast?.getD t₁) cs₁',
        .leaves (cs₂'.head?.getD h₂) t₂ cs₂', s, false)
    else if ¬lacking_next ∧ b < cs₂.length then
      let cs₁' := cs₁ ++ [cs₂.head?.getD 0]
      let cs₂' := cs₂.drop 1
      (.leaves h₁ (cs₁'.getLast?.getD t₁) cs₁',
        .leaves (cs₂'.head?.getD h₂) t₂ cs₂', s, false)
    else
      let cs₁' := cs₁ ++ cs₂
      (.leaves h₁ (cs₁'.getLast?.getD t₁) cs₁', .leaves h₂ t₂ [], s, true)
  | .internals h₁ t₁ cs₁, .internals h₂ t₂ cs₂, lacking_next =>
    let b := minFill cap
    if lacking_next ∧ b < cs₁.length then
      let cs₁' := cs₁.dropLast
      let cs₂' := (cs₁.getLast?.toList) ++ cs₂
      (.internals h₁ ((cs₁'.getLast?.map NodeM.tailId).getD t₁) cs₁',
        .internals ((cs₂'.head?.map NodeM.headId).getD h₂) t₂ cs₂', s, false)
    else if ¬lacking_next ∧ b < cs₂.length then
      let cs₁' := cs₁ ++ (cs₂.head?.toList)
      let cs₂' := cs₂.drop 1
      (.internals h₁ ((cs₁'.getLast?.map NodeM.tailId).getD t₁) cs₁',
        .internals ((cs₂'.head?.map NodeM.headId).getD h₂) t₂ cs₂', s, false)
    else
      let cs₁' := cs₁ ++ cs₂
      (.internals h₁ ((cs₁'.getLast?.map NodeM.tailId).getD t₁) cs₁',
        .internals h₂ t₂ [], s, true)
  | n₁, n₂, _ => (n₁, n₂, s, false)

/-- `Internal::remove` (internal.rs lines 181-224): select a child, recurse;
when the child reports deficiency, rebalance it with its left neighbour
(right neighbour for the first child); when the neighbour is fully drained,
drop it from the child sequence.  The cached `tail` is refreshed and the
node's own deficiency (`children < b`) propagates upward. -/
def nodeRemove (cap : Nat) (s : Store Nat V) :
    Nat → NodeM → Nat → NodeM × Store Nat V × Option ((Nat × V) × Bool)
  | 0, n, _ => (n, s, none)
  | _ + 1, .leaves h t cs, q =>
    match child_idx s (.leaves h t cs) q with
    | none => (.leaves h t cs, s, none)
    | some idx =>
      match cs.get? idx with
      | none => (.leaves h t cs, s, none)
      | some cid =>
        match Leaf.remove cap natCmp s cid q with
        | (s₁, none) => (.leaves h t cs, s₁, none)
        | (s₁, some (entry, need_merge)) =>
          if ¬need_merge then
            (.leaves h (cs.getLast?.getD t) cs, s₁, some (entry, false))
          else
            let p := if idx = 0 then (false, 0) else (true, idx - 1)
            match cs.get? p.2, cs.get? (p.2 + 1) with
            | some leftId, some rightId =>
              let (s₂, drained) := Leaf.balance_or_drain cap s₁ leftId rightId p.1
              let cs₂ := if drained then cs.eraseIdx (p.2 + 1) else cs
              (.leaves h (cs₂.getLast?.getD t) cs₂, s₂,
                some (entry, cs₂.length < minFill cap))
            | _, _ => (.leaves h t cs, s₁, some (entry, true))
  | fuel + 1, .internals h t cs, q =>
    match child_idx s (.internals h t cs) q with
    | none => (.internals h t cs, s, none)
    | some idx =>
      match cs.get? idx with
      | none => (.internals h t cs, s, none)
      | some c =>
        match nodeRemove cap s fuel c q with
        | (c', s₁, none) => (.internals h t (cs.set idx c'), s₁, none)
        | (c', s₁, some (entry, need_merge)) =>
          let cs₁ := cs.set idx c'
          if ¬need_merge then
            (.internals h ((cs₁.getLast?.map NodeM.tailId).getD t) cs₁, s₁,
              some (entry, false))
          else
            let p := if idx = 0 then (false, 0) else (true, idx - 1)
            match cs₁.get? p.2, cs₁.get? (p.2 + 1) with
            | some lc, some rc =>
              let (lc', rc', s₂, drained) := nodeBalanceOrDrain cap s₁ lc rc p.1
              let cs₂ := (cs₁.set p.2 lc').set (p.2 + 1) rc'
              let cs₃ := if drained then cs₂.eraseIdx (p.2 + 1) else cs₂
              (.internals h ((cs₃.getLast?.map NodeM.tailId).getD t) cs₃, s₂,
                some (entry, cs₃.length < minFill cap))
            | _, _ => (.internals h t cs₁, s₁, some (entry, true))

/-- `Internal::pop_depth` (internal.rs lines 52-57): when the node has exactly
one internal child, surrender it (tree height decrease). -/
def popDepth : NodeM → Option NodeM
  | .internals _ _ [c] => some c
  | _ => none

/-- `Internal::check_lower` (internal.rs lines 41-50): accept the query only
when it is at least the subtree's first key (read through the cached `head`).
-/
def check_lower (s : Store Nat V) (n : NodeM) (q : Nat) : Bool :=
  Leaf.firstKey s n.headId ≤ q

/-- The map facade state: optional root node, entry count, and the leaf arena
with its fresh-handle counter. -/
structure MapM (V : Type) where
  root : Option NodeM
  length : Nat
  store : Store Nat V
  fresh : Nat

/-- Modelled from the spec: the const-generic variant's map facade
(`BTreeMap::new` for the `CAP`-parameterised tree) is not under `src/`; §6 of
the spec: construction "fails if the configured capacity is even or ≤ 3". -/
def MapM.new (V : Type) (cap : Nat) : Option (MapM V) :=
  if cap % 2 = 1 ∧ 3 < cap then
    some { root := none, length := 0, store := fun _ => none, fresh := 0 }
  else none

/-- The empty map state produced by a successful construction. -/
def MapM.empty (V : Type) : MapM V :=
  { root := none, length := 0, store := fun _ => none, fresh := 0 }

/-- Modelled from the spec: the const-generic variant's facade `insert_entry`
is not under `src/`.  §4.4: "if no root, create a singleton Leaf wrapped in an
Internal Node" (`Leaf::new`, leaf.rs lines 32-38, and `Internal::new`,
internal.rs lines 24-31); "else delegate to the root Node; if it returns a
sibling, wrap both in a fresh Internal Node" (`Internal::wrap`, internal.rs
lines 33-39); "increment length only if no prior value existed for the key".
The recursion fuel `length + 2` always exceeds the tree height. -/
def MapM.insert_entry (cap : Nat) (m : MapM V) (e : Nat × V) :
    MapM V × Option (Nat × V) :=
  match m.root with
  | none =>
    let id := m.fresh
    ({ root := some (.leaves id id [id]),
       length := m.length + 1,
       store := m.store.set id { entries := [e], prev := none, next := none },
       fresh := m.fresh + 1 }, none)
  | some r =>
    match nodeInsert cap m.store m.fresh (m.length + 2) r e with
    | (r', s', f', prev, sib) =>
      let root' := match sib with
        | none => r'
        | some sib => NodeM.internals r'.headId sib.tailId [r', sib]
      ({ root := some root',
         length := if prev.isNone then m.length + 1 else m.length,
         store := s', fresh := f' }, prev)

/-- Modelled from the spec: the const-generic variant's facade `remove_entry`
is not under `src/`.  §4.4: "reject out-of-range queries cheaply via the
root's boundary check" (`check_lower`); "delegate to the root; decrement
length on success.  If the resulting entry count is zero, clear the root.
Otherwise, if the root reports deficiency and has collapsed to a single child
(`pop_depth`), promote that child to root". -/
def MapM.remove_entry (cap : Nat) (m : MapM V) (q : Nat) :
    MapM V × Option (Nat × V) :=
  match m.root with
  | none => (m, none)
  | some r =>
    if check_lower m.store r q then
      match nodeRemove cap m.store (m.length + 2) r q with
      | (r', s', none) => ({ m with root := some r', store := s' }, none)
      | (r', s', some (entry, need_merge)) =>
        let len' := m.length - 1
        if len' = 0 then
          ({ root := none, length := 0, store := s', fresh := m.fresh }, some entry)
        else
          let root' := if need_merge then (popDepth r').getD r' else r'
          ({ root := some root', length := len', store := s', fresh := m.fresh },
            some entry)
    else (m, none)

/-- Modelled from the spec: the facade's read path — `entry`/`get` delegate to
the root node's `get` after the same lower-boundary check that guards
`child_idx`'s `debug_assert!` ("This should be checked on the upper level",
internal.rs lines 63-66). -/
def MapM.entry (_cap : Nat) (m : MapM V) (q : Nat) : Option (Nat × V) :=
  match m.root with
  | none => none
  | some r =>
    if check_lower m.store r q then nodeGet m.store (m.length + 2) r q
    else none

/-- Enumeration of the map's entries in key order (in-order walk of the
tree's leaves). -/
def MapM.toList (m : MapM V) : List (Nat × V) :=
  match m.root with
  | none => []
  | some r => (r.leafIds.map (fun id => ((m.store id).map
      LeafData.entries).getD [])).flatten

/-! ## Reference model: a sorted association list (the "reference ordered
map" of the equivalence property). -/

/-- Reference lookup: the stored entry with the queried key. -/
def refFind (l : List (Nat × V)) (q : Nat) : Option (Nat × V) :=
  match l with
  | [] => none
  | e :: rest => if e.fst = q then some e else refFind rest q

/-- Reference upsert into a sorted association list. -/
def refInsert (l : List (Nat × V)) (e : Nat × V) : List (Nat × V) :=
  match l with
  | [] => [e]
  | x :: rest =>
    if e.fst < x.fst then e :: x :: rest
    else if e.fst = x.fst then e :: rest
    else x :: refInsert rest e

/-- Reference removal from a sorted association list. -/
def refRemove (l : List (Nat × V)) (q : Nat) : List (Nat × V) :=
  match l with
  | [] => []
  | x :: rest => if x.fst = q then rest else x :: refRemove rest q

/-! ## Operation sequences -/

/-- A public map operation. -/
inductive Op (V : Type) where
  | ins (k : Nat) (v : V)
  | del (k : Nat)
  | get (k : Nat)

/-- Observable result of one operation on the tree map. -/
def stepMap (cap : Nat) (m : MapM V) : Op V → MapM V × Option (Nat × V)
  | .ins k v => m.insert_entry cap (k, v)
  | .del k => m.remove_entry cap k
  | .get k => (m, m.entry cap k)

/-- Observable result of one operation on the reference map. -/
def stepRef (l : List (Nat × V)) : Op V → List (Nat × V) × Option (Nat × V)
  | .ins k v => (refInsert l (k, v), refFind l k)
  | .del k => (refRemove l k, refFind l k)
  | .get k => (l, refFind l k)

/-- Run a sequence of operations on the tree map, collecting every returned
value. -/
def runMap (cap : Nat) (m : MapM V) : List (Op V) →
    MapM V × List (Option (Nat × V))
  | [] => (m, [])
  | op :: ops =>
    let (m', r) := stepMap cap m op
    let (m'', rs) := runMap cap m' ops
    (m'', r :: rs)

/-- Run a sequence of operations on the reference map, collecting every
returned value. -/
def runRef (l : List (Nat × V)) : List (Op V) →
    List (Nat × V) × List (Option (Nat × V))
  | [] => (l, [])
  | op :: ops =>
    let (l', r) := stepRef l op
    let (l'', rs) := runRef l' ops
    (l'', r :: rs)

/-! ## Basic facts about the search helpers -/

theorem query_idx_go_le (cmp : K → K → Ordering) (q : K) :
    ∀ (l : List (K × V)) (i m : Nat), query_idx.go cmp q l i = .ok m → i ≤ m := by
  intro l
  induction l with
  | nil => intro i m h; simp [query_idx.go] at h
  | cons e rest ih =>
    intro i m h
    simp only [query_idx.go] at h
    cases hc : cmp e.fst q <;> rw [hc] at h
    · exact Nat.le_of_succ_le (ih (i + 1) m h)
    · cases h; omega
    · cases h

theorem query_idx_go_lt_length (cmp : K → K → Ordering) (q : K) :
    ∀ (l : List (K × V)) (i m : Nat), query_idx.go cmp q l i = .ok m →
      m < i + l.length := by
  intro l
  induction l with
  | nil => intro i m h; simp [query_idx.go] at h
  | cons e rest ih =>
    intro i m h
    simp only [query_idx.go] at h
    cases hc : cmp e.fst q <;> rw [hc] at h
    · have := ih (i + 1) m h; simp only [List.length_cons]; omega
    · cases h; simp only [List.length_cons]; omega
    · cases h

theorem query_idx_ok_lt (cmp : K → K → Ordering) (l : List (K × V)) (q : K)
    (idx : Nat) (h : query_idx cmp l q = .ok idx) : idx < l.length := by
  have := query_idx_go_lt_length cmp q l 0 idx h
  omega

theorem query_idx_go_set (cmp : K → K → Ordering) (q : K) (e : K × V)
    (he : cmp e.fst q = .eq) :
    ∀ (l : List (K × V)) (i n : Nat), query_idx.go cmp q l i = .ok (i + n) →
      query_idx.go cmp q (l.set n e) i = .ok (i + n) := by
  intro l
  induction l with
  | nil => intro i n h; simp [query_idx.go] at h
  | cons x rest ih =>
    intro i n h
    simp only [query_idx.go] at h
    cases hc : cmp x.fst q <;> rw [hc] at h
    · -- x compares less: the scan continued
      have hle := query_idx_go_le cmp q rest (i + 1) (i + n) h
      have hn : 0 < n := by omega
      obtain ⟨n', rfl⟩ : ∃ n', n = n' + 1 := ⟨n - 1, by omega⟩
      have h' : query_idx.go cmp q rest (i + 1) = .ok ((i + 1) + n') := by
        rw [show (i + 1) + n' = i + (n' + 1) by omega]; exact h
      have := ih (i + 1) n' h'
      simpa [query_idx.go, hc, show i + 1 + n' = i + (n' + 1) by omega] using this
    · -- x compares equal: found at this position
      injection h with h'
      have hn : n = 0 := by omega
      subst hn
      simp [query_idx.go, he]
    · cases h

theorem query_idx_set_of_ok (cmp : K → K → Ordering) (l : List (K × V))
    (q : K) (idx : Nat) (e : K × V) (he : cmp e.fst q = .eq)
    (h : query_idx cmp l q = .ok idx) :
    query_idx cmp (l.set idx e) q = .ok idx := by
  have := query_idx_go_set cmp q e he l 0 idx (by simpa using h)
  simpa [query_idx] using this

/-! ## C2: the overflow split rule of `insert_or_split` -/

/-- C2: inserting into a node already holding `CAP` elements at sorted
position `idx` splits at index `B - 1`: for `idx < B` the new upper node
receives the elements from position `B - 1` onward and the new element lands
in the retained lower node at `idx`; otherwise the upper node receives the
elements from `B` onward with the new element inserted at `idx - B`.  Both
resulting nodes hold at least `B` elements. -/
theorem insert_or_split_full_spec (cap : Nat) (hodd : cap % 2 = 1)
    (hcap : 3 < cap) (buf : List α) (hfull : buf.length = cap) (idx : Nat)
    (hidx : idx ≤ cap) (new : α) :
    ∃ lower upper, insert_or_split cap buf idx new = (lower, some upper) ∧
      (idx < minFill cap →
        upper = buf.drop (minFill cap - 1) ∧
        lower = (buf.take (minFill cap - 1)).insertIdx idx new) ∧
      (minFill cap ≤ idx →
        upper = (buf.drop (minFill cap)).insertIdx (idx - minFill cap) new ∧
        lower = buf.take (minFill cap)) ∧
      minFill cap ≤ lower.length ∧ minFill cap ≤ upper.length := by
  have hb : minFill cap = cap / 2 + 1 := rfl
  by_cases hlt : idx < minFill cap
  · refine ⟨(buf.take (minFill cap - 1)).insertIdx idx new,
      buf.drop (minFill cap - 1), ?_, ?_, ?_, ?_, ?_⟩
    · simp only [insert_or_split, hfull]
      rw [if_neg (by omega), if_pos (by omega)]
    · exact fun _ => ⟨rfl, rfl⟩
    · omega
    · rw [List.length_insertIdx _ _
        (by simp [List.length_take, hfull]; omega)]
      simp [List.length_take, hfull]; omega
    · simp [List.length_drop, hfull]; omega
  · refine ⟨buf.take (minFill cap),
      (buf.drop (minFill cap)).insertIdx (idx - minFill cap) new, ?_, ?_, ?_, ?_, ?_⟩
    · simp only [insert_or_split, hfull]
      rw [if_neg (by omega), if_neg (by omega)]
    · omega
    · exact fun _ => ⟨rfl, rfl⟩
    · simp [List.length_take, hfull]; omega
    · rw [List.length_insertIdx _ _
        (by simp [List.length_drop, hfull]; omega)]
      simp [List.length_drop, hfull]; omega

/-! ## C6: `balance_or_drain` on adjacent leaves -/

/-- C6: for `balance_or_drain` on two adjacent sibling leaves, one of which is
under the minimum fill (holding exactly `B - 1` entries, the state produced by
a remove): when the donor holds more than `B` entries, exactly one entry moves
from the donor's boundary-adjacent end (the left donor's last entry, the right
donor's first entry) to the deficient side's boundary-adjacent end, the call
reports the right sibling not consumed, and both siblings end with at least
`B` entries; when the donor holds exactly `B`, every entry of the right leaf
is drained into the left leaf, the left leaf's `next` link is re-pointed at
the drained leaf's `next`, the call reports the right sibling consumed, and
the combined leaf holds at most `CAP` entries. -/
theorem leaf_balance_or_drain_spec (cap : Nat) (hodd : cap % 2 = 1)
    (hcap : 3 < cap) {s : Store K V} {l r : Nat} (hlr : l ≠ r)
    {dl dr : LeafData K V} (hsl : s l = some dl) (hsr : s r = some dr)
    (lacking_next : Bool)
    (hdef : (if lacking_next then dr.entries.length else dl.entries.length) =
      minFill cap - 1)
    (hdon : minFill cap ≤
      (if lacking_next then dl.entries.length else dr.entries.length)) :
    (lacking_next = true → minFill cap < dl.entries.length →
      (Leaf.balance_or_drain cap s l r lacking_next).2 = false ∧
      ∃ x, dl.entries.getLast? = some x ∧
        (Leaf.balance_or_drain cap s l r lacking_next).1 l =
          some { dl with entries := dl.entries.dropLast } ∧
        (Leaf.balance_or_drain cap s l r lacking_next).1 r =
          some { dr with entries := x :: dr.entries } ∧
        minFill cap ≤ dl.entries.dropLast.length ∧
        minFill cap ≤ (x :: dr.entries).length) ∧
    (lacking_next = false → minFill cap < dr.entries.length →
      (Leaf.balance_or_drain cap s l r lacking_next).2 = false ∧
      ∃ x rest, dr.entries = x :: rest ∧
        (Leaf.balance_or_drain cap s l r lacking_next).1 l =
          some { dl with entries := dl.entries ++ [x] } ∧
        (Leaf.balance_or_drain cap s l r lacking_next).1 r =
          some { dr with entries := rest } ∧
        minFill cap ≤ (dl.entries ++ [x]).length ∧
        minFill cap ≤ rest.length) ∧
    ((if lacking_next then dl.entries.length else dr.entries.length) =
        minFill cap →
      (Leaf.balance_or_drain cap s l r lacking_next).2 = true ∧
      (Leaf.balance_or_drain cap s l r lacking_next).1 l =
        some { entries := dl.entries ++ dr.entries, prev := dl.prev,
               next := dr.next } ∧
      (Leaf.balance_or_drain cap s l r lacking_next).1 r =
        some { dr with entries := [], next := none } ∧
      (dl.entries ++ dr.entries).length ≤ cap) := by
  refine ⟨?_, ?_, ?_⟩
  · rintro rfl hgt
    simp only [if_true] at hdef hdon
    have hne : dl.entries ≠ [] := by
      intro h; rw [h] at hgt; simp [minFill] at hgt
    obtain ⟨x, hx⟩ : ∃ x, dl.entries.getLast? = some x := by
      cases h : dl.entries.getLast? with
      | some x => exact ⟨x, rfl⟩
      | none => exact absurd (List.getLast?_eq_none_iff.mp h) hne
    have hres : Leaf.balance_or_drain cap s l r true =
        ((s.set l { dl with entries := dl.entries.dropLast }).set r
          { dr with entries := x :: dr.entries }, false) := by
      simp only [Leaf.balance_or_drain, hsl, hsr, hx]
      rw [if_pos ⟨trivial, hgt⟩]
    refine ⟨by simp only [hres], x, hx, ?_, ?_, ?_, ?_⟩
    · simp only [hres]; rw [Store.set_other _ _ _ _ hlr]; exact Store.set_self ..
    · simp only [hres]; exact Store.set_self ..
    · simp only [List.length_dropLast]; omega
    · simp only [List.length_cons]; omega
  · rintro rfl hgt
    simp only [Bool.false_eq_true, if_false] at hdef hdon
    obtain ⟨x, rest, hx⟩ : ∃ x rest, dr.entries = x :: rest := by
      cases h : dr.entries with
      | cons x rest => exact ⟨x, rest, rfl⟩
      | nil => rw [h] at hgt; simp [minFill] at hgt
    rw [hx] at hgt
    have hres : Leaf.balance_or_drain cap s l r false =
        ((s.set l { dl with entries := dl.entries ++ [x] }).set r
          { dr with entries := rest }, false) := by
      simp only [Leaf.balance_or_drain, hsl, hsr, hx]
      rw [if_neg (by simp), if_pos ⟨by simp, by simpa using hgt⟩]
    refine ⟨by simp only [hres], x, rest, hx, ?_, ?_, ?_, ?_⟩
    · simp only [hres]; rw [Store.set_other _ _ _ _ hlr]; exact Store.set_self ..
    · simp only [hres]; exact Store.set_self ..
    · simp only [List.length_append, List.length_cons]; omega
    · simp only [List.length_cons] at hgt; omega
  · intro hdone
    have h₁ : ¬(lacking_next = true ∧ minFill cap < dl.entries.length) := by
      cases lacking_next
      · simp
      · simp only [if_true] at hdone
        intro h; omega
    have h₂ : ¬(¬(lacking_next = true) ∧ minFill cap < dr.entries.length) := by
      cases lacking_next
      · simp only [Bool.false_eq_true, if_false] at hdone
        intro h; omega
      · simp
    have hres : Leaf.balance_or_drain cap s l r lacking_next =
        ((s.set l
            { entries := dl.entries ++ dr.entries, prev := dl.prev,
              next := dr.next }).set r
          { dr with entries := [], next := none }, true) := by
      simp only [Leaf.balance_or_drain, hsl, hsr]
      rw [if_neg h₁, if_neg h₂]
    refine ⟨by simp only [hres], ?_, ?_, ?_⟩
    · simp only [hres]; rw [Store.set_other _ _ _ _ hlr]; exact Store.set_self ..
    · simp only [hres]; exact Store.set_self ..
    · simp only [List.length_append]
      cases lacking_next
      · simp only [Bool.false_eq_true, if_false, minFill] at hdone hdef; omega
      · simp only [if_true, minFill] at hdone hdef; omega

/-- Concrete instance of `leaf_balance_or_drain_spec` (`cap = 5`, `B = 3`):
the right leaf holds 2 entries, the left leaf 4, `lacking_next = true`, so
one entry is borrowed. -/
theorem leaf_balance_or_drain_spec_witness :
    (5 % 2 = 1 ∧ 3 < 5 ∧ (0 : Nat) ≠ 1) ∧
    (∀ lx : LeafData Nat Nat,
      lx = { entries := [(1, 1), (2, 2), (3, 3), (4, 4)], prev := none,
             next := some 1 } →
      ∀ rx : LeafData Nat Nat,
      rx = { entries := [(5, 5), (6, 6)], prev := some 0, next := none } →
      ∀ s : Store Nat Nat,
      s = Store.set (Store.set (V := Nat) (fun _ => none) 0 lx) 1 rx →
      (true = true → minFill 5 < lx.entries.length →
        (Leaf.balance_or_drain 5 s 0 1 true).2 = false ∧
        ∃ x, lx.entries.getLast? = some x ∧
          (Leaf.balance_or_drain 5 s 0 1 true).1 0 =
            some { lx with entries := lx.entries.dropLast } ∧
          (Leaf.balance_or_drain 5 s 0 1 true).1 1 =
            some { rx with entries := x :: rx.entries } ∧
          minFill 5 ≤ lx.entries.dropLast.length ∧
          minFill 5 ≤ (x :: rx.entries).length)) := by
  refine ⟨⟨by decide, by decide, by decide⟩, ?_⟩
  rintro lx rfl rx rfl s rfl
  exact (leaf_balance_or_drain_spec 5 (by decide) (by decide) (by decide)
    rfl rfl true (by decide) (by decide)).1

/-- Concrete instance of `insert_or_split_full_spec` (`cap = 5`, `B = 3`). -/
theorem insert_or_split_full_spec_witness :
    (5 % 2 = 1 ∧ 3 < 5 ∧ [10, 20, 30, 40, 50].length = 5 ∧ 1 ≤ 5) ∧
    ∃ lower upper,
      insert_or_split 5 [10, 20, 30, 40, 50] 1 (15 : Nat) = (lower, some upper) ∧
      (1 < minFill 5 →
        upper = [10, 20, 30, 40, 50].drop (minFill 5 - 1) ∧
        lower = ([10, 20, 30, 40, 50].take (minFill 5 - 1)).insertIdx 1 15) ∧
      (minFill 5 ≤ 1 →
        upper = ([10, 20, 30, 40, 50].drop (minFill 5)).insertIdx (1 - minFill 5) 15 ∧
        lower = [10, 20, 30, 40, 50].take (minFill 5)) ∧
      minFill 5 ≤ lower.length ∧ minFill 5 ≤ upper.length :=
  ⟨⟨by decide, by decide, by decide, by decide⟩,
    insert_or_split_full_spec 5 (by decide) (by decide) [10, 20, 30, 40, 50]
      (by decide) 1 (by decide) 15⟩

/-! ## C7: construction validates the capacity -/

/-- C7: map construction fails exactly when the configured node capacity is
even or at most 3; a capacity that is odd and greater than 3 yields the empty
map. -/
theorem mapM_new_spec (V : Type) (cap : Nat) :
    (MapM.new V cap = none ↔ cap % 2 = 0 ∨ cap ≤ 3) ∧
    (cap % 2 = 1 ∧ 3 < cap → MapM.new V cap = some (MapM.empty V)) := by
  refine ⟨⟨?_, ?_⟩, ?_⟩
  · intro h
    by_contra hc
    push_neg at hc
    rw [MapM.new, if_pos (by omega)] at h
    cases h
  · intro h
    rw [MapM.new, if_neg (by omega)]
  · intro h
    rw [MapM.new, if_pos h]
    rfl

/-- Concrete instance of `mapM_new_spec`: capacity 4 is rejected, capacity 5
is accepted. -/
theorem mapM_new_spec_witness :
    MapM.new Nat 4 = none ∧ MapM.new Nat 5 = some (MapM.empty Nat) :=
  ⟨(mapM_new_spec Nat 4).1.mpr (by decide), (mapM_new_spec Nat 5).2 (by decide)⟩

/-! ## C8: first insertion into an empty map -/

/-- C8: `insert_entry` on a map with no root creates a singleton leaf holding
the inserted entry, wraps it in an internal node (`Internal::new`), installs
that as the root, and returns no previous value. -/
theorem insert_entry_empty_spec (cap : Nat) (m : MapM V) (e : Nat × V)
    (h : m.root = none) :
    m.insert_entry cap e =
      ({ root := some (.leaves m.fresh m.fresh [m.fresh]),
         length := m.length + 1,
         store := m.store.set m.fresh { entries := [e], prev := none, next := none },
         fresh := m.fresh + 1 }, none) := by
  simp only [MapM.insert_entry, h]

/-- Concrete instance of `insert_entry_empty_spec` on the empty map. -/
theorem insert_entry_empty_spec_witness :
    (MapM.empty Nat).root = none ∧
    (MapM.empty Nat).insert_entry 5 (1, 2) =
      ({ root := some (.leaves 0 0 [0]),
         length := 1,
         store := (MapM.empty Nat).store.set 0
           { entries := [(1, 2)], prev := none, next := none },
         fresh := 1 }, none) :=
  ⟨rfl, insert_entry_empty_spec 5 (MapM.empty Nat) (1, 2) rfl⟩

/-! ## C10: duplicate-key insert replaces the stored key object -/

/-- C10: inserting an entry whose key compares equal to an already-present key
replaces the stored key object itself along with the value: the previous
(key, value) pair is returned, the newly supplied pair is what the leaf stores
afterwards (and what a subsequent lookup observes), no new leaf is created
(the fresh counter is unchanged and no split sibling is returned), and the
chain links are untouched. -/
theorem leaf_insert_duplicate_spec (cap : Nat) (cmp : K → K → Ordering)
    {s : Store K V} {id fresh : Nat} {d : LeafData K V} (hs : s id = some d)
    {e : K × V} {idx : Nat} (hq : query_idx cmp d.entries e.fst = .ok idx)
    (hrefl : cmp e.fst e.fst = .eq) :
    ∃ old, d.entries.get? idx = some old ∧
      Leaf.insert cap cmp s id fresh e =
        (s.set id { d with entries := d.entries.set idx e }, fresh, some old,
          none) ∧
      Leaf.get cmp (s.set id { d with entries := d.entries.set idx e }) id
        e.fst = some e := by
  have hlt := query_idx_ok_lt cmp d.entries e.fst idx hq
  obtain ⟨old, hold⟩ : ∃ old, d.entries.get? idx = some old := by
    rw [List.get?_eq_getElem?, List.getElem?_eq_getElem hlt]
    exact ⟨_, rfl⟩
  refine ⟨old, hold, ?_, ?_⟩
  · simp only [Leaf.insert, hs, hq, hold]
  · have hq' := query_idx_set_of_ok cmp d.entries e.fst idx e hrefl hq
    simp only [Leaf.get, Store.set_self, hq']
    rw [List.get?_eq_getElem?]
    exact List.getElem?_set_eq_of_lt e (by simpa using hlt)

/-- Concrete instance of `leaf_insert_duplicate_spec`: keys are pairs ordered
by their first component only, so the freshly supplied key `(1, 7)` is equal
under the ordering to the stored key `(1, 0)` yet is a different object; the
insert replaces it. -/
theorem leaf_insert_duplicate_spec_witness :
    (Store.set (V := Nat) (fun _ => none) 0
        { entries := [((1, 0), 10)], prev := none, next := none } 0 =
      some { entries := [((1, 0), 10)], prev := none, next := none } ∧
     query_idx (fun a b : Nat × Nat => natCmp a.fst b.fst)
        [((1, 0), 10)] ((1, 7) : Nat × Nat) = .ok 0 ∧
     (fun a b : Nat × Nat => natCmp a.fst b.fst) (1, 7) (1, 7) = .eq) ∧
    ∃ old, ([((1, 0), 10)] : List ((Nat × Nat) × Nat)).get? 0 = some old ∧
      Leaf.insert 5 (fun a b : Nat × Nat => natCmp a.fst b.fst)
          (Store.set (V := Nat) (fun _ => none) 0
            { entries := [((1, 0), 10)], prev := none, next := none })
          0 1 (((1, 7), 20)) =
        ((Store.set (V := Nat) (fun _ => none) 0
            { entries := [((1, 0), 10)], prev := none, next := none }).set 0
          { entries := [((1, 0), 10)].set 0 ((1, 7), 20), prev := none,
            next := none }, 1, some old, none) ∧
      Leaf.get (fun a b : Nat × Nat => natCmp a.fst b.fst)
          ((Store.set (V := Nat) (fun _ => none) 0
            { entries := [((1, 0), 10)], prev := none, next := none }).set 0
          { entries := [((1, 0), 10)].set 0 ((1, 7), 20), prev := none,
            next := none }) 0 ((1, 7) : Nat × Nat) = some ((1, 7), 20) :=
  ⟨⟨rfl, rfl, rfl⟩,
    @leaf_insert_duplicate_spec (Nat × Nat) Nat 5
      (fun a b : Nat × Nat => natCmp a.fst b.fst)
      (Store.set (fun _ => none) 0
        { entries := [((1, 0), 10)], prev := none, next := none })
      0 1 { entries := [((1, 0), 10)], prev := none, next := none } rfl
      ((1, 7), 20) 0 rfl rfl⟩

/-! ## C5: leaf-chain re-linking on a split -/

/-- Operation sequence exhibiting a split of a leaf that has a successor
(`cap = 5`): keys 10..60 build two leaves `0 → 1`, then 11, 12, 13 split leaf
0 into leaves 0 and 2 with chain order `0 → 2 → 1`. -/
def c5ops : List (Op Nat) :=
  [.ins 10 100, .ins 20 200, .ins 30 300, .ins 40 400, .ins 50 500,
   .ins 60 600, .ins 11 110, .ins 12 120, .ins 13 130]

/-- Counterexample to C5 as stated: after the split of leaf 0 (old next =
leaf 1, new leaf = 2), the enumerated leaf order is `[0, 2, 1]` and the split
leaf's `next` points at the new leaf 2, whose `prev`/`next` are 0/1 — but the
old next leaf 1 still has `prev = some 0`: it was never updated to reference
the new leaf 2, its structurally adjacent predecessor. -/
theorem leaf_chain_relink_counterexample :
    (runMap 5 (MapM.empty Nat) c5ops).1.root = some (.leaves 0 1 [0, 2, 1]) ∧
    ((runMap 5 (MapM.empty Nat) c5ops).1.store 0).map LeafData.next =
      some (some 2) ∧
    (runMap 5 (MapM.empty Nat) c5ops).1.store 2 =
      some { entries := [(13, 130), (20, 200), (30, 300)], prev := some 0,
             next := some 1 } ∧
    ((runMap 5 (MapM.empty Nat) c5ops).1.store 1).map LeafData.prev =
      some (some 0) ∧
    ¬ ((runMap 5 (MapM.empty Nat) c5ops).1.store 1).map LeafData.prev =
      some (some 2) :=
  ⟨rfl, rfl, rfl, rfl, by decide⟩

/-! ## Well-formedness invariants -/

/-- Entries of the leaf at handle `id` (empty for a dangling handle). -/
def leafEntries (s : Store Nat V) (id : Nat) : List (Nat × V) :=
  ((s id).map LeafData.entries).getD []

/-- All entries of a subtree in leaf-chain order. -/
def treeEntries (s : Store Nat V) (n : NodeM) : List (Nat × V) :=
  (n.leafIds.map (leafEntries s)).flatten

/-- Keys of an entry sequence. -/
def keys (l : List (Nat × V)) : List Nat := l.map Prod.fst

/-- Strictly ascending keys. -/
def sortedKeys (l : List (Nat × V)) : Prop := (keys l).Pairwise (· < ·)

/-- The leaf at `id` exists, is nonempty and holds at most `cap` entries. -/
def leafBase (cap : Nat) (s : Store Nat V) (id : Nat) : Prop :=
  ∃ d, s id = some d ∧ d.entries ≠ [] ∧ d.entries.length ≤ cap

/-- The leaf at `id` holds at least `B` entries. -/
def leafMin (cap : Nat) (s : Store Nat V) (id : Nat) : Prop :=
  ∃ d, s id = some d ∧ minFill cap ≤ d.entries.length

/-- Child count of a node. -/
def NodeM.childCount : NodeM → Nat
  | .leaves _ _ cs => cs.length
  | .internals _ _ cs => cs.length

/-- Structural well-formedness of a subtree: child-count bounds (the minimum
fill is waived for a relaxed — root — node), correct `head`/`tail` caches,
uniform child height, and existing, bounded, properly-filled leaves.  A leaf
of a leaves-kind node may be under the minimum fill only when it is the sole
child of a relaxed node. -/
def nodeWF (cap : Nat) (s : Store Nat V) : Bool → NodeM → Prop
  | strict, .leaves h t cs =>
    (if strict then minFill cap else 1) ≤ cs.length ∧ cs.length ≤ cap ∧
    cs.head? = some h ∧ cs.getLast? = some t ∧
    (∀ id ∈ cs, leafBase cap s id) ∧
    ((strict = true ∨ 2 ≤ cs.length) → ∀ id ∈ cs, leafMin cap s id)
  | strict, .internals h t cs =>
    (if strict then minFill cap else 1) ≤ cs.length ∧ cs.length ≤ cap ∧
    cs.head?.map NodeM.headId = some h ∧
    cs.getLast?.map NodeM.tailId = some t ∧
    (∀ c ∈ cs, c.height = (cs.head?.map NodeM.height).getD 0) ∧
    goList cap s cs
where goList (cap : Nat) (s : Store Nat V) : List NodeM → Prop
  | [] => True
  | c :: rest => nodeWF cap s true c ∧ goList cap s rest

theorem nodeWF.goList_iff (cap : Nat) (s : Store Nat V) (cs : List NodeM) :
    nodeWF.goList cap s cs ↔ ∀ c ∈ cs, nodeWF cap s true c := by
  induction cs with
  | nil => simp [nodeWF.goList]
  | cons c rest ih => simp [nodeWF.goList, ih]

/-- The chain invariant of a handle segment: every handle's `next` link
points at the following handle in the segment, and the last one at `after`.
-/
def chainOK (s : Store Nat V) : List Nat → Option Nat → Prop
  | [], _ => True
  | [x], after => ∃ d, s x = some d ∧ d.next = after
  | x :: y :: rest, after =>
    (∃ d, s x = some d ∧ d.next = some y) ∧ chainOK s (y :: rest) after

/-- The master invariant of a map state. -/
def Inv (cap : Nat) (m : MapM V) : Prop :=
  match m.root with
  | none => m.length = 0
  | some r =>
    nodeWF cap m.store false r ∧
    (match r with
     | .internals _ _ cs => 2 ≤ cs.length
     | .leaves _ _ _ => True) ∧
    r.leafIds.Nodup ∧
    (∀ id ∈ r.leafIds, id < m.fresh) ∧
    chainOK m.store r.leafIds none ∧
    sortedKeys (treeEntries m.store r) ∧
    m.length = (treeEntries m.store r).length

/-! ## Helper lemmas: comparisons and searches -/

theorem natCmp_lt {a q : Nat} : natCmp a q = .lt ↔ a < q := by
  unfold natCmp; split_ifs <;> simp_all

theorem natCmp_eq {a q : Nat} : natCmp a q = .eq ↔ a = q := by
  unfold natCmp; split_ifs <;> simp_all <;> omega

theorem natCmp_gt {a q : Nat} : natCmp a q = .gt ↔ q < a := by
  unfold natCmp; split_ifs <;> simp_all <;> omega

/-- Offset-free reformulation of the linear scan, for proofs. -/
def qidx (cmp : K → K → Ordering) : List (K × V) → K → Except Nat Nat
  | [], _ => .error 0
  | e :: rest, q =>
    match cmp e.fst q with
    | .gt => .error 0
    | .eq => .ok 0
    | .lt =>
      match qidx cmp rest q with
      | .ok n => .ok (n + 1)
      | .error n => .error (n + 1)

theorem query_idx_go_eq_qidx (cmp : K → K → Ordering) (q : K) :
    ∀ (l : List (K × V)) (i : Nat),
      query_idx.go cmp q l i =
        match qidx cmp l q with
        | .ok n => .ok (n + i)
        | .error n => .error (n + i) := by
  intro l
  induction l with
  | nil => intro i; simp [query_idx.go, qidx]
  | cons e rest ih =>
    intro i
    simp only [query_idx.go, qidx]
    cases cmp e.fst q with
    | gt => simp
    | eq => simp
    | lt =>
      rw [ih (i + 1)]
      cases qidx cmp rest q <;> simp <;> omega

theorem query_idx_eq_qidx (cmp : K → K → Ordering) (l : List (K × V)) (q : K) :
    query_idx cmp l q = qidx cmp l q := by
  rw [query_idx, query_idx_go_eq_qidx]
  cases qidx cmp l q <;> simp

theorem qidx_ok_props (l : List (Nat × V)) (q : Nat) (idx : Nat)
    (h : qidx natCmp l q = .ok idx) :
    idx < l.length ∧ (∀ a ∈ l.take idx, a.fst < q) ∧
      ∃ old, l.get? idx = some old ∧ old.fst = q := by
  induction l generalizing idx with
  | nil => simp [qidx] at h
  | cons e rest ih =>
    rw [qidx] at h
    cases hc : natCmp e.fst q <;> rw [hc] at h
    · cases hr : qidx natCmp rest q <;> rw [hr] at h
      · cases h
      · cases h
        obtain ⟨h1, h2, old, h3, h4⟩ := ih _ hr
        refine ⟨by simpa using h1, ?_, old, by simpa using h3, h4⟩
        intro a ha
        rcases (by simpa using ha : a = e ∨ a ∈ rest.take _) with rfl | ha'
        · exact natCmp_lt.mp hc
        · exact h2 a ha'
    · cases h
      exact ⟨by simp, by simp, e, rfl, natCmp_eq.mp hc⟩
    · cases h

theorem qidx_err_props (l : List (Nat × V)) (q : Nat) (idx : Nat)
    (h : qidx natCmp l q = .error idx) :
    idx ≤ l.length ∧ (∀ a ∈ l.take idx, a.fst < q) ∧
      ∀ hd, (l.drop idx).head? = some hd → q < hd.fst := by
  induction l generalizing idx with
  | nil =>
    rw [qidx] at h; cases h
    exact ⟨by simp, by simp, by simp⟩
  | cons e rest ih =>
    rw [qidx] at h
    cases hc : natCmp e.fst q <;> rw [hc] at h
    · cases hr : qidx natCmp rest q <;> rw [hr] at h
      · cases h
        obtain ⟨h1, h2, h3⟩ := ih _ hr
        refine ⟨by simpa using h1, ?_, by simpa using h3⟩
        intro a ha
        rcases (by simpa using ha : a = e ∨ a ∈ rest.take _) with rfl | ha'
        · exact natCmp_lt.mp hc
        · exact h2 a ha'
      · cases h
    · cases h
    · cases h
      refine ⟨by simp, by simp, ?_⟩
      intro hd hhd
      simp only [List.drop_zero, List.head?_cons] at hhd
      cases hhd
      exact natCmp_gt.mp hc

/-- Offset-free reformulation of the `find_idx` scan over `cs.drop 1`. -/
def scanIdx (f : χ → Ordering) : List χ → Option Nat
  | [] => none
  | c :: rest =>
    match f c with
    | .gt => some 0
    | .eq => some 1
    | .lt => (scanIdx f rest).map (· + 1)

theorem find_idx_go_eq_scanIdx (key : χ → Nat) (q : Nat) :
    ∀ (l : List χ) (i : Nat),
      find_idx.go key q l i = (scanIdx (fun c => natCmp (key c) q) l).map (· + i) := by
  intro l
  induction l with
  | nil => intro i; simp [find_idx.go, scanIdx]
  | cons c rest ih =>
    intro i
    simp only [find_idx.go, scanIdx]
    cases natCmp (key c) q with
    | gt => simp
    | eq => simp [Nat.add_comm]
    | lt =>
      rw [ih (i + 1)]
      cases scanIdx (fun c => natCmp (key c) q) rest <;> simp <;> omega

theorem find_idx_eq_scanIdx (key : χ → Nat) (q : Nat) (cs : List χ) :
    find_idx key q cs =
      ((scanIdx (fun c => natCmp (key c) q) (cs.drop 1)).getD (cs.length - 1)) := by
  rw [find_idx, find_idx_go_eq_scanIdx]
  cases scanIdx (fun c => natCmp (key c) q) (cs.drop 1) <;> simp

/-! ## Sorted-key block lemmas -/

theorem keys_append (A B : List (Nat × V)) : keys (A ++ B) = keys A ++ keys B :=
  List.map_append _ _ _

theorem sortedKeys_append {A B : List (Nat × V)} :
    sortedKeys (A ++ B) ↔
      sortedKeys A ∧ sortedKeys B ∧ ∀ a ∈ A, ∀ b ∈ B, a.fst < b.fst := by
  unfold sortedKeys
  rw [keys_append, List.pairwise_append]
  constructor
  · rintro ⟨h1, h2, h3⟩
    refine ⟨h1, h2, ?_⟩
    intro a ha b hb
    exact h3 a.fst (List.mem_map_of_mem _ ha) b.fst (List.mem_map_of_mem _ hb)
  · rintro ⟨h1, h2, h3⟩
    refine ⟨h1, h2, ?_⟩
    intro ka hka kb hkb
    obtain ⟨a, ha, rfl⟩ := List.mem_map.mp hka
    obtain ⟨b, hb, rfl⟩ := List.mem_map.mp hkb
    exact h3 a ha b hb

theorem sortedKeys_cons {e : Nat × V} {l : List (Nat × V)} :
    sortedKeys (e :: l) ↔ (∀ a ∈ l, e.fst < a.fst) ∧ sortedKeys l := by
  unfold sortedKeys
  rw [keys, List.map_cons, List.pairwise_cons]
  constructor
  · rintro ⟨h1, h2⟩
    exact ⟨fun a ha => h1 a.fst (List.mem_map_of_mem _ ha), h2⟩
  · rintro ⟨h1, h2⟩
    refine ⟨?_, h2⟩
    intro ka hka
    obtain ⟨a, ha, rfl⟩ := List.mem_map.mp hka
    exact h1 a ha

theorem sortedKeys_sublist {A B : List (Nat × V)} (h : A.Sublist B)
    (hB : sortedKeys B) : sortedKeys A :=
  List.Pairwise.sublist (List.Sublist.map _ h) hB

/-- In a sorted block whose head key is `k`, every key is at least `k`. -/
theorem sorted_head_le {l : List (Nat × V)} {k : Nat}
    (hs : sortedKeys l) (hh : (keys l).head? = some k) :
    ∀ a ∈ l, k ≤ a.fst := by
  cases l with
  | nil => simp [keys] at hh
  | cons e rest =>
    simp only [keys, List.map_cons, List.head?_cons, Option.some_inj] at hh
    subst hh
    intro a ha
    rcases List.mem_cons.mp ha with rfl | ha'
    · exact Nat.le_refl _
    · exact Nat.le_of_lt ((sortedKeys_cons.mp hs).1 a ha')

/-! ## `find_idx` unfolding and the routing lemma -/

theorem find_idx_single (key : χ → Nat) (q : Nat) (c : χ) :
    find_idx key q [c] = 0 := by
  rw [find_idx_eq_scanIdx]; simp [scanIdx]

theorem find_idx_cons₂ (key : χ → Nat) (q : Nat) (c₀ c₁ : χ) (rest : List χ) :
    find_idx key q (c₀ :: c₁ :: rest) =
      match natCmp (key c₁) q with
      | .gt => 0
      | .eq => 1
      | .lt => find_idx key q (c₁ :: rest) + 1 := by
  rw [find_idx_eq_scanIdx, find_idx_eq_scanIdx]
  simp only [List.drop_succ_cons, List.drop_zero, scanIdx]
  cases natCmp (key c₁) q with
  | gt => simp
  | eq => simp
  | lt =>
    cases scanIdx (fun c => natCmp (key c) q) rest <;>
      simp [List.length_cons] <;> omega

/-- The routing lemma: at a node whose children carry nonempty, head-labelled
entry blocks with a sorted overall enumeration, `find_idx` selects the unique
child whose block can contain the query: every entry left of the selected
child is below the query and every entry right of it is above. -/
theorem find_idx_routing (key : χ → Nat) (f : χ → List (Nat × V)) (q : Nat) :
    ∀ (c₀ : χ) (tail : List χ),
      (∀ c ∈ c₀ :: tail, f c ≠ [] ∧ (keys (f c)).head? = some (key c)) →
      sortedKeys (((c₀ :: tail).map f).flatten) →
      ∃ A c B, c₀ :: tail = A ++ c :: B ∧
        A.length = find_idx key q (c₀ :: tail) ∧
        (∀ a ∈ (A.map f).flatten, a.fst < q) ∧
        (∀ b ∈ (B.map f).flatten, q < b.fst) := by
  intro c₀ tail
  induction tail generalizing c₀ with
  | nil =>
    intro _ _
    exact ⟨[], c₀, [], by simp, by simp [find_idx_single], by simp, by simp⟩
  | cons c₁ rest ih =>
    intro hblocks hsorted
    have hs₀ : sortedKeys (f c₀ ++ ((c₁ :: rest).map f).flatten) := by
      simpa using hsorted
    have hcross := (sortedKeys_append.mp hs₀).2.2
    have hb₁ := hblocks c₁ (by simp)
    have hhead₁ : ∀ a ∈ f c₁, key c₁ ≤ a.fst := by
      have hs₁ : sortedKeys (f c₁) := by
        have : sortedKeys (((c₁ :: rest).map f).flatten) :=
          (sortedKeys_append.mp hs₀).2.1
        have : sortedKeys (f c₁ ++ ((rest.map f).flatten)) := by simpa using this
        exact (sortedKeys_append.mp this).1
      exact sorted_head_le hs₁ hb₁.2
    rw [find_idx_cons₂]
    cases hc : natCmp (key c₁) q with
    | gt =>
      -- query below the second child's first key: route to child 0
      refine ⟨[], c₀, c₁ :: rest, rfl, by simp, by simp, ?_⟩
      have hq : q < key c₁ := natCmp_gt.mp hc
      intro b hb
      simp only [List.map_cons, List.flatten_cons, List.mem_append] at hb
      rcases hb with hb | hb
      · exact Nat.lt_of_lt_of_le hq (hhead₁ b hb)
      · -- entries of blocks after c₁ exceed the head of block c₁
        have hs₁ : sortedKeys (f c₁ ++ ((rest.map f).flatten)) := by
          simpa using (sortedKeys_append.mp hs₀).2.1
        have hcross₁ := (sortedKeys_append.mp hs₁).2.2
        obtain ⟨h₁, hh₁⟩ := hb₁
        obtain ⟨hd, hrest, hfc⟩ : ∃ hd hrest, f c₁ = hd :: hrest := by
          cases hfc : f c₁ with
          | nil => exact absurd hfc h₁
          | cons hd hrest => exact ⟨hd, hrest, rfl⟩
        have hdkey : hd.fst = key c₁ := by
          simpa [keys, hfc] using hh₁
        have := hcross₁ hd (by simp [hfc]) b hb
        omega
    | eq =>
      -- second child's first key equals the query: route to child 1
      refine ⟨[c₀], c₁, rest, rfl, by simp, ?_, ?_⟩
      · have hq : key c₁ = q := natCmp_eq.mp hc
        intro a ha
        simp only [List.map_cons, List.map_nil, List.flatten_cons,
          List.flatten_nil, List.append_nil] at ha
        have := hcross a ha
        obtain ⟨h₁, hh₁⟩ := hb₁
        obtain ⟨hd, hrest, hfc⟩ : ∃ hd hrest, f c₁ = hd :: hrest := by
          cases hfc : f c₁ with
          | nil => exact absurd hfc h₁
          | cons hd hrest => exact ⟨hd, hrest, rfl⟩
        have hdkey : hd.fst = key c₁ := by simpa [keys, hfc] using hh₁
        have hmem : hd ∈ ((c₁ :: rest).map f).flatten := by
          simp [hfc]
        have := hcross a ha hd hmem
        omega
      · have hq : key c₁ = q := natCmp_eq.mp hc
        intro b hb
        have hs₁ : sortedKeys (f c₁ ++ ((rest.map f).flatten)) := by
          simpa using (sortedKeys_append.mp hs₀).2.1
        have hcross₁ := (sortedKeys_append.mp hs₁).2.2
        obtain ⟨h₁, hh₁⟩ := hb₁
        obtain ⟨hd, hrest, hfc⟩ : ∃ hd hrest, f c₁ = hd :: hrest := by
          cases hfc : f c₁ with
          | nil => exact absurd hfc h₁
          | cons hd hrest => exact ⟨hd, hrest, rfl⟩
        have hdkey : hd.fst = key c₁ := by simpa [keys, hfc] using hh₁
        have := hcross₁ hd (by simp [hfc]) b hb
        omega
    | lt =>
      -- second child's first key is below the query: recurse into the tail
      have hq : key c₁ < q := natCmp_lt.mp hc
      obtain ⟨A, c, B, hdec, hlen, hA, hB⟩ :=
        ih c₁ (fun c hc => hblocks c (by simp [List.mem_cons] at hc ⊢; tauto))
          (by simpa using (sortedKeys_append.mp hs₀).2.1)
      refine ⟨c₀ :: A, c, B, by rw [List.cons_append, hdec], by simp [hlen], ?_, hB⟩
      intro a ha
      simp only [List.map_cons, List.flatten_cons, List.mem_append] at ha
      rcases ha with ha | ha
      · -- block 0 entries sit below the head of block 1, which is below q
        obtain ⟨h₁, hh₁⟩ := hb₁
        obtain ⟨hd, hrest, hfc⟩ : ∃ hd hrest, f c₁ = hd :: hrest := by
          cases hfc : f c₁ with
          | nil => exact absurd hfc h₁
          | cons hd hrest => exact ⟨hd, hrest, rfl⟩
        have hdkey : hd.fst = key c₁ := by simpa [keys, hfc] using hh₁
        have := hcross a ha hd (by simp [hfc])
        omega
      · exact hA a ha


/-! ## Reference-model lemmas -/

theorem refFind_eq_none {l : List (Nat × V)} {q : Nat}
    (h : ∀ a ∈ l, a.fst ≠ q) : refFind l q = none := by
  induction l with
  | nil => rfl
  | cons x xs ih =>
    rw [refFind, if_neg (h x (by simp))]
    exact ih (fun a ha => h a (by simp [ha]))

theorem refFind_append_left {A rest : List (Nat × V)} {q : Nat}
    (h : ∀ a ∈ A, a.fst ≠ q) : refFind (A ++ rest) q = refFind rest q := by
  induction A with
  | nil => rfl
  | cons x xs ih =>
    rw [List.cons_append, refFind, if_neg (h x (by simp))]
    exact ih (fun a ha => h a (by simp [ha]))

theorem refFind_append_right {B C : List (Nat × V)} {q : Nat}
    (h : ∀ c ∈ C, c.fst ≠ q) : refFind (B ++ C) q = refFind B q := by
  induction B with
  | nil => simpa using refFind_eq_none h
  | cons x xs ih =>
    rw [List.cons_append, refFind, refFind]
    split
    · rfl
    · exact ih

theorem refInsert_append_left {A rest : List (Nat × V)} {e : Nat × V}
    (h : ∀ a ∈ A, a.fst < e.fst) :
    refInsert (A ++ rest) e = A ++ refInsert rest e := by
  induction A with
  | nil => rfl
  | cons x xs ih =>
    have hx := h x (by simp)
    rw [List.cons_append, refInsert, if_neg (by omega), if_neg (by omega)]
    rw [ih (fun a ha => h a (by simp [ha])), List.cons_append]

theorem refInsert_append_right {B C : List (Nat × V)} {e : Nat × V}
    (h : ∀ c ∈ C, e.fst < c.fst) :
    refInsert (B ++ C) e = refInsert B e ++ C := by
  induction B with
  | nil =>
    cases C with
    | nil => rfl
    | cons c cs =>
      simp only [List.nil_append, refInsert]
      rw [if_pos (h c (by simp))]
      rfl
  | cons x xs ih =>
    simp only [List.cons_append, refInsert]
    split
    · rfl
    · split
      · rfl
      · simp only [List.append_eq]
        rw [ih, List.cons_append]

theorem refRemove_eq_self {l : List (Nat × V)} {q : Nat}
    (h : ∀ a ∈ l, a.fst ≠ q) : refRemove l q = l := by
  induction l with
  | nil => rfl
  | cons x xs ih =>
    rw [refRemove, if_neg (h x (by simp))]
    rw [ih (fun a ha => h a (by simp [ha]))]

theorem refRemove_append_left {A rest : List (Nat × V)} {q : Nat}
    (h : ∀ a ∈ A, a.fst ≠ q) :
    refRemove (A ++ rest) q = A ++ refRemove rest q := by
  induction A with
  | nil => rfl
  | cons x xs ih =>
    rw [List.cons_append, refRemove, if_neg (h x (by simp))]
    rw [ih (fun a ha => h a (by simp [ha])), List.cons_append]

theorem refRemove_append_right {B C : List (Nat × V)} {q : Nat}
    (h : ∀ c ∈ C, c.fst ≠ q) :
    refRemove (B ++ C) q = refRemove B q ++ C := by
  induction B with
  | nil => simpa using refRemove_eq_self h
  | cons x xs ih =>
    rw [List.cons_append, refRemove, refRemove]
    split
    · rfl
    · rw [ih, List.cons_append]

theorem refRemove_sublist (l : List (Nat × V)) (q : Nat) :
    (refRemove l q).Sublist l := by
  induction l with
  | nil => simp [refRemove]
  | cons x xs ih =>
    rw [refRemove]
    split
    · exact (List.sublist_cons_self x xs)
    · exact List.Sublist.cons₂ x ih

theorem refRemove_sorted {l : List (Nat × V)} {q : Nat} (h : sortedKeys l) :
    sortedKeys (refRemove l q) :=
  sortedKeys_sublist (refRemove_sublist l q) h

/-- Membership in `refInsert` comes from the new entry or the old list. -/
theorem refInsert_mem {l : List (Nat × V)} {e a : Nat × V}
    (h : a ∈ refInsert l e) : a = e ∨ a ∈ l := by
  induction l with
  | nil => simpa [refInsert] using h
  | cons x xs ih =>
    simp only [refInsert] at h
    split at h
    · rcases List.mem_cons.mp h with rfl | h'
      · simp
      · simp [h']
    · split at h
      · rcases List.mem_cons.mp h with rfl | h'
        · simp
        · simp [h']
      · rcases List.mem_cons.mp h with rfl | h'
        · simp
        · rcases ih h' with rfl | h''
          · simp
          · simp [h'']

theorem refInsert_sorted {l : List (Nat × V)} {e : Nat × V}
    (h : sortedKeys l) : sortedKeys (refInsert l e) := by
  induction l with
  | nil => simp [refInsert, sortedKeys, keys]
  | cons x xs ih =>
    obtain ⟨hx, hxs⟩ := sortedKeys_cons.mp h
    simp only [refInsert]
    split
    · next hlt =>
      refine sortedKeys_cons.mpr ⟨?_, h⟩
      intro a ha
      rcases List.mem_cons.mp ha with rfl | ha'
      · exact hlt
      · exact Nat.lt_trans hlt (hx a ha')
    · next hlt =>
      split
      · next heq =>
        refine sortedKeys_cons.mpr ⟨?_, hxs⟩
        intro a ha
        have := hx a ha
        omega
      · next heq =>
        refine sortedKeys_cons.mpr ⟨?_, ih hxs⟩
        intro a ha
        rcases refInsert_mem ha with rfl | ha'
        · omega
        · exact hx a ha'

theorem refFind_none_length {l : List (Nat × V)} {e : Nat × V}
    (h : refFind l e.fst = none) :
    (refInsert l e).length = l.length + 1 := by
  induction l with
  | nil => rfl
  | cons x xs ih =>
    rw [refFind] at h
    rw [refInsert]
    split at h
    · cases h
    · next hne =>
      split
      · simp
      · split
        · next heq => exact absurd heq.symm hne
        · simp [ih h]

theorem refFind_mem {l : List (Nat × V)} {q : Nat} {old : Nat × V}
    (h : refFind l q = some old) : old ∈ l ∧ old.fst = q := by
  induction l with
  | nil => cases h
  | cons x xs ih =>
    rw [refFind] at h
    split at h
    · next heq =>
      cases h
      exact ⟨by simp, heq⟩
    · obtain ⟨h1, h2⟩ := ih h
      exact ⟨by simp [h1], h2⟩

theorem refFind_some_length {l : List (Nat × V)} {e : Nat × V} {old : Nat × V}
    (hs : sortedKeys l) (h : refFind l e.fst = some old) :
    (refInsert l e).length = l.length := by
  induction l with
  | nil => cases h
  | cons x xs ih =>
    obtain ⟨hx, hxs⟩ := sortedKeys_cons.mp hs
    rw [refFind] at h
    simp only [refInsert]
    split at h
    · next heq =>
      rw [if_neg (by omega), if_pos (by omega)]
      simp
    · next hne =>
      obtain ⟨hmem, hkey⟩ := refFind_mem h
      have := hx old hmem
      rw [if_neg (by omega), if_neg (by omega)]
      simp [ih hxs h]

theorem refFind_none_refRemove {l : List (Nat × V)} {q : Nat}
    (h : refFind l q = none) : refRemove l q = l := by
  induction l with
  | nil => rfl
  | cons x xs ih =>
    rw [refFind] at h
    rw [refRemove]
    split at h
    · cases h
    · next hne =>
      rw [if_neg (by simpa using hne), ih h]

theorem refFind_some_refRemove_length {l : List (Nat × V)} {q : Nat}
    {old : Nat × V} (h : refFind l q = some old) :
    (refRemove l q).length + 1 = l.length := by
  induction l with
  | nil => cases h
  | cons x xs ih =>
    rw [refFind] at h
    rw [refRemove]
    split at h
    · next heq => rw [if_pos (by simpa using heq)]; simp
    · next hne =>
      rw [if_neg (by simpa using hne)]
      simp [ih h]

/-! ## Leaf-level correspondence with the reference model -/

theorem insertIdx_take_drop (l : List α) (n : Nat) (a : α) (h : n ≤ l.length) :
    l.insertIdx n a = l.take n ++ a :: l.drop n := by
  induction l generalizing n with
  | nil =>
    have hn : n = 0 := by simpa using h
    subst hn
    simp
  | cons x xs ih =>
    cases n with
    | zero => simp
    | succ m =>
      simp only [List.insertIdx_succ_cons, List.take_succ_cons,
        List.drop_succ_cons, List.cons_append, List.cons.injEq, true_and]
      exact ih m (by simpa using h)

/-- Consequences of a successful linear search on a sorted entry list:
the reference lookup finds the same entry, in-place replacement is the
reference upsert, and removal at the found index is the reference removal. -/
theorem query_ok_ref {l : List (Nat × V)} {q : Nat} {idx : Nat}
    (hs : sortedKeys l) (h : query_idx natCmp l q = .ok idx) :
    ∃ old, l.get? idx = some old ∧ old.fst = q ∧
      refFind l q = some old ∧
      (∀ v, l.set idx (q, v) = refInsert l (q, v)) ∧
      l.eraseIdx idx = refRemove l q := by
  rw [query_idx_eq_qidx] at h
  obtain ⟨hlt, htake, old, hget, hkey⟩ := qidx_ok_props l q idx h
  have hdrop : l.drop idx = old :: l.drop (idx + 1) := by
    have := List.drop_eq_getElem_cons (l := l) hlt
    rwa [(by
      rw [List.get?_eq_getElem?, List.getElem?_eq_getElem hlt] at hget
      exact Option.some_inj.mp hget : l[idx] = old)] at this
  have hsplit : l = l.take idx ++ old :: l.drop (idx + 1) := by
    conv_lhs => rw [← List.take_append_drop idx l]
    rw [hdrop]
  have hne : ∀ a ∈ l.take idx, a.fst ≠ q := fun a ha => by
    have := htake a ha; omega
  refine ⟨old, hget, hkey, ?_, ?_, ?_⟩
  · conv_lhs => rw [hsplit]
    rw [refFind_append_left hne, refFind, if_pos hkey]
  · intro v
    rw [List.set_eq_take_cons_drop _ hlt]
    conv_rhs => rw [hsplit]
    rw [refInsert_append_left (e := (q, v)) (fun a ha => by
      have := htake a ha; simpa using this)]
    rw [refInsert, if_neg (by simp [hkey]), if_pos (by simp [hkey])]
  · rw [List.eraseIdx_eq_take_drop_succ]
    conv_rhs => rw [hsplit]
    rw [refRemove_append_left hne, refRemove, if_pos hkey]

/-- Consequences of a failed linear search on a sorted entry list: the
reference lookup misses, insertion at the reported index is the reference
upsert, and the reference removal is the identity. -/
theorem query_err_ref {l : List (Nat × V)} {q : Nat} {idx : Nat}
    (hs : sortedKeys l) (h : query_idx natCmp l q = .error idx) :
    idx ≤ l.length ∧
    refFind l q = none ∧
    (∀ v, l.insertIdx idx (q, v) = refInsert l (q, v)) ∧
    refRemove l q = l := by
  rw [query_idx_eq_qidx] at h
  obtain ⟨hle, htake, hhd⟩ := qidx_err_props l q idx h
  have hdropgt : ∀ a ∈ l.drop idx, q < a.fst := by
    intro a ha
    cases hd : l.drop idx with
    | nil => rw [hd] at ha; cases ha
    | cons x xs =>
      have hx : q < x.fst := hhd x (by rw [hd]; rfl)
      have hsdrop : sortedKeys (l.drop idx) := by
        refine sortedKeys_sublist ?_ hs
        exact List.drop_sublist idx l
      rw [hd] at ha hsdrop
      rcases List.mem_cons.mp ha with rfl | ha'
      · exact hx
      · exact Nat.lt_trans hx ((sortedKeys_cons.mp hsdrop).1 a ha')
  have hne : ∀ a ∈ l.take idx, a.fst ≠ q := fun a ha => by
    have := htake a ha; omega
  have hsplit : l = l.take idx ++ l.drop idx := (List.take_append_drop idx l).symm
  refine ⟨hle, ?_, ?_, ?_⟩
  · conv_lhs => rw [hsplit]
    rw [refFind_append_left hne]
    exact refFind_eq_none (fun a ha => by have := hdropgt a ha; omega)
  · intro v
    rw [insertIdx_take_drop _ _ _ hle]
    conv_rhs => rw [hsplit]
    rw [refInsert_append_left (e := (q, v)) (fun a ha => by
      have := htake a ha; simpa using this)]
    congr 1
    cases hd : l.drop idx with
    | nil => rfl
    | cons x xs =>
      rw [refInsert, if_pos (by
        have := hdropgt x (by rw [hd]; exact List.mem_cons_self ..)
        simpa using this)]
  · exact refRemove_eq_self (fun a ha => by
      rw [hsplit] at ha
      rcases List.mem_append.mp ha with ha' | ha'
      · exact hne a ha'
      · have := hdropgt a ha'; omega)

/-! ## Structural shape of well-formed subtrees -/

theorem leafIds_goList_eq (cs : List NodeM) :
    NodeM.leafIds.goList cs = (cs.map NodeM.leafIds).flatten := by
  induction cs with
  | nil => rfl
  | cons c rest ih => simp [NodeM.leafIds.goList, ih]

theorem leafIds_internals (h t : Nat) (cs : List NodeM) :
    (NodeM.internals h t cs).leafIds = (cs.map NodeM.leafIds).flatten := by
  rw [NodeM.leafIds, leafIds_goList_eq]

theorem height_goList_le {cs : List NodeM} {c : NodeM} (h : c ∈ cs) :
    c.height ≤ NodeM.height.goList cs := by
  induction cs with
  | nil => cases h
  | cons x rest ih =>
    rw [NodeM.height.goList]
    rcases List.mem_cons.mp h with rfl | h'
    · exact Nat.le_max_left _ _
    · exact Nat.le_trans (ih h') (Nat.le_max_right _ _)

theorem height_pos (n : NodeM) : 1 ≤ n.height := by
  cases n <;> simp [NodeM.height] <;> omega

theorem height_child_lt {h t : Nat} {cs : List NodeM} {c : NodeM}
    (hc : c ∈ cs) : c.height < (NodeM.internals h t cs).height := by
  have := height_goList_le hc
  rw [NodeM.height]
  omega

theorem height_goList_uniform {cs : List NodeM} {k : Nat} (hne : cs ≠ [])
    (h : ∀ c ∈ cs, c.height = k) : NodeM.height.goList cs = k := by
  induction cs with
  | nil => exact absurd rfl hne
  | cons x rest ih =>
    rw [NodeM.height.goList]
    cases rest with
    | nil => simp [NodeM.height.goList, h x (by simp)]
    | cons y ys =>
      rw [h x (by simp), ih (by simp) (fun c hc => h c (by simp [hc]))]
      simp

theorem flatten_head {ls : List (List α)} {x : List α}
    (h0 : ls.head? = some x) (hx : x ≠ []) : ls.flatten.head? = x.head? := by
  cases ls with
  | nil => cases h0
  | cons y ys =>
    cases h0
    rw [List.flatten_cons, List.head?_append_of_ne_nil _ hx]

/-- Every list whose `getLast?` yields a nonempty block has a nonempty
flatten. -/
theorem flatten_ne_nil_of_last {ls : List (List α)} {x : List α}
    (h0 : ls.getLast? = some x) (hx : x ≠ []) : ls.flatten ≠ [] := by
  induction ls with
  | nil => cases h0
  | cons y ys ih =>
    cases ys with
    | nil =>
      cases h0
      simpa using hx
    | cons z zs =>
      rw [List.getLast?_cons_cons] at h0
      intro hflat
      rw [List.flatten_cons] at hflat
      have := List.append_eq_nil.mp hflat
      exact ih h0 this.2

theorem flatten_last {ls : List (List α)} {x : List α}
    (h0 : ls.getLast? = some x) (hx : x ≠ []) :
    ls.flatten.getLast? = x.getLast? := by
  induction ls with
  | nil => cases h0
  | cons y ys ih =>
    cases ys with
    | nil =>
      cases h0
      simp
    | cons z zs =>
      rw [List.getLast?_cons_cons] at h0
      rw [List.flatten_cons,
        List.getLast?_append_of_ne_nil _ (flatten_ne_nil_of_last h0 hx)]
      exact ih h0

theorem mem_of_getLast?_eq {l : List α} {x : α} (h : l.getLast? = some x) :
    x ∈ l := by
  induction l with
  | nil => cases h
  | cons a as ih =>
    cases as with
    | nil =>
      rw [List.getLast?_singleton] at h
      cases h
      simp
    | cons b bs =>
      rw [List.getLast?_cons_cons] at h
      exact List.mem_cons.mpr (Or.inr (ih h))

/-- Shape of a well-formed subtree: its leaf-handle list is nonempty, starts
at the cached `head` handle and ends at the cached `tail` handle, and every
leaf handle resolves to a nonempty, capacity-bounded leaf.  Consequently the
subtree's enumeration is nonempty, its first key is read by
`Leaf.firstKey` at the `head` cache and its last key by `Leaf.lastKey` at the
`tail` cache. -/
theorem nodeWF_shape {cap : Nat} {s : Store Nat V} :
    ∀ (k : Nat) (strict : Bool) (n : NodeM), n.height ≤ k →
      nodeWF cap s strict n →
      n.leafIds ≠ [] ∧
      n.leafIds.head? = some n.headId ∧
      n.leafIds.getLast? = some n.tailId ∧
      (∀ id ∈ n.leafIds, leafBase cap s id) := by
  intro k
  induction k with
  | zero =>
    intro strict n hk _
    have := height_pos n
    omega
  | succ k ih =>
    intro strict n hk hwf
    cases n with
    | leaves h t cs =>
      obtain ⟨h1, h2, h3, h4, h5, h6⟩ := hwf
      have hne : cs ≠ [] := by
        intro hnil
        rw [hnil] at h3
        cases h3
      exact ⟨hne, h3, h4, h5⟩
    | internals h t cs =>
      obtain ⟨h1, h2, h3, h4, h5, h6⟩ := hwf
      rw [nodeWF.goList_iff] at h6
      have hne : cs ≠ [] := by
        intro hnil
        rw [hnil] at h3
        cases h3
      obtain ⟨c₀, rest, rfl⟩ : ∃ c₀ rest, cs = c₀ :: rest := by
        cases cs with
        | nil => exact absurd rfl hne
        | cons c₀ rest => exact ⟨c₀, rest, rfl⟩
      obtain ⟨clast, hlast⟩ : ∃ clast, (c₀ :: rest).getLast? = some clast := by
        cases hl : (c₀ :: rest).getLast? with
        | some c => exact ⟨c, rfl⟩
        | none => exact absurd (List.getLast?_eq_none_iff.mp hl) (by simp)
      have hclast_mem : clast ∈ c₀ :: rest := mem_of_getLast?_eq hlast
      have hc₀ := ih true c₀
        (by have := height_child_lt (h := h) (t := t) (List.mem_cons_self c₀ rest); omega)
        (h6 c₀ (by simp))
      have hcl := ih true clast
        (by have := height_child_lt (h := h) (t := t) hclast_mem; omega)
        (h6 clast hclast_mem)
      rw [hlast] at h4
      simp at h3 h4
      constructor
      · rw [leafIds_internals]
        exact flatten_ne_nil_of_last
          (by rw [List.getLast?_map, hlast]; rfl) hcl.1
      refine ⟨?_, ?_, ?_⟩
      · rw [leafIds_internals, NodeM.headId]
        rw [flatten_head (x := c₀.leafIds) (by simp) hc₀.1, hc₀.2.1, h3]
      · rw [leafIds_internals, NodeM.tailId]
        rw [flatten_last (x := clast.leafIds)
          (by rw [List.getLast?_map, hlast]; rfl) hcl.1, hcl.2.2.1, h4]
      · intro id hid
        rw [leafIds_internals] at hid
        obtain ⟨l, hl, hidl⟩ := List.mem_flatten.mp hid
        obtain ⟨c, hc, rfl⟩ := List.mem_map.mp hl
        have hck := ih true c
          (by have := height_child_lt (h := h) (t := t) hc; omega) (h6 c hc)
        exact hck.2.2.2 id hidl

/-- Keys at the cached boundary leaves of a well-formed subtree. -/
theorem nodeWF_boundary_keys {cap : Nat} {s : Store Nat V} {strict : Bool}
    {n : NodeM} (hwf : nodeWF cap s strict n) :
    treeEntries s n ≠ [] ∧
    (keys (treeEntries s n)).head? = some (Leaf.firstKey s n.headId) ∧
    (keys (treeEntries s n)).getLast? = some (Leaf.lastKey s n.tailId) := by
  obtain ⟨hne, hhd, hlast, hbase⟩ := nodeWF_shape n.height strict n (Nat.le_refl _) hwf
  obtain ⟨dh, hdh, hdhne, _⟩ := hbase n.headId (List.mem_of_mem_head? hhd)
  obtain ⟨dt, hdt, hdtne, _⟩ := hbase n.tailId (mem_of_getLast?_eq hlast)
  have hleh : leafEntries s n.headId = dh.entries := by simp [leafEntries, hdh]
  have hlet : leafEntries s n.tailId = dt.entries := by simp [leafEntries, hdt]
  have hEhead : (treeEntries s n).head? = dh.entries.head? := by
    rw [treeEntries, flatten_head (x := leafEntries s n.headId)
      (by rw [List.head?_map, hhd]; rfl) (by rw [hleh]; exact hdhne), hleh]
  have hElast : (treeEntries s n).getLast? = dt.entries.getLast? := by
    rw [treeEntries, flatten_last (x := leafEntries s n.tailId)
      (by rw [List.getLast?_map, hlast]; rfl) (by rw [hlet]; exact hdtne), hlet]
  obtain ⟨⟨k₀, v₀⟩, es, hdh_entries⟩ : ∃ e₀ es, dh.entries = e₀ :: es := by
    cases hc : dh.entries with
    | nil => exact absurd hc hdhne
    | cons e₀ es => exact ⟨e₀, es, rfl⟩
  obtain ⟨⟨kl, vl⟩, hlast_entries⟩ : ∃ elast, dt.entries.getLast? = some elast := by
    cases hc : dt.entries.getLast? with
    | some x => exact ⟨x, rfl⟩
    | none => exact absurd (List.getLast?_eq_none_iff.mp hc) hdtne
  refine ⟨?_, ?_, ?_⟩
  · intro hnil
    rw [hnil] at hEhead
    rw [hdh_entries] at hEhead
    cases hEhead
  · rw [keys, List.head?_map, hEhead, hdh_entries]
    simp only [Leaf.firstKey, hdh, hdh_entries]
    rfl
  · rw [keys, List.getLast?_map, hElast, hlast_entries]
    simp only [Leaf.lastKey, hdt, hlast_entries]
    rfl

/-! ## Frame lemmas: operations only touch their own subtree's leaves -/

/-- Two stores agreeing on a set of handles. -/
def agreeOn (s s' : Store Nat V) (ids : List Nat) : Prop :=
  ∀ id ∈ ids, s' id = s id

theorem leafEntries_agree {s s' : Store Nat V} {ids : List Nat}
    (h : agreeOn s s' ids) {id : Nat} (hid : id ∈ ids) :
    leafEntries s' id = leafEntries s id := by
  rw [leafEntries, leafEntries, h id hid]

theorem treeEntries_agree {s s' : Store Nat V} {n : NodeM}
    (h : agreeOn s s' n.leafIds) : treeEntries s' n = treeEntries s n := by
  rw [treeEntries, treeEntries]
  congr 1
  exact List.map_congr_left (fun id hid => leafEntries_agree h hid)

theorem chainOK_agree {s s' : Store Nat V} :
    ∀ {ids : List Nat} {after : Option Nat}, agreeOn s s' ids →
      chainOK s ids after → chainOK s' ids after := by
  intro ids
  induction ids with
  | nil => intro after _ _; trivial
  | cons x rest ih =>
    intro after hag hch
    cases rest with
    | nil =>
      obtain ⟨d, hd, hnext⟩ := hch
      exact ⟨d, by rw [hag x (by simp)]; exact hd, hnext⟩
    | cons y ys =>
      obtain ⟨⟨d, hd, hnext⟩, hrest⟩ := hch
      exact ⟨⟨d, by rw [hag x (by simp)]; exact hd, hnext⟩,
        ih (fun id hid => hag id (by simp [hid])) hrest⟩

theorem nodeWF_agree {cap : Nat} {s s' : Store Nat V} :
    ∀ (k : Nat) (strict : Bool) (n : NodeM), n.height ≤ k →
      agreeOn s s' n.leafIds →
      nodeWF cap s strict n → nodeWF cap s' strict n := by
  intro k
  induction k with
  | zero =>
    intro strict n hk _ _
    have := height_pos n
    omega
  | succ k ih =>
    intro strict n hk hag hwf
    cases n with
    | leaves h t cs =>
      obtain ⟨h1, h2, h3, h4, h5, h6⟩ := hwf
      refine ⟨h1, h2, h3, h4, ?_, ?_⟩
      · intro id hid
        obtain ⟨d, hd, hne, hlen⟩ := h5 id hid
        exact ⟨d, by rw [hag id hid]; exact hd, hne, hlen⟩
      · intro hcond id hid
        obtain ⟨d, hd, hlen⟩ := h6 hcond id hid
        exact ⟨d, by rw [hag id hid]; exact hd, hlen⟩
    | internals h t cs =>
      obtain ⟨h1, h2, h3, h4, h5, h6⟩ := hwf
      rw [nodeWF.goList_iff] at h6
      refine ⟨h1, h2, h3, h4, h5, (nodeWF.goList_iff _ _ _).mpr ?_⟩
      intro c hc
      refine ih true c
        (by have := height_child_lt (h := h) (t := t) hc; omega) ?_ (h6 c hc)
      intro id hid
      refine hag id ?_
      rw [leafIds_internals]
      exact List.mem_flatten.mpr ⟨c.leafIds, List.mem_map_of_mem _ hc, hid⟩

/-! ## Chain-segment and misc list lemmas -/

theorem chainOK_append {s : Store Nat V} :
    ∀ {A B : List Nat} {after : Option Nat}, B ≠ [] →
      (chainOK s (A ++ B) after ↔ chainOK s A B.head? ∧ chainOK s B after) := by
  intro A
  induction A with
  | nil =>
    intro B after _
    simp [chainOK]
  | cons x xs ih =>
    intro B after hB
    cases xs with
    | nil =>
      cases B with
      | nil => exact absurd rfl hB
      | cons y ys =>
        constructor
        · rintro ⟨hx, hrest⟩
          exact ⟨hx, hrest⟩
        · rintro ⟨hx, hrest⟩
          exact ⟨hx, hrest⟩
    | cons x' xs' =>
      have hih := @ih B after hB
      constructor
      · rintro ⟨hx, hrest⟩
        have := hih.mp hrest
        exact ⟨⟨hx, this.1⟩, this.2⟩
      · rintro ⟨⟨hx, hch⟩, hB'⟩
        exact ⟨hx, hih.mpr ⟨hch, hB'⟩⟩

theorem insertIdx_append_left (A B : List α) (idx : Nat) (e : α)
    (h : idx ≤ A.length) :
    (A ++ B).insertIdx idx e = A.insertIdx idx e ++ B := by
  induction A generalizing idx with
  | nil =>
    have : idx = 0 := by simpa using h
    subst this
    simp
  | cons x xs ih =>
    cases idx with
    | zero => simp
    | succ m =>
      simp only [List.cons_append, List.insertIdx_succ_cons]
      rw [ih m (by simpa using h)]

theorem insertIdx_append_right (A B : List α) (idx : Nat) (e : α)
    (h : A.length ≤ idx) :
    (A ++ B).insertIdx idx e = A ++ B.insertIdx (idx - A.length) e := by
  induction A generalizing idx with
  | nil => simp
  | cons x xs ih =>
    cases idx with
    | zero => simp at h
    | succ m =>
      simp only [List.cons_append, List.insertIdx_succ_cons]
      rw [ih m (by simpa using h)]
      simp [Nat.succ_sub_succ]

theorem get?_append_cons (A : List α) (c : α) (B : List α) :
    (A ++ c :: B).get? A.length = some c := by
  induction A with
  | nil => rfl
  | cons x xs ih => simpa using ih

theorem sorted_le_last {l : List (Nat × V)} {m : Nat}
    (hs : sortedKeys l) (hm : (keys l).getLast? = some m) :
    ∀ a ∈ l, a.fst ≤ m := by
  induction l with
  | nil => simp
  | cons x xs ih =>
    obtain ⟨hx, hxs⟩ := sortedKeys_cons.mp hs
    intro a ha
    cases xs with
    | nil =>
      rcases List.mem_cons.mp ha with rfl | ha'
      · simp only [keys, List.map_cons, List.map_nil] at hm
        rw [List.getLast?_singleton] at hm
        cases hm
        exact Nat.le_refl _
      · cases ha'
    | cons y ys =>
      have hm' : (keys (y :: ys)).getLast? = some m := by
        simp only [keys, List.map_cons] at hm ⊢
        rw [List.getLast?_cons_cons] at hm
        exact hm
      rcases List.mem_cons.mp ha with rfl | ha'
      · have hy : a.fst < y.fst := hx y (by simp)
        have := ih hxs hm' y (by simp)
        omega
      · exact ih hxs hm' a ha'

/-- The height of every child of a well-formed internal node is one less than
the node's height. -/
theorem nodeWF_child_height {cap : Nat} {s : Store Nat V} {strict : Bool}
    {h t : Nat} {cs : List NodeM}
    (hwf : nodeWF cap s strict (.internals h t cs)) {c : NodeM} (hc : c ∈ cs) :
    c.height + 1 = (NodeM.internals h t cs).height := by
  obtain ⟨h1, h2, h3, h4, h5, h6⟩ := hwf
  have hne : cs ≠ [] := by
    intro hnil
    rw [hnil] at h3
    cases h3
  obtain ⟨c₀, rest, rfl⟩ : ∃ c₀ rest, cs = c₀ :: rest := by
    cases cs with
    | nil => exact absurd rfl hne
    | cons c₀ rest => exact ⟨c₀, rest, rfl⟩
  have hk := h5 c hc
  simp at hk
  rw [NodeM.height, height_goList_uniform (k := c₀.height) hne (fun c' hc' => by
    have := h5 c' hc'
    simpa using this)]
  omega

/-! ## Leaf operation specifications -/

/-- `Leaf::get` returns exactly the reference lookup on the leaf's entries. -/
theorem leaf_get_spec {s : Store Nat V} {id : Nat} {d : LeafData Nat V}
    (hs : s id = some d) (hsorted : sortedKeys d.entries) (q : Nat) :
    Leaf.get natCmp s id q = refFind d.entries q := by
  cases hq : query_idx natCmp d.entries q with
  | ok idx =>
    obtain ⟨old, hget, hkey, hfind, _, _⟩ := query_ok_ref hsorted hq
    simp only [Leaf.get, hs, hq]
    rw [hget, hfind]
  | error idx =>
    obtain ⟨_, hfind, _, _⟩ := query_err_ref hsorted hq
    simp only [Leaf.get, hs, hq]
    rw [hfind]

/-- `Leaf::insert` specification: the previous entry is the reference lookup;
without a split the leaf's entries become the reference upsert with links
untouched; on a split (only when the leaf is full and the key fresh) the two
leaves' entries concatenate to the reference upsert, each half holds exactly
`B` entries, and the chain is re-linked through the new leaf. -/
theorem leaf_insert_spec {cap : Nat} (hodd : cap % 2 = 1) (hcap : 3 < cap)
    {s : Store Nat V} {id fresh : Nat} {d : LeafData Nat V}
    (hs : s id = some d) (hsorted : sortedKeys d.entries)
    (hlen : d.entries.length ≤ cap) (hne : id ≠ fresh) (e : Nat × V) :
    (∀ s' f' prev, Leaf.insert cap natCmp s id fresh e = (s', f', prev, none) →
      prev = refFind d.entries e.fst ∧ f' = fresh ∧
      s' = s.set id { d with entries := refInsert d.entries e } ∧
      (prev = none → d.entries.length < cap)) ∧
    (∀ s' f' prev nid, Leaf.insert cap natCmp s id fresh e =
        (s', f', prev, some nid) →
      nid = fresh ∧ f' = fresh + 1 ∧ prev = none ∧
      refFind d.entries e.fst = none ∧
      d.entries.length = cap ∧
      ∃ E₁ E₂, E₁ ++ E₂ = refInsert d.entries e ∧
        E₁.length = minFill cap ∧ E₂.length = minFill cap ∧
        s' = (s.set id { entries := E₁, prev := d.prev, next := some fresh }).set
          fresh { entries := E₂, prev := some id, next := d.next }) := by
  have hb : minFill cap = cap / 2 + 1 := rfl
  cases hq : query_idx natCmp d.entries e.fst with
  | ok idx =>
    obtain ⟨old, hget, hkey, hfind, hset, _⟩ := query_ok_ref hsorted hq
    have hres : Leaf.insert cap natCmp s id fresh e =
        (s.set id { d with entries := d.entries.set idx e }, fresh, some old,
          none) := by
      simp only [Leaf.insert, hs, hq, hget]
    constructor
    · intro s' f' prev heq
      rw [hres] at heq
      injection heq with h1 heq
      injection heq with h2 heq
      injection heq with h3 _
      subst h1; subst h2; subst h3
      refine ⟨hfind.symm, rfl, ?_, ?_⟩
      · have : d.entries.set idx e = refInsert d.entries e := by
          have := hset e.snd
          simpa using this
        rw [this]
      · intro hnone
        cases hnone
    · intro s' f' prev nid heq
      rw [hres] at heq
      injection heq with _ heq
      injection heq with _ heq
      injection heq with _ h4
      cases h4
  | error idx =>
    obtain ⟨hle, hfind, hins, _⟩ := query_err_ref hsorted hq
    by_cases hfull : d.entries.length = cap
    · -- full leaf: split
      set E₁ := (if idx < minFill cap
        then (d.entries.take (minFill cap - 1)).insertIdx idx e
        else d.entries.take (minFill cap)) with hE₁
      set E₂ := (if idx < minFill cap
        then d.entries.drop (minFill cap - 1)
        else (d.entries.drop (minFill cap)).insertIdx (idx - minFill cap) e)
        with hE₂
      have hsplit : insert_or_split cap d.entries idx e = (E₁, some E₂) := by
        rw [insert_or_split]
        simp only [hfull]
        rw [if_neg (by omega)]
        rw [hE₁, hE₂]
        split_ifs <;> rfl
      have hres : Leaf.insert cap natCmp s id fresh e =
          ((s.set id ⟨E₁, d.prev, some fresh⟩).set fresh
            ⟨E₂, some id, d.next⟩, fresh + 1, none, some fresh) := by
        simp only [Leaf.insert, hs, hq, hsplit]
      have hEcat : E₁ ++ E₂ = refInsert d.entries e := by
        rw [hE₁, hE₂, ← hins e.snd]
        by_cases hidx : idx < minFill cap
        · rw [if_pos hidx, if_pos hidx]
          rw [← insertIdx_append_left _ _ _ _ (by
            simp only [List.length_take]
            omega)]
          rw [List.take_append_drop]
        · rw [if_neg hidx, if_neg hidx]
          conv_rhs => rw [← List.take_append_drop (minFill cap) d.entries]
          rw [insertIdx_append_right _ _ _ _ (by
            simp only [List.length_take]
            omega)]
          simp only [List.length_take]
          rw [show min (minFill cap) d.entries.length = minFill cap from by omega]
      have hlen₁ : E₁.length = minFill cap := by
        rw [hE₁]
        by_cases hidx : idx < minFill cap
        · rw [if_pos hidx]
          rw [List.length_insertIdx _ _ (by simp [List.length_take]; omega)]
          simp [List.length_take]
          omega
        · rw [if_neg hidx]
          simp [List.length_take]
          omega
      have hlen₂ : E₂.length = minFill cap := by
        rw [hE₂]
        by_cases hidx : idx < minFill cap
        · rw [if_pos hidx]
          simp [List.length_drop, hfull]
          omega
        · rw [if_neg hidx]
          rw [List.length_insertIdx _ _ (by simp [List.length_drop]; omega)]
          simp [List.length_drop, hfull]
          omega
      constructor
      · intro s' f' prev heq
        rw [hres] at heq
        injection heq with _ heq
        injection heq with _ heq
        injection heq with _ h4
        cases h4
      · intro s' f' prev nid heq
        rw [hres] at heq
        injection heq with h1 heq
        injection heq with h2 heq
        injection heq with h3 h4
        injection h4 with h4
        subst h1; subst h2; subst h3; subst h4
        exact ⟨rfl, rfl, rfl, hfind, hfull, E₁, E₂, hEcat, hlen₁, hlen₂, rfl⟩
    · -- leaf has room: plain insert
      have hsplit : insert_or_split cap d.entries idx e =
          (d.entries.insertIdx idx e, none) := by
        rw [insert_or_split, if_pos hfull]
      have hres : Leaf.insert cap natCmp s id fresh e =
          (s.set id { d with entries := d.entries.insertIdx idx e }, fresh,
            none, none) := by
        simp only [Leaf.insert, hs, hq, hsplit]
      constructor
      · intro s' f' prev heq
        rw [hres] at heq
        injection heq with h1 heq
        injection heq with h2 heq
        injection heq with h3 _
        subst h1; subst h2; subst h3
        refine ⟨hfind.symm, rfl, ?_, fun _ => by omega⟩
        rw [← hins e.snd]
      · intro s' f' prev nid heq
        rw [hres] at heq
        injection heq with _ heq
        injection heq with _ heq
        injection heq with _ h4
        cases h4

/-- `Leaf::remove` specification: a miss leaves the store untouched and the
reference lookup misses too; a hit removes exactly the reference-removed
entry, reports under-fill as `length < B`, and leaves the links untouched. -/
theorem leaf_remove_spec {cap : Nat} {s : Store Nat V} {id : Nat}
    {d : LeafData Nat V} (hs : s id = some d)
    (hsorted : sortedKeys d.entries) (q : Nat) :
    (Leaf.remove cap natCmp s id q = (s, none) →
      refFind d.entries q = none ∧ refRemove d.entries q = d.entries) ∧
    (∀ s' entry need, Leaf.remove cap natCmp s id q = (s', some (entry, need)) →
      refFind d.entries q = some entry ∧
      s' = s.set id { d with entries := refRemove d.entries q } ∧
      (refRemove d.entries q).length + 1 = d.entries.length ∧
      need = decide ((refRemove d.entries q).length < minFill cap)) ∧
    ((Leaf.remove cap natCmp s id q).2 = none →
      Leaf.remove cap natCmp s id q = (s, none)) := by
  cases hq : query_idx natCmp d.entries q with
  | ok idx =>
    obtain ⟨old, hget, hkey, hfind, _, herase⟩ := query_ok_ref hsorted hq
    have hres : Leaf.remove cap natCmp s id q =
        (s.set id { d with entries := d.entries.eraseIdx idx },
          some (old, decide ((d.entries.eraseIdx idx).length < minFill cap))) := by
      simp only [Leaf.remove, hs, hq, hget]
    refine ⟨?_, ?_, ?_⟩
    · intro heq
      rw [hres] at heq
      injection heq with _ h2
      cases h2
    · intro s' entry need heq
      rw [hres] at heq
      injection heq with h1 h2
      injection h2 with h2
      injection h2 with h2 h3
      subst h1; subst h2; subst h3
      have hlen : idx < d.entries.length := by
        rw [query_idx_eq_qidx] at hq
        exact (qidx_ok_props _ _ _ hq).1
      refine ⟨hfind, by rw [herase], ?_, by rw [herase]⟩
      rw [← herase, List.length_eraseIdx_of_lt hlen]
      omega
    · intro heq
      rw [hres] at heq
      cases heq
  | error idx =>
    obtain ⟨_, hfind, _, hrem⟩ := query_err_ref hsorted hq
    have hres : Leaf.remove cap natCmp s id q = (s, none) := by
      simp only [Leaf.remove, hs, hq]
    refine ⟨fun _ => ⟨hfind, hrem⟩, ?_, fun _ => hres⟩
    intro s' entry need heq
    rw [hres] at heq
    injection heq with _ h2
    cases h2

/-! ## Lookup correctness -/

theorem flatten_map_flatten (A : List (List α)) (g : α → List β) :
    ((A.flatten).map g).flatten = (A.map (fun l => ((l.map g).flatten))).flatten := by
  induction A with
  | nil => rfl
  | cons x xs ih =>
    simp only [List.flatten_cons, List.map_append, List.flatten_append,
      List.map_cons]
    rw [ih]

theorem treeEntries_internals (s : Store Nat V) (h t : Nat) (cs : List NodeM) :
    treeEntries s (.internals h t cs) = (cs.map (treeEntries s)).flatten := by
  rw [treeEntries, leafIds_internals, flatten_map_flatten]
  congr 1
  rw [List.map_map]
  rfl

/-- The entry block of an existing leaf is nonempty and starts at the leaf's
first key. -/
theorem leaf_block_head {cap : Nat} {s : Store Nat V} {id : Nat}
    (h : leafBase cap s id) :
    leafEntries s id ≠ [] ∧
    (keys (leafEntries s id)).head? = some (Leaf.firstKey s id) := by
  obtain ⟨d, hd, hne, _⟩ := h
  obtain ⟨⟨k₀, v₀⟩, es, hents⟩ : ∃ e₀ es, d.entries = e₀ :: es := by
    cases hc : d.entries with
    | nil => exact absurd hc hne
    | cons e₀ es => exact ⟨e₀, es, rfl⟩
  have hle : leafEntries s id = d.entries := by simp [leafEntries, hd]
  constructor
  · rw [hle]; exact hne
  · rw [hle, hents, keys, List.map_cons, List.head?_cons]
    simp only [Leaf.firstKey, hd, hents]

/-- A query beyond the subtree's last key misses. -/
theorem refFind_of_tail_lt {cap : Nat} {s : Store Nat V} {strict : Bool}
    {n : NodeM} (hwf : nodeWF cap s strict n)
    (hsorted : sortedKeys (treeEntries s n)) {q : Nat}
    (htail : Leaf.lastKey s n.tailId < q) :
    refFind (treeEntries s n) q = none ∧
    refRemove (treeEntries s n) q = treeEntries s n := by
  obtain ⟨_, _, hlastk⟩ := nodeWF_boundary_keys hwf
  have hall := sorted_le_last hsorted hlastk
  constructor
  · exact refFind_eq_none (fun a ha => by have := hall a ha; omega)
  · exact refRemove_eq_self (fun a ha => by have := hall a ha; omega)

/-- `Internal::get` computes exactly the reference lookup over the subtree's
enumeration. -/
theorem nodeGet_spec {cap : Nat} {s : Store Nat V} :
    ∀ (fuel : Nat) (strict : Bool) (n : NodeM), n.height ≤ fuel →
      nodeWF cap s strict n → sortedKeys (treeEntries s n) →
      ∀ q, nodeGet s fuel n q = refFind (treeEntries s n) q := by
  intro fuel
  induction fuel with
  | zero =>
    intro strict n hk _ _ _
    have := height_pos n
    omega
  | succ fuel ih =>
    intro strict n hk hwf hsorted q
    by_cases htail : Leaf.lastKey s n.tailId < q
    · have hci : child_idx s n q = none := by
        unfold child_idx
        rw [if_pos htail]
      have hfind := (refFind_of_tail_lt hwf hsorted htail).1
      cases n with
      | leaves h t cs => simp only [nodeGet, hci, hfind]
      | internals h t cs => simp only [nodeGet, hci, hfind]
    · cases n with
      | leaves h t cs =>
        have hci : child_idx s (.leaves h t cs) q =
            some (find_idx (fun id => Leaf.firstKey s id) q cs) := by
          unfold child_idx
          rw [if_neg htail]
        obtain ⟨h1, h2, h3, h4, h5, h6⟩ := hwf
        obtain ⟨c₀, tail, rfl⟩ : ∃ c₀ tail, cs = c₀ :: tail := by
          cases cs with
          | nil => cases h3
          | cons c₀ tail => exact ⟨c₀, tail, rfl⟩
        have hE : treeEntries s (.leaves h t (c₀ :: tail)) =
            ((c₀ :: tail).map (leafEntries s)).flatten := rfl
        obtain ⟨A, c, B, hdec, hlen, hA, hB⟩ :=
          find_idx_routing (fun id => Leaf.firstKey s id) (leafEntries s) q c₀
            tail (fun id hid => leaf_block_head (h5 id hid))
            (by rw [← hE]; exact hsorted)
        have hget : (c₀ :: tail).get? (find_idx (fun id => Leaf.firstKey s id)
            q (c₀ :: tail)) = some c := by
          rw [← hlen, hdec]
          exact get?_append_cons A c B
        obtain ⟨d, hd, hdne, _⟩ := h5 c (by rw [hdec]; simp)
        have hsortc : sortedKeys (leafEntries s c) := by
          rw [hE, hdec] at hsorted
          simp only [List.map_append, List.map_cons, List.flatten_append,
            List.flatten_cons] at hsorted
          exact (sortedKeys_append.mp (sortedKeys_append.mp hsorted).2.1).1
        have hgetc : Leaf.get natCmp s c q = refFind (leafEntries s c) q := by
          have := leaf_get_spec hd (by
            have : leafEntries s c = d.entries := by simp [leafEntries, hd]
            rwa [this] at hsortc) q
          rwa [(by simp [leafEntries, hd] : leafEntries s c = d.entries)]
        simp only [nodeGet, hci, hget, hgetc]
        rw [hE, hdec]
        simp only [List.map_append, List.map_cons, List.flatten_append,
          List.flatten_cons]
        rw [refFind_append_left (fun a ha => by have := hA a ha; omega)]
        rw [refFind_append_right (fun a ha => by have := hB a ha; omega)]
      | internals h t cs =>
        have hci : child_idx s (.internals h t cs) q =
            some (find_idx (fun c => Leaf.firstKey s c.headId) q cs) := by
          unfold child_idx
          rw [if_neg htail]
        have hwf' := hwf
        obtain ⟨h1, h2, h3, h4, h5, h6⟩ := hwf
        rw [nodeWF.goList_iff] at h6
        obtain ⟨c₀, tail, rfl⟩ : ∃ c₀ tail, cs = c₀ :: tail := by
          cases cs with
          | nil => cases h3
          | cons c₀ tail => exact ⟨c₀, tail, rfl⟩
        have hE := treeEntries_internals s h t (c₀ :: tail)
        obtain ⟨A, c, B, hdec, hlen, hA, hB⟩ :=
          find_idx_routing (fun c => Leaf.firstKey s c.headId) (treeEntries s)
            q c₀ tail
            (fun c hc => by
              obtain ⟨hne', hhd', _⟩ := nodeWF_boundary_keys (h6 c hc)
              exact ⟨hne', hhd'⟩)
            (by rw [← hE]; exact hsorted)
        have hget : (c₀ :: tail).get? (find_idx
            (fun c => Leaf.firstKey s c.headId) q (c₀ :: tail)) = some c := by
          rw [← hlen, hdec]
          exact get?_append_cons A c B
        have hcmem : c ∈ c₀ :: tail := by rw [hdec]; simp
        have hsortc : sortedKeys (treeEntries s c) := by
          rw [hE, hdec] at hsorted
          simp only [List.map_append, List.map_cons, List.flatten_append,
            List.flatten_cons] at hsorted
          exact (sortedKeys_append.mp (sortedKeys_append.mp hsorted).2.1).1
        have hrec : nodeGet s fuel c q = refFind (treeEntries s c) q := by
          refine ih true c ?_ (h6 c hcmem) hsortc q
          have := nodeWF_child_height hwf' hcmem
          omega
        simp only [nodeGet, hci, hget, hrec]
        rw [hE, hdec]
        simp only [List.map_append, List.map_cons, List.flatten_append,
          List.flatten_cons]
        rw [refFind_append_left (fun a ha => by have := hA a ha; omega)]
        rw [refFind_append_right (fun a ha => by have := hB a ha; omega)]

/-! ## Chain-surgery toolkit -/

/-- A chain link depends only on the cell's presence and `next` field. -/
theorem chain_link_iff {s : Store Nat V} {x : Nat} {o : Option Nat} :
    (∃ d, s x = some d ∧ d.next = o) ↔ (s x).map LeafData.next = some o := by
  constructor
  · rintro ⟨d, hd, hnext⟩
    rw [hd, Option.map_some']
    exact congrArg some hnext
  · intro h
    cases hs : s x with
    | none => rw [hs] at h; cases h
    | some d =>
      rw [hs, Option.map_some'] at h
      exact ⟨d, rfl, Option.some_inj.mp h⟩

theorem chainOK_congr {s s' : Store Nat V} :
    ∀ {ids : List Nat} {after : Option Nat},
      (∀ x ∈ ids, (s' x).map LeafData.next = (s x).map LeafData.next) →
      chainOK s ids after → chainOK s' ids after := by
  intro ids
  induction ids with
  | nil => intro after _ _; trivial
  | cons x rest ih =>
    intro after hag hch
    cases rest with
    | nil =>
      rw [chainOK] at hch ⊢
      rw [chain_link_iff] at hch ⊢
      rw [hag x (by simp)]
      exact hch
    | cons y ys =>
      obtain ⟨hl, hrest⟩ := hch
      rw [chain_link_iff] at hl
      refine ⟨chain_link_iff.mpr (by rw [hag x (by simp)]; exact hl), ?_⟩
      exact ih (fun id hid => hag id (by simp [hid])) hrest

/-- The continuation of a trailing segment: its first handle, or the outer
continuation if it is empty. -/
def segCont (S : List Nat) (after : Option Nat) : Option Nat :=
  match S with
  | [] => after
  | y :: _ => some y

theorem chainOK_middle {s : Store Nat V} {P M S : List Nat} {after : Option Nat}
    (hM : M ≠ []) (hch : chainOK s (P ++ M ++ S) after) :
    chainOK s M (segCont S after) := by
  cases hS : S with
  | nil =>
    rw [hS] at hch
    simp only [List.append_nil] at hch
    exact ((chainOK_append hM).mp hch).2
  | cons y ys =>
    rw [hS] at hch
    have h₁ := (chainOK_append (by simp : (M ++ y :: ys) ≠ [])).mp
      (by rwa [List.append_assoc] at hch)
    have h₂ := (chainOK_append (by simp : (y :: ys : List Nat) ≠ [])).mp h₁.2
    have : M.head? ≠ none := by
      cases M with
      | nil => exact absurd rfl hM
      | cons m ms => simp
    exact h₂.1

theorem chainOK_replace_segment {s s' : Store Nat V} {P M M' S : List Nat}
    {after : Option Nat} (hM : M ≠ []) (hM' : M' ≠ [])
    (hhead : M'.head? = M.head?)
    (hch : chainOK s (P ++ M ++ S) after)
    (hP : ∀ x ∈ P, (s' x).map LeafData.next = (s x).map LeafData.next)
    (hS : ∀ x ∈ S, (s' x).map LeafData.next = (s x).map LeafData.next)
    (hMch : chainOK s' M' (segCont S after)) :
    chainOK s' (P ++ M' ++ S) after := by
  cases hSc : S with
  | nil =>
    subst hSc
    simp only [List.append_nil] at hch ⊢
    have h₁ := (chainOK_append hM).mp hch
    refine (chainOK_append hM').mpr ⟨?_, ?_⟩
    · rw [hhead]
      exact chainOK_congr hP h₁.1
    · simpa [segCont] using hMch
  | cons y ys =>
    subst hSc
    rw [List.append_assoc] at hch ⊢
    have h₁ := (chainOK_append (by simp : (M ++ y :: ys) ≠ [])).mp hch
    have h₂ := (chainOK_append (by simp : (y :: ys : List Nat) ≠ [])).mp h₁.2
    refine (chainOK_append (by simp [hM'] : (M' ++ y :: ys) ≠ [])).mpr ⟨?_, ?_⟩
    · have hheads : (M' ++ y :: ys).head? = (M ++ y :: ys).head? := by
        cases M with
        | nil => exact absurd rfl hM
        | cons m ms =>
          cases M' with
          | nil => exact absurd rfl hM'
          | cons m' ms' =>
            simpa using hhead
      rw [hheads]
      exact chainOK_congr hP h₁.1
    · refine (chainOK_append (by simp : (y :: ys : List Nat) ≠ [])).mpr ⟨?_, ?_⟩
      · simpa [segCont] using hMch
      · exact chainOK_congr (fun x hx => hS x hx) h₂.2

/-- Replacing a middle segment by fresh-or-old handles preserves
distinctness and the handle bound. -/
theorem nodup_replace_segment {P M M' S : List Nat} {fresh f' : Nat}
    (hnd : (P ++ M ++ S).Nodup) (hfr : ∀ id ∈ P ++ M ++ S, id < fresh)
    (hf : fresh ≤ f')
    (hM' : M'.Nodup) (hsub : ∀ id ∈ M', id ∈ M ∨ (fresh ≤ id ∧ id < f')) :
    (P ++ M' ++ S).Nodup ∧ (∀ id ∈ P ++ M' ++ S, id < f') ∧
    (∀ id ∈ P ++ M' ++ S, id ∈ P ++ M ++ S ∨ fresh ≤ id) := by
  rw [List.nodup_append, List.nodup_append] at hnd
  have hP := hnd.1.1
  have hM := hnd.1.2.1
  have hPM := hnd.1.2.2
  have hS := hnd.2.1
  have hdisj := hnd.2.2
  have hPfr : ∀ id ∈ P, id < fresh := fun id hid =>
    hfr id (by simp [hid])
  have hMfr : ∀ id ∈ M, id < fresh := fun id hid =>
    hfr id (by simp [hid])
  have hSfr : ∀ id ∈ S, id < fresh := fun id hid =>
    hfr id (by simp [hid])
  refine ⟨?_, ?_, ?_⟩
  · rw [List.nodup_append, List.nodup_append]
    refine ⟨⟨hP, hM', ?_⟩, hS, ?_⟩
    · intro x hxP hxM'
      rcases hsub x hxM' with hxM | ⟨hge, _⟩
      · exact hPM hxP hxM
      · have := hPfr x hxP; omega
    · intro x hx hxS
      rcases List.mem_append.mp hx with hxP | hxM'
      · exact hdisj (by simp [hxP]) hxS
      · rcases hsub x hxM' with hxM | ⟨hge, _⟩
        · exact hdisj (by simp [hxM]) hxS
        · have := hSfr x hxS; omega
  · intro id hid
    rcases List.mem_append.mp hid with hid' | hidS
    · rcases List.mem_append.mp hid' with hidP | hidM'
      · have := hPfr id hidP; omega
      · rcases hsub id hidM' with hidM | ⟨_, hlt⟩
        · have := hMfr id hidM; omega
        · exact hlt
    · have := hSfr id hidS; omega
  · intro id hid
    rcases List.mem_append.mp hid with hid' | hidS
    · rcases List.mem_append.mp hid' with hidP | hidM'
      · exact Or.inl (by simp [hidP])
      · rcases hsub id hidM' with hidM | ⟨hge, _⟩
        · exact Or.inl (by simp [hidM])
        · exact Or.inr hge
    · exact Or.inl (by simp [hidS])

/-! ## Insert preservation -/

/-- Leaf handles contributed by an optional split sibling. -/
def sibIds : Option NodeM → List Nat
  | none => []
  | some sb => sb.leafIds

/-- Entries contributed by an optional split sibling. -/
def optEntries (s : Store Nat V) : Option NodeM → List (Nat × V)
  | none => []
  | some sb => treeEntries s sb

theorem leafEntries_set_self (s : Store Nat V) (id : Nat) (d : LeafData Nat V) :
    leafEntries (s.set id d) id = d.entries := by
  rw [leafEntries, Store.set_self]
  rfl

theorem leafEntries_set_other (s : Store Nat V) (id : Nat) (d : LeafData Nat V)
    {j : Nat} (h : j ≠ id) : leafEntries (s.set id d) j = leafEntries s j := by
  rw [leafEntries, Store.set_other _ _ _ _ h]
  rfl

theorem insertIdx_after_cons (A : List α) (c : α) (B : List α) (x : α) :
    (A ++ c :: B).insertIdx (A.length + 1) x = A ++ c :: x :: B := by
  induction A with
  | nil => rfl
  | cons a as ih =>
    simp only [List.cons_append, List.length_cons, List.insertIdx_succ_cons]
    rw [ih]

theorem getLast?_isSome_of_ne_nil {l : List α} (h : l ≠ []) :
    ∃ x, l.getLast? = some x := by
  cases hl : l.getLast? with
  | some x => exact ⟨x, rfl⟩
  | none => exact absurd (List.getLast?_eq_none_iff.mp hl) h

/-- The postcondition of `Internal::insert` on a subtree: the returned
previous entry is the reference lookup; the fresh counter advances by at most
one; leaves outside the subtree are untouched; the new leaf-handle sequence
reuses the old handles plus at most the fresh one, stays duplicate-free,
starts at the same leaf, and remains correctly chained; the combined
enumeration is the reference upsert; the cached head, the height and (absent
a split) the well-formedness level are preserved; a replacement changes no
structure; a split yields two strictly well-formed nodes of equal height. -/
def InsPost (cap : Nat) (s : Store Nat V) (strict : Bool) (n : NodeM)
    (fresh : Nat) (e : Nat × V) (after : Option Nat) (n' : NodeM)
    (s' : Store Nat V) (f' : Nat) (prev : Option (Nat × V))
    (sib : Option NodeM) : Prop :=
  prev = refFind (treeEntries s n) e.fst ∧
  fresh ≤ f' ∧ f' ≤ fresh + 1 ∧
  (∀ j, j ∉ n.leafIds → j ≠ fresh → s' j = s j) ∧
  (∀ id ∈ n'.leafIds ++ sibIds sib, id ∈ n.leafIds ∨ (fresh ≤ id ∧ id < f')) ∧
  (n'.leafIds ++ sibIds sib).Nodup ∧
  (n'.leafIds ++ sibIds sib).head? = n.leafIds.head? ∧
  chainOK s' (n'.leafIds ++ sibIds sib) after ∧
  treeEntries s' n' ++ optEntries s' sib = refInsert (treeEntries s n) e ∧
  n'.headId = n.headId ∧
  n'.height = n.height ∧
  (prev.isSome → n' = n ∧ sib = none ∧ f' = fresh) ∧
  (match sib with
   | none => nodeWF cap s' strict n' ∧ n.childCount ≤ n'.childCount
   | some sb => nodeWF cap s' true n' ∧ nodeWF cap s' true sb ∧
       sb.height = n.height ∧ prev = none)

theorem leafIds_leaves (h t : Nat) (cs : List Nat) :
    (NodeM.leaves h t cs).leafIds = cs := rfl

theorem treeEntries_leaves (s : Store Nat V) (h t : Nat) (cs : List Nat) :
    treeEntries s (.leaves h t cs) = (cs.map (leafEntries s)).flatten := rfl

theorem head?_append_replace {P M M' S : List α} (hM : M ≠ []) (hM' : M' ≠ [])
    (hh : M'.head? = M.head?) :
    (P ++ M' ++ S).head? = (P ++ M ++ S).head? := by
  cases P with
  | nil =>
    simp only [List.nil_append]
    rw [List.head?_append_of_ne_nil _ hM, List.head?_append_of_ne_nil _ hM', hh]
  | cons p ps => rfl

/-- Generic join property of `insert_or_split`: the lower and upper halves
concatenate to the plain insertion. -/
theorem insert_or_split_join (cap : Nat) (hodd : cap % 2 = 1) (hcap : 3 < cap)
    (l : List α) (idx : Nat) (x : α) (h : idx ≤ l.length) :
    (insert_or_split cap l idx x).1 ++
      ((insert_or_split cap l idx x).2.getD []) = l.insertIdx idx x := by
  rw [insert_or_split]
  split_ifs with hfull hidx
  · simp
  · simp only [Option.getD_some]
    rw [← insertIdx_append_left _ _ _ _ (by
      simp only [List.length_take, minFill] at *
      omega)]
    rw [List.take_append_drop]
  · simp only [Option.getD_some, not_not] at *
    conv_rhs => rw [← List.take_append_drop (minFill cap) l]
    rw [insertIdx_append_right _ _ _ _ (by
      simp only [List.length_take, minFill] at *
      omega)]
    simp only [List.length_take]
    rw [show min (minFill cap) l.length = minFill cap from by
      simp only [minFill] at *
      omega]

/-- Generic shape of `insert_or_split`: with room the buffer grows by one and
no upper half appears; when full both halves hold exactly `B` elements. -/
theorem insert_or_split_shape (cap : Nat) (hodd : cap % 2 = 1) (hcap : 3 < cap)
    (l : List α) (idx : Nat) (x : α) (h : idx ≤ l.length) :
    (l.length ≠ cap →
      insert_or_split cap l idx x = (l.insertIdx idx x, none) ∧
      (l.insertIdx idx x).length = l.length + 1) ∧
    (l.length = cap →
      (insert_or_split cap l idx x).1.length = minFill cap ∧
      ∃ u, (insert_or_split cap l idx x).2 = some u ∧
        u.length = minFill cap) := by
  constructor
  · intro hfull
    constructor
    · rw [insert_or_split, if_pos hfull]
    · rw [List.length_insertIdx _ _ h]
  · intro hfull
    rw [insert_or_split, if_neg (by omega)]
    by_cases hidx : idx < minFill cap
    · rw [if_pos hidx]
      refine ⟨?_, _, rfl, ?_⟩
      · rw [List.length_insertIdx _ _ (by
          simp only [List.length_take, minFill] at *
          omega)]
        simp only [List.length_take, minFill] at *
        omega
      · simp only [List.length_drop, minFill] at *
        omega
    · rw [if_neg hidx]
      refine ⟨?_, _, rfl, ?_⟩
      · simp only [List.length_take, minFill] at *
        omega
      · rw [List.length_insertIdx _ _ (by
          simp only [List.length_drop, minFill] at *
          omega)]
        simp only [List.length_drop, minFill] at *
        omega

theorem refInsert_ne_nil (l : List (Nat × V)) (e : Nat × V) :
    refInsert l e ≠ [] := by
  cases l with
  | nil => simp [refInsert]
  | cons x xs =>
    rw [refInsert]
    split_ifs <;> simp

set_option maxHeartbeats 2000000


/-- `Internal::insert` preservation at a leaves-kind node. -/
theorem nodeInsert_leaves_spec {cap : Nat} (hodd : cap % 2 = 1)
    (hcap : 3 < cap) {s : Store Nat V} {strict : Bool} {h t : Nat}
    {cs : List Nat} {fresh : Nat} {e : Nat × V} {after : Option Nat}
    (hwf : nodeWF cap s strict (.leaves h t cs))
    (hsorted : sortedKeys (treeEntries s (.leaves h t cs)))
    (hnd : cs.Nodup) (hfr : ∀ id ∈ cs, id < fresh)
    (hch : chainOK s cs after) (fuel : Nat) {n' : NodeM} {s' : Store Nat V}
    {f' : Nat} {prev : Option (Nat × V)} {sib : Option NodeM}
    (hrun : nodeInsert cap s fresh (fuel + 1) (.leaves h t cs) e =
      (n', s', f', prev, sib)) :
    InsPost cap s strict (.leaves h t cs) fresh e after n' s' f' prev sib := by
  obtain ⟨h1, h2, h3, h4, h5, h6⟩ := hwf
  obtain ⟨c₀, tail, rfl⟩ : ∃ c₀ tail, cs = c₀ :: tail := by
    cases cs with
    | nil => simp at h3
    | cons c₀ tail => exact ⟨c₀, tail, rfl⟩
  have hE : treeEntries s (.leaves h t (c₀ :: tail)) =
      ((c₀ :: tail).map (leafEntries s)).flatten := rfl
  obtain ⟨A, cid, B, hdec, hlen, hA, hB⟩ :=
    find_idx_routing (fun id => Leaf.firstKey s id) (leafEntries s) e.fst c₀
      tail (fun id hid => leaf_block_head (h5 id hid))
      (by rw [← hE]; exact hsorted)
  have hget : (c₀ :: tail).get? (find_idx (fun id => Leaf.firstKey s id)
      e.fst (c₀ :: tail)) = some cid := by
    rw [← hlen, hdec]
    exact get?_append_cons A cid B
  have hcid_mem : cid ∈ c₀ :: tail := by
    rw [hdec]
    simp
  obtain ⟨d, hd, hdne, hdlen⟩ := h5 cid hcid_mem
  have hblk : leafEntries s cid = d.entries := by simp [leafEntries, hd]
  have hsortblk : sortedKeys d.entries := by
    rw [← hblk]
    rw [hE, hdec] at hsorted
    simp only [List.map_append, List.map_cons, List.flatten_append,
      List.flatten_cons] at hsorted
    exact (sortedKeys_append.mp (sortedKeys_append.mp hsorted).2.1).1
  have hcidfr : cid < fresh := hfr cid hcid_mem
  have hAne : ∀ a ∈ (A.map (leafEntries s)).flatten, a.fst ≠ e.fst := by
    intro a ha
    have := hA a ha
    omega
  have hBne : ∀ b ∈ (B.map (leafEntries s)).flatten, b.fst ≠ e.fst := by
    intro b hb
    have := hB b hb
    omega
  have hrefE : refInsert (treeEntries s (.leaves h t (c₀ :: tail))) e =
      (A.map (leafEntries s)).flatten ++ refInsert d.entries e ++
        (B.map (leafEntries s)).flatten := by
    rw [hE, hdec]
    simp only [List.map_append, List.map_cons, List.flatten_append,
      List.flatten_cons]
    rw [refInsert_append_left hA]
    rw [refInsert_append_right hB]
    rw [hblk, List.append_assoc]
  have hfindE : refFind (treeEntries s (.leaves h t (c₀ :: tail))) e.fst =
      refFind d.entries e.fst := by
    rw [hE, hdec]
    simp only [List.map_append, List.map_cons, List.flatten_append,
      List.flatten_cons]
    rw [refFind_append_left hAne]
    rw [refFind_append_right hBne]
    rw [hblk]
  have hAids : ∀ x ∈ A, x ≠ cid ∧ x ≠ fresh := by
    intro x hx
    have hxfr : x < fresh := hfr x (by rw [hdec]; simp [hx])
    have hndh := hnd
    rw [hdec, List.nodup_append] at hndh
    exact ⟨fun hxc => (hndh.2.2 hx (by rw [hxc] at hx ⊢; simp)), by omega⟩
  have hBids : ∀ x ∈ B, x ≠ cid ∧ x ≠ fresh := by
    intro x hx
    have hxfr : x < fresh := hfr x (by rw [hdec]; simp [hx])
    have hndh := hnd
    rw [hdec, List.nodup_append] at hndh
    have hcons := hndh.2.1
    rw [List.nodup_cons] at hcons
    exact ⟨fun hxc => hcons.1 (by rw [← hxc]; exact hx), by omega⟩
  obtain ⟨hnosplit, hsplit⟩ := leaf_insert_spec hodd hcap hd hsortblk hdlen
    (Nat.ne_of_lt hcidfr) e
  rcases hLI : Leaf.insert cap natCmp s cid fresh e with ⟨s₁, f₁, prevv, newl⟩
  cases newl with
  | none =>
    obtain ⟨hprevv, hf₁, hs₁, hroom⟩ := hnosplit s₁ f₁ prevv hLI
    simp only [nodeInsert, hget, hLI] at hrun
    have ht' : (if prevv.isNone then (c₀ :: tail).getLast?.getD t else t)
        = t := by
      split_ifs
      · rw [h4]
        rfl
      · rfl
    rw [ht'] at hrun
    simp only [Prod.mk.injEq] at hrun
    obtain ⟨hn', hs', hf', hprev, hsib⟩ := hrun
    subst hn'
    subst hs'
    subst hf'
    subst hprev
    subst hsib
    have hagree : ∀ j, j ≠ cid → s₁ j = s j := by
      intro j hj
      rw [hs₁]
      exact Store.set_other _ _ _ _ hj
    have hentry_len : (refInsert d.entries e).length ≤ cap ∧
        d.entries.length ≤ (refInsert d.entries e).length := by
      cases hpv : prevv with
      | none =>
        rw [hpv] at hprevv
        have hln := refFind_none_length (l := d.entries) (e := e) hprevv.symm
        have hr := hroom hpv
        omega
      | some old =>
        rw [hpv] at hprevv
        have hln := refFind_some_length (l := d.entries) (e := e) hsortblk
          hprevv.symm
        omega
    have hleafEntries' : leafEntries s₁ cid = refInsert d.entries e := by
      rw [hs₁, leafEntries_set_self]
    have hAf : A.map (leafEntries s₁) = A.map (leafEntries s) :=
      List.map_congr_left (fun x hx => by
        rw [leafEntries, leafEntries, hagree x (hAids x hx).1])
    have hBf : B.map (leafEntries s₁) = B.map (leafEntries s) :=
      List.map_congr_left (fun x hx => by
        rw [leafEntries, leafEntries, hagree x (hBids x hx).1])
    refine ⟨?_, ?_, ?_, ?_, ?_, ?_, ?_, ?_, ?_, ?_, ?_, ?_, ?_⟩
    · rw [hprevv, hfindE]
    · omega
    · omega
    · intro j hj _
      refine hagree j (fun hc => hj ?_)
      rw [hc]
      exact hcid_mem
    · intro id hid
      simp only [sibIds, List.append_nil, leafIds_leaves] at hid
      exact Or.inl hid
    · simp only [sibIds, List.append_nil, leafIds_leaves]
      exact hnd
    · simp only [sibIds, List.append_nil, leafIds_leaves]
    · simp only [sibIds, List.append_nil, leafIds_leaves]
      refine chainOK_congr (fun x hx => ?_) hch
      by_cases hxc : x = cid
      · subst hxc
        rw [hs₁, Store.set_self, hd]
        rfl
      · rw [hagree x hxc]
    · show ((c₀ :: tail).map (leafEntries s₁)).flatten ++
          ([] : List (Nat × V)) =
          refInsert (treeEntries s (.leaves h t (c₀ :: tail))) e
      rw [List.append_nil, hrefE, hdec]
      simp only [List.map_append, List.map_cons, List.flatten_append,
        List.flatten_cons]
      rw [hAf, hBf, hleafEntries']
      simp only [List.append_assoc]
    · rfl
    · rfl
    · intro _
      exact ⟨rfl, rfl, by omega⟩
    · refine ⟨⟨h1, h2, h3, h4, ?_, ?_⟩, Nat.le_refl _⟩
      · intro id hid
        by_cases hic : id = cid
        · subst hic
          refine ⟨{ d with entries := refInsert d.entries e }, ?_, ?_, ?_⟩
          · rw [hs₁, Store.set_self]
          · exact refInsert_ne_nil _ _
          · exact hentry_len.1
        · obtain ⟨dx, hdx, hdxne, hdxlen⟩ := h5 id hid
          refine ⟨dx, ?_, hdxne, hdxlen⟩
          rw [hagree id hic]
          exact hdx
      · intro hcond id hid
        by_cases hic : id = cid
        · subst hic
          obtain ⟨dy, hdy, hdymin⟩ := h6 hcond id hid
          rw [hd] at hdy
          injection hdy with hdy'
          refine ⟨{ d with entries := refInsert d.entries e }, ?_, ?_⟩
          · rw [hs₁, Store.set_self]
          · refine le_trans ?_ hentry_len.2
            rw [hdy']
            exact hdymin
        · obtain ⟨dy, hdy, hdymin⟩ := h6 hcond id hid
          refine ⟨dy, ?_, hdymin⟩
          rw [hagree id hic]
          exact hdy
  | some nid =>
    obtain ⟨hnid, hf₁, hprevv, hfind0, hfull, E₁, E₂, hEcat, hlen₁, hlen₂,
      hs₁⟩ := hsplit s₁ f₁ prevv nid hLI
    rw [hnid] at hLI
    have hidxle : find_idx (fun id => Leaf.firstKey s id) e.fst (c₀ :: tail)
        + 1 ≤ (c₀ :: tail).length := by
      rw [← hlen, hdec]
      simp only [List.length_append, List.length_cons]
      omega
    have hcs' : ((c₀ :: tail).insertIdx
        (find_idx (fun id => Leaf.firstKey s id) e.fst (c₀ :: tail) + 1)
        fresh) = A ++ cid :: fresh :: B := by
      rw [← hlen, hdec]
      exact insertIdx_after_cons A cid B fresh
    have hs₁cid : s₁ cid = some ⟨E₁, d.prev, some fresh⟩ := by
      rw [hs₁, Store.set_other _ _ _ _ (by omega), Store.set_self]
    have hs₁fresh : s₁ fresh = some ⟨E₂, some cid, d.next⟩ := by
      rw [hs₁, Store.set_self]
    have hagree : ∀ j, j ≠ cid → j ≠ fresh → s₁ j = s j := by
      intro j hj hjf
      rw [hs₁, Store.set_other _ _ _ _ hjf, Store.set_other _ _ _ _ hj]
    have hform : A ++ [cid, fresh] ++ B = A ++ cid :: fresh :: B := by simp
    have hform' : A ++ [cid] ++ B = A ++ cid :: B := by simp
    have hch₂ : chainOK s (A ++ [cid] ++ B) after := by
      rw [hform', ← hdec]
      exact hch
    have hnd₂ : (A ++ [cid] ++ B).Nodup := by
      rw [hform', ← hdec]
      exact hnd
    have hfr₂ : ∀ id ∈ A ++ [cid] ++ B, id < fresh := by
      intro id hid
      refine hfr id ?_
      rw [hdec, ← hform']
      exact hid
    have hids' : (A ++ [cid, fresh] ++ B).Nodup ∧
        (∀ id ∈ A ++ [cid, fresh] ++ B, id < fresh + 1) ∧
        (∀ id ∈ A ++ [cid, fresh] ++ B, id ∈ A ++ [cid] ++ B ∨ fresh ≤ id) := by
      refine nodup_replace_segment hnd₂ hfr₂ (by omega) ?_ ?_
      · refine List.nodup_cons.mpr ⟨?_, List.nodup_singleton _⟩
        simp only [List.mem_singleton]
        omega
      · intro id hid
        rcases List.mem_cons.mp hid with rfl | hid'
        · exact Or.inl (List.mem_singleton_self _)
        · rcases List.mem_singleton.mp hid' with rfl
          exact Or.inr ⟨Nat.le_refl _, by omega⟩
    have hndC : (A ++ cid :: fresh :: B).Nodup := by
      rw [← hform]
      exact hids'.1
    have hltC : ∀ id ∈ A ++ cid :: fresh :: B, id < fresh + 1 := by
      intro id hid
      refine hids'.2.1 id ?_
      rw [hform]
      exact hid
    have hmemC : ∀ id ∈ A ++ cid :: fresh :: B, id ∈ c₀ :: tail ∨
        fresh ≤ id := by
      intro id hid
      rcases hids'.2.2 id (by rw [hform]; exact hid) with h' | h'
      · refine Or.inl ?_
        rw [hdec, ← hform']
        exact h'
      · exact Or.inr h'
    have hdnext : d.next = segCont B after := by
      have hmid : chainOK s [cid] (segCont B after) :=
        chainOK_middle (by simp) hch₂
      obtain ⟨d'', hd'', hnext''⟩ := hmid
      rw [hd] at hd''
      injection hd'' with hdd
      rw [hdd]
      exact hnext''
    have hMseg : chainOK s₁ [cid, fresh] (segCont B after) := by
      simp only [chainOK]
      exact ⟨⟨⟨E₁, d.prev, some fresh⟩, hs₁cid, rfl⟩,
        ⟨E₂, some cid, d.next⟩, hs₁fresh, hdnext⟩
    have hchainC : chainOK s₁ (A ++ cid :: fresh :: B) after := by
      rw [← hform]
      exact chainOK_replace_segment (by simp) (by simp) (by simp) hch₂
        (fun x hx => by rw [hagree x (hAids x hx).1 (hAids x hx).2])
        (fun x hx => by rw [hagree x (hBids x hx).1 (hBids x hx).2]) hMseg
    have hhead : (A ++ cid :: fresh :: B).head? = (c₀ :: tail).head? := by
      rw [← hform, hdec, ← hform']
      exact head?_append_replace (by simp) (by simp) (by simp)
    have hle₁ : leafEntries s₁ cid = E₁ := by
      rw [leafEntries, hs₁cid]
      rfl
    have hle₂ : leafEntries s₁ fresh = E₂ := by
      rw [leafEntries, hs₁fresh]
      rfl
    have hAf : A.map (leafEntries s₁) = A.map (leafEntries s) :=
      List.map_congr_left (fun x hx => by
        rw [leafEntries, leafEntries, hagree x (hAids x hx).1 (hAids x hx).2])
    have hBf : B.map (leafEntries s₁) = B.map (leafEntries s) :=
      List.map_congr_left (fun x hx => by
        rw [leafEntries, leafEntries, hagree x (hBids x hx).1 (hBids x hx).2])
    have hentries' : ((A ++ cid :: fresh :: B).map (leafEntries s₁)).flatten =
        refInsert (treeEntries s (.leaves h t (c₀ :: tail))) e := by
      rw [hrefE]
      simp only [List.map_append, List.map_cons, List.flatten_append,
        List.flatten_cons]
      rw [hAf, hBf, hle₁, hle₂, ← hEcat]
      simp only [List.append_assoc]
    have hb₁ : leafBase cap s₁ cid ∧ leafMin cap s₁ cid := by
      have hl := hlen₁
      simp only [minFill] at hl
      refine ⟨⟨⟨E₁, d.prev, some fresh⟩, hs₁cid, ?_, ?_⟩,
        ⟨E₁, d.prev, some fresh⟩, hs₁cid, ?_⟩
      · show E₁ ≠ []
        intro hn
        rw [hn] at hl
        simp only [List.length_nil] at hl
        omega
      · show E₁.length ≤ cap
        omega
      · show minFill cap ≤ E₁.length
        simp only [minFill]
        omega
    have hb₂ : leafBase cap s₁ fresh ∧ leafMin cap s₁ fresh := by
      have hl := hlen₂
      simp only [minFill] at hl
      refine ⟨⟨⟨E₂, some cid, d.next⟩, hs₁fresh, ?_, ?_⟩,
        ⟨E₂, some cid, d.next⟩, hs₁fresh, ?_⟩
      · show E₂ ≠ []
        intro hn
        rw [hn] at hl
        simp only [List.length_nil] at hl
        omega
      · show E₂.length ≤ cap
        omega
      · show minFill cap ≤ E₂.length
        simp only [minFill]
        omega
    have hbase' : ∀ id ∈ A ++ cid :: fresh :: B,
        leafBase cap s₁ id ∧ leafMin cap s₁ id := by
      intro id hid
      by_cases hic : id = cid
      · subst hic
        exact hb₁
      · by_cases hif : id = fresh
        · subst hif
          exact hb₂
        · have hAB : id ∈ A ∨ id ∈ B := by
            rcases List.mem_append.mp hid with h' | h'
            · exact Or.inl h'
            · rcases List.mem_cons.mp h' with h'' | h''
              · exact absurd h'' hic
              · rcases List.mem_cons.mp h'' with h3m | h3m
                · exact absurd h3m hif
                · exact Or.inr h3m
          have hlen2 : 2 ≤ (c₀ :: tail).length := by
            rw [hdec]
            simp only [List.length_append, List.length_cons]
            rcases hAB with h' | h'
            · have := List.length_pos_of_mem h'
              omega
            · have := List.length_pos_of_mem h'
              omega
          have hidmem : id ∈ c₀ :: tail := by
            rw [hdec]
            rcases hAB with h' | h'
            · simp [h']
            · simp [h']
          obtain ⟨dx, hdx, hdxne, hdxlen⟩ := h5 id hidmem
          obtain ⟨dy, hdy, hdymin⟩ := h6 (Or.inr hlen2) id hidmem
          rw [hdx] at hdy
          injection hdy with hdy'
          refine ⟨⟨dx, ?_, hdxne, hdxlen⟩, dx, ?_, ?_⟩
          · rw [hagree id hic hif]
            exact hdx
          · rw [hagree id hic hif]
            exact hdx
          · rw [hdy']
            exact hdymin
    rcases hIOS : insert_or_split cap (c₀ :: tail)
        (find_idx (fun id => Leaf.firstKey s id) e.fst (c₀ :: tail) + 1) fresh
      with ⟨csL, csU⟩
    have hjoin := insert_or_split_join cap hodd hcap (c₀ :: tail)
      (find_idx (fun id => Leaf.firstKey s id) e.fst (c₀ :: tail) + 1) fresh
      hidxle
    rw [hIOS] at hjoin
    obtain ⟨hshape₁, hshape₂⟩ := insert_or_split_shape cap hodd hcap
      (c₀ :: tail)
      (find_idx (fun id => Leaf.firstKey s id) e.fst (c₀ :: tail) + 1) fresh
      hidxle
    cases csU with
    | none =>
      simp only [nodeInsert, hget, hLI, hIOS] at hrun
      have hnotfull : (c₀ :: tail).length ≠ cap := by
        intro hfl
        obtain ⟨_, u, hu, _⟩ := hshape₂ hfl
        rw [hIOS] at hu
        simp at hu
      have hcsL : csL = A ++ cid :: fresh :: B := by
        have h' := (hshape₁ hnotfull).1
        rw [hIOS] at h'
        have h'' : csL = (c₀ :: tail).insertIdx
            (find_idx (fun id => Leaf.firstKey s id) e.fst (c₀ :: tail) + 1)
            fresh := by
          injection h' with h₁ h₂
        rw [h'', hcs']
      subst hcsL
      rw [hprevv] at hrun
      have hif : (if (none : Option (Nat × V)).isNone then
          (A ++ cid :: fresh :: B).getLast?.getD t else t) =
          (A ++ cid :: fresh :: B).getLast?.getD t := rfl
      rw [hif] at hrun
      simp only [Prod.mk.injEq] at hrun
      obtain ⟨hn', hs', hf', hprev, hsib⟩ := hrun
      subst hn'
      subst hs'
      subst hf'
      subst hprev
      subst hsib
      obtain ⟨tl, htl⟩ := getLast?_isSome_of_ne_nil
        (by simp : (A ++ cid :: fresh :: B : List Nat) ≠ [])
      have hlt : (c₀ :: tail).length + 1 = (A ++ cid :: fresh :: B).length := by
        rw [hdec]
        simp only [List.length_append, List.length_cons]
        omega
      refine ⟨?_, ?_, ?_, ?_, ?_, ?_, ?_, ?_, ?_, ?_, ?_, ?_, ?_⟩
      · rw [hfindE, hfind0]
      · omega
      · omega
      · intro j hj hjf
        refine hagree j (fun hc => hj ?_) hjf
        rw [hc]
        exact hcid_mem
      · intro id hid
        simp only [sibIds, List.append_nil, leafIds_leaves] at hid
        rcases hmemC id hid with h' | h'
        · exact Or.inl h'
        · exact Or.inr ⟨h', by have := hltC id hid; omega⟩
      · simp only [sibIds, List.append_nil, leafIds_leaves]
        exact hndC
      · simp only [sibIds, List.append_nil, leafIds_leaves]
        exact hhead
      · simp only [sibIds, List.append_nil, leafIds_leaves]
        exact hchainC
      · show ((A ++ cid :: fresh :: B).map (leafEntries s₁)).flatten ++
            ([] : List (Nat × V)) =
            refInsert (treeEntries s (.leaves h t (c₀ :: tail))) e
        rw [List.append_nil]
        exact hentries'
      · rfl
      · rfl
      · intro hps
        simp at hps
      · refine ⟨⟨?_, ?_, ?_, ?_, ?_, ?_⟩, ?_⟩
        · split_ifs with hst
          · have h1' : minFill cap ≤ (c₀ :: tail).length := by
              rw [if_pos hst] at h1
              exact h1
            omega
          · omega
        · rw [← hlt]
          omega
        · rw [hhead]
          exact h3
        · rw [htl]
          simp
        · intro id hid
          exact (hbase' id hid).1
        · intro _ id hid
          exact (hbase' id hid).2
        · show (c₀ :: tail).length ≤ (A ++ cid :: fresh :: B).length
          rw [hdec]
          simp only [List.length_append, List.length_cons]
          omega
    | some upper =>
      simp only [nodeInsert, hget, hLI, hIOS, leavesHeadTail] at hrun
      rw [hprevv] at hrun
      have hif : (if (none : Option (Nat × V)).isNone then
          csL.getLast?.getD t else t) = csL.getLast?.getD t := rfl
      rw [hif] at hrun
      simp only [Prod.mk.injEq] at hrun
      obtain ⟨hn', hs', hf', hprev, hsib⟩ := hrun
      subst hn'
      subst hs'
      subst hf'
      subst hprev
      subst hsib
      have hfull' : (c₀ :: tail).length = cap := by
        by_contra hnf
        have h' := (hshape₁ hnf).1
        rw [hIOS] at h'
        simp at h'
      have hlenL : csL.length = minFill cap := by
        have h' := (hshape₂ hfull').1
        rw [hIOS] at h'
        simpa using h'
      have hlenU : upper.length = minFill cap := by
        obtain ⟨u, hu, hul⟩ := (hshape₂ hfull').2
        rw [hIOS] at hu
        simp at hu
        rw [hu]
        exact hul
      have hcomb : csL ++ upper = A ++ cid :: fresh :: B := by
        have hj := hjoin
        rw [hcs'] at hj
        simpa using hj
      have hLne : csL ≠ [] := by
        intro hn
        rw [hn] at hlenL
        simp only [List.length_nil, minFill] at hlenL
        omega
      have hUne : upper ≠ [] := by
        intro hn
        rw [hn] at hlenU
        simp only [List.length_nil, minFill] at hlenU
        omega
      obtain ⟨lx, hlx⟩ := getLast?_isSome_of_ne_nil hLne
      obtain ⟨ux, hux⟩ : ∃ x, upper.head? = some x := by
        cases upper with
        | nil => exact absurd rfl hUne
        | cons u us => exact ⟨u, rfl⟩
      obtain ⟨uy, huy⟩ := getLast?_isSome_of_ne_nil hUne
      have hheadL : csL.head? = some h := by
        have h' : (csL ++ upper).head? = csL.head? := by
          rw [List.head?_append_of_ne_nil _ hLne]
        rw [hcomb] at h'
        rw [← h', hhead]
        exact h3
      refine ⟨?_, ?_, ?_, ?_, ?_, ?_, ?_, ?_, ?_, ?_, ?_, ?_, ?_⟩
      · rw [hfindE, hfind0]
      · omega
      · omega
      · intro j hj hjf
        refine hagree j (fun hc => hj ?_) hjf
        rw [hc]
        exact hcid_mem
      · intro id hid
        simp only [sibIds, leafIds_leaves] at hid
        rw [hcomb] at hid
        rcases hmemC id hid with h' | h'
        · exact Or.inl h'
        · exact Or.inr ⟨h', by have := hltC id hid; omega⟩
      · simp only [sibIds, leafIds_leaves]
        rw [hcomb]
        exact hndC
      · simp only [sibIds, leafIds_leaves]
        rw [hcomb]
        exact hhead
      · simp only [sibIds, leafIds_leaves]
        rw [hcomb]
        exact hchainC
      · show (csL.map (leafEntries s₁)).flatten ++
            (upper.map (leafEntries s₁)).flatten =
            refInsert (treeEntries s (.leaves h t (c₀ :: tail))) e
        rw [← List.flatten_append, ← List.map_append, hcomb]
        exact hentries'
      · rfl
      · rfl
      · intro hps
        simp at hps
      · refine ⟨⟨?_, ?_, ?_, ?_, ?_, ?_⟩, ⟨?_, ?_, ?_, ?_, ?_, ?_⟩, rfl, rfl⟩
        · show minFill cap ≤ csL.length
          omega
        · show csL.length ≤ cap
          have := hlenL
          simp only [minFill] at this
          omega
        · exact hheadL
        · rw [hlx]
          simp
        · intro id hid
          refine (hbase' id ?_).1
          rw [← hcomb]
          exact List.mem_append_left _ hid
        · intro _ id hid
          refine (hbase' id ?_).2
          rw [← hcomb]
          exact List.mem_append_left _ hid
        · show minFill cap ≤ upper.length
          omega
        · show upper.length ≤ cap
          have := hlenU
          simp only [minFill] at this
          omega
        · rw [hux]
          simp
        · rw [huy]
          simp
        · intro id hid
          refine (hbase' id ?_).1
          rw [← hcomb]
          exact List.mem_append_right _ hid
        · intro _ id hid
          refine (hbase' id ?_).2
          rw [← hcomb]
          exact List.mem_append_right _ hid


theorem set_append_cons (A : List α) (c : α) (B : List α) (x : α) :
    (A ++ c :: B).set A.length x = A ++ x :: B := by
  induction A with
  | nil => rfl
  | cons a as ih =>
    show a :: ((as ++ c :: B).set as.length x) = a :: (as ++ x :: B)
    rw [ih]

theorem head?_map_replace_head {A B B' : List NodeM} {c c' : NodeM} {h : Nat}
    (hh : (A ++ c :: B).head?.map NodeM.headId = some h)
    (hc : c'.headId = c.headId) :
    (A ++ c' :: B').head?.map NodeM.headId = some h := by
  cases A with
  | nil =>
    simp only [List.nil_append, List.head?_cons, Option.map_some'] at hh ⊢
    rw [hc]
    exact hh
  | cons a as =>
    simpa using hh

/-- `Internal::insert` preservation at every node, by recursion depth: with
enough fuel the insert realises the reference upsert, advances the fresh
counter by at most one, touches only the subtree's leaves, keeps the handle
sequence duplicate-free and correctly chained, and preserves the cached head,
the height and the fill discipline (a split yields two strict halves). -/
theorem nodeInsert_spec {cap : Nat} (hodd : cap % 2 = 1) (hcap : 3 < cap)
    {s : Store Nat V} {fresh : Nat} {e : Nat × V} :
    ∀ (fuel : Nat) (strict : Bool) (n : NodeM) (after : Option Nat),
      n.height ≤ fuel → nodeWF cap s strict n →
      sortedKeys (treeEntries s n) → n.leafIds.Nodup →
      (∀ id ∈ n.leafIds, id < fresh) → chainOK s n.leafIds after →
      ∀ (n' : NodeM) (s' : Store Nat V) (f' : Nat) (prev : Option (Nat × V))
        (sib : Option NodeM),
        nodeInsert cap s fresh fuel n e = (n', s', f', prev, sib) →
        InsPost cap s strict n fresh e after n' s' f' prev sib := by
  intro fuel
  induction fuel with
  | zero =>
    intro strict n after hk _ _ _ _ _ n' s' f' prev sib _
    have := height_pos n
    omega
  | succ fuel ih =>
    intro strict n after hk hwf hsorted hnd hfr hch n' s' f' prev sib hrun
    cases n with
    | leaves h t cs =>
      exact nodeInsert_leaves_spec hodd hcap hwf hsorted hnd hfr hch fuel hrun
    | internals h t cs =>
      have hwf' := hwf
      obtain ⟨h1, h2, h3, h4, h5, h6⟩ := hwf
      rw [nodeWF.goList_iff] at h6
      obtain ⟨c₀, tail, rfl⟩ : ∃ c₀ tail, cs = c₀ :: tail := by
        cases cs with
        | nil => cases h3
        | cons c₀ tail => exact ⟨c₀, tail, rfl⟩
      have hE := treeEntries_internals s h t (c₀ :: tail)
      obtain ⟨A, c, B, hdec, hlen, hA, hB⟩ :=
        find_idx_routing (fun c => Leaf.firstKey s c.headId) (treeEntries s)
          e.fst c₀ tail
          (fun c hc => by
            obtain ⟨hne', hhd', _⟩ := nodeWF_boundary_keys (h6 c hc)
            exact ⟨hne', hhd'⟩)
          (by rw [← hE]; exact hsorted)
      have hget : (c₀ :: tail).get? (find_idx
          (fun c => Leaf.firstKey s c.headId) e.fst (c₀ :: tail)) = some c := by
        rw [← hlen, hdec]
        exact get?_append_cons A c B
      have hcmem : c ∈ c₀ :: tail := by
        rw [hdec]
        simp
      have hsortc : sortedKeys (treeEntries s c) := by
        rw [hE, hdec] at hsorted
        simp only [List.map_append, List.map_cons, List.flatten_append,
          List.flatten_cons] at hsorted
        exact (sortedKeys_append.mp (sortedKeys_append.mp hsorted).2.1).1
      have hAne : ∀ a ∈ (A.map (treeEntries s)).flatten, a.fst ≠ e.fst := by
        intro a ha
        have := hA a ha
        omega
      have hBne : ∀ b ∈ (B.map (treeEntries s)).flatten, b.fst ≠ e.fst := by
        intro b hb
        have := hB b hb
        omega
      have hrefE : refInsert (treeEntries s (.internals h t (c₀ :: tail))) e =
          (A.map (treeEntries s)).flatten ++ refInsert (treeEntries s c) e ++
            (B.map (treeEntries s)).flatten := by
        rw [hE, hdec]
        simp only [List.map_append, List.map_cons, List.flatten_append,
          List.flatten_cons]
        rw [refInsert_append_left hA]
        rw [refInsert_append_right hB]
        rw [List.append_assoc]
      have hfindEp : refFind (treeEntries s (.internals h t (c₀ :: tail)))
          e.fst = refFind (treeEntries s c) e.fst := by
        rw [hE, hdec]
        simp only [List.map_append, List.map_cons, List.flatten_append,
          List.flatten_cons]
        rw [refFind_append_left hAne]
        rw [refFind_append_right hBne]
      have hsplitIds' : ((c₀ :: tail).map NodeM.leafIds).flatten =
          (A.map NodeM.leafIds).flatten ++ c.leafIds ++
            (B.map NodeM.leafIds).flatten := by
        rw [hdec]
        simp only [List.map_append, List.map_cons, List.flatten_append,
          List.flatten_cons, List.append_assoc]
      have hsplitIds : (NodeM.internals h t (c₀ :: tail)).leafIds =
          (A.map NodeM.leafIds).flatten ++ c.leafIds ++
            (B.map NodeM.leafIds).flatten := by
        rw [leafIds_internals]
        exact hsplitIds'
      have hcwf : nodeWF cap s true c := h6 c hcmem
      have hcne : c.leafIds ≠ [] :=
        (nodeWF_shape c.height true c (Nat.le_refl _) hcwf).1
      have hndPMS : ((A.map NodeM.leafIds).flatten ++ c.leafIds ++
          (B.map NodeM.leafIds).flatten).Nodup := by
        rw [← hsplitIds]
        exact hnd
      have hfrPMS : ∀ id ∈ (A.map NodeM.leafIds).flatten ++ c.leafIds ++
          (B.map NodeM.leafIds).flatten, id < fresh := by
        intro id hid
        refine hfr id ?_
        rw [hsplitIds]
        exact hid
      have hcnd : c.leafIds.Nodup := by
        have hh := hndPMS
        rw [List.nodup_append, List.nodup_append] at hh
        exact hh.1.2.1
      have hcfr : ∀ id ∈ c.leafIds, id < fresh := by
        intro id hid
        refine hfrPMS id ?_
        simp [hid]
      have hchS : chainOK s ((A.map NodeM.leafIds).flatten ++ c.leafIds ++
          (B.map NodeM.leafIds).flatten) after := by
        rw [← hsplitIds]
        exact hch
      have hcch : chainOK s c.leafIds
          (segCont ((B.map NodeM.leafIds).flatten) after) :=
        chainOK_middle hcne hchS
      have hchh : c.height ≤ fuel := by
        have := nodeWF_child_height hwf' hcmem
        omega
      have hk0 : ∀ x ∈ c₀ :: tail, x.height = c.height := by
        intro x hx
        rw [h5 x hx, h5 c hcmem]
      have hgoList : NodeM.height.goList (c₀ :: tail) = c.height :=
        height_goList_uniform (by simp) hk0
      rcases hrec : nodeInsert cap s fresh fuel c e
        with ⟨cc, s₁, f₁, prevv, csib⟩
      obtain ⟨p1, p2, p3, p4, p5, p6, p7, p8, p9, p10, p11, p12, p13⟩ :=
        ih true c (segCont ((B.map NodeM.leafIds).flatten) after) hchh hcwf
          hsortc hcnd hcfr hcch cc s₁ f₁ prevv csib hrec
      have hset : (c₀ :: tail).set (find_idx
          (fun c => Leaf.firstKey s c.headId) e.fst (c₀ :: tail)) cc =
          A ++ cc :: B := by
        rw [← hlen, hdec]
        exact set_append_cons A c B cc
      have hPS : ∀ id, (id ∈ (A.map NodeM.leafIds).flatten ∨
          id ∈ (B.map NodeM.leafIds).flatten) → s₁ id = s id := by
        intro id hid
        have hidp : id ∈ (A.map NodeM.leafIds).flatten ++ c.leafIds ++
            (B.map NodeM.leafIds).flatten := by
          rcases hid with h' | h'
          · simp [h']
          · simp [h']
        have hdisj := hndPMS
        rw [List.nodup_append, List.nodup_append] at hdisj
        refine p4 id ?_ (by have := hfrPMS id hidp; omega)
        intro hidc
        rcases hid with h' | h'
        · exact hdisj.1.2.2 h' hidc
        · exact hdisj.2.2
            (by simp [hidc] :
              id ∈ (A.map NodeM.leafIds).flatten ++ c.leafIds) h'
      have hpres : ∀ x ∈ A ++ B, agreeOn s s₁ x.leafIds := by
        intro x hx id hid
        rcases List.mem_append.mp hx with h' | h'
        · exact hPS id (Or.inl (List.mem_flatten.mpr
            ⟨x.leafIds, List.mem_map_of_mem _ h', hid⟩))
        · exact hPS id (Or.inr (List.mem_flatten.mpr
            ⟨x.leafIds, List.mem_map_of_mem _ h', hid⟩))
      have hPn : ∀ x ∈ (A.map NodeM.leafIds).flatten,
          (s₁ x).map LeafData.next = (s x).map LeafData.next := by
        intro x hx
        rw [hPS x (Or.inl hx)]
      have hSn : ∀ x ∈ (B.map NodeM.leafIds).flatten,
          (s₁ x).map LeafData.next = (s x).map LeafData.next := by
        intro x hx
        rw [hPS x (Or.inr hx)]
      have hAfE : A.map (treeEntries s₁) = A.map (treeEntries s) :=
        List.map_congr_left (fun x hx => treeEntries_agree
          (hpres x (by simp [hx])))
      have hBfE : B.map (treeEntries s₁) = B.map (treeEntries s) :=
        List.map_congr_left (fun x hx => treeEntries_agree
          (hpres x (by simp [hx])))
      have h3' : (A ++ c :: B).head?.map NodeM.headId = some h := by
        rw [← hdec]
        exact h3
      cases csib with
      | none =>
        have pwf : nodeWF cap s₁ true cc := p13.1
        have hccne : cc.leafIds ≠ [] :=
          (nodeWF_shape cc.height true cc (Nat.le_refl _) pwf).1
        have p5' : ∀ id ∈ cc.leafIds,
            id ∈ c.leafIds ∨ (fresh ≤ id ∧ id < f₁) := by
          intro id hid
          refine p5 id ?_
          simp only [sibIds, List.append_nil]
          exact hid
        have p6' : cc.leafIds.Nodup := by
          have hh := p6
          simp only [sibIds, List.append_nil] at hh
          exact hh
        have p7' : cc.leafIds.head? = c.leafIds.head? := by
          have hh := p7
          simp only [sibIds, List.append_nil] at hh
          exact hh
        have p8' : chainOK s₁ cc.leafIds
            (segCont ((B.map NodeM.leafIds).flatten) after) := by
          have hh := p8
          simp only [sibIds, List.append_nil] at hh
          exact hh
        have p9' : treeEntries s₁ cc = refInsert (treeEntries s c) e := by
          have hh := p9
          simp only [optEntries, List.append_nil] at hh
          exact hh
        have hsur := nodup_replace_segment hndPMS hfrPMS p2 p6' p5'
        have hchain_new : chainOK s₁ ((A.map NodeM.leafIds).flatten ++
            cc.leafIds ++ (B.map NodeM.leafIds).flatten) after :=
          chainOK_replace_segment hcne hccne p7' hchS hPn hSn p8'
        have hhead_new : ((A.map NodeM.leafIds).flatten ++ cc.leafIds ++
            (B.map NodeM.leafIds).flatten).head? =
            ((A.map NodeM.leafIds).flatten ++ c.leafIds ++
              (B.map NodeM.leafIds).flatten).head? :=
          head?_append_replace hcne hccne p7'
        have hidseq : ((A ++ cc :: B).map NodeM.leafIds).flatten =
            (A.map NodeM.leafIds).flatten ++ cc.leafIds ++
              (B.map NodeM.leafIds).flatten := by
          simp only [List.map_append, List.map_cons, List.flatten_append,
            List.flatten_cons, List.append_assoc]
        have hmem₁ : ∀ x ∈ A ++ cc :: B, x ∈ A ∨ x = cc ∨ x ∈ B := by
          intro x hx
          rcases List.mem_append.mp hx with h' | h'
          · exact Or.inl h'
          · rcases List.mem_cons.mp h' with h'' | h''
            · exact Or.inr (Or.inl h'')
            · exact Or.inr (Or.inr h'')
        have hk₁ : ∀ x ∈ A ++ cc :: B, x.height = c.height := by
          intro x hx
          rcases hmem₁ x hx with h' | h' | h'
          · exact hk0 x (by rw [hdec]; simp [h'])
          · rw [h']
            exact p11
          · exact hk0 x (by rw [hdec]; simp [h'])
        have hwf₁ : ∀ x ∈ A ++ cc :: B, nodeWF cap s₁ true x := by
          intro x hx
          rcases hmem₁ x hx with h' | h' | h'
          · exact nodeWF_agree x.height true x (Nat.le_refl _)
              (hpres x (by simp [h'])) (h6 x (by rw [hdec]; simp [h']))
          · rw [h']
            exact pwf
          · exact nodeWF_agree x.height true x (Nat.le_refl _)
              (hpres x (by simp [h'])) (h6 x (by rw [hdec]; simp [h']))
        have hgoList₁ : NodeM.height.goList (A ++ cc :: B) = c.height :=
          height_goList_uniform (by simp) hk₁
        have hlencs : (A ++ cc :: B).length = (c₀ :: tail).length := by
          rw [hdec]
          simp
        simp only [nodeInsert, hget, hrec] at hrun
        rw [hset] at hrun
        simp only [Prod.mk.injEq] at hrun
        obtain ⟨hn', hs', hf', hprev, hsib⟩ := hrun
        subst hn'
        subst hs'
        subst hf'
        subst hprev
        subst hsib
        refine ⟨?_, ?_, ?_, ?_, ?_, ?_, ?_, ?_, ?_, ?_, ?_, ?_, ?_⟩
        · rw [p1, hfindEp]
        · exact p2
        · exact p3
        · intro j hj hjf
          refine p4 j (fun hjc => hj ?_) hjf
          rw [hsplitIds]
          simp [hjc]
        · intro id hid
          simp only [sibIds, List.append_nil, leafIds_internals] at hid
          rw [hidseq] at hid
          rcases hsur.2.2 id hid with hold | hge
          · refine Or.inl ?_
            rw [hsplitIds]
            exact hold
          · exact Or.inr ⟨hge, hsur.2.1 id hid⟩
        · simp only [sibIds, List.append_nil, leafIds_internals]
          rw [hidseq]
          exact hsur.1
        · simp only [sibIds, List.append_nil, leafIds_internals]
          rw [hidseq, hsplitIds']
          exact hhead_new
        · simp only [sibIds, List.append_nil, leafIds_internals]
          rw [hidseq]
          exact hchain_new
        · rw [treeEntries_internals]
          simp only [optEntries, List.append_nil]
          rw [hrefE]
          simp only [List.map_append, List.map_cons, List.flatten_append,
            List.flatten_cons]
          rw [hAfE, hBfE, p9']
          simp only [List.append_assoc]
        · rfl
        · simp only [NodeM.height]
          rw [hgoList₁, hgoList]
        · intro hps
          obtain ⟨hcc, _, hf⟩ := p12 hps
          cases hpv : prevv with
          | none =>
            rw [hpv] at hps
            simp at hps
          | some old =>
            refine ⟨?_, rfl, hf⟩
            rw [hcc, ← hdec]
            rfl
        · refine ⟨⟨?_, ?_, ?_, ?_, ?_, ?_⟩, ?_⟩
          · rw [hlencs]
            exact h1
          · rw [hlencs]
            exact h2
          · exact head?_map_replace_head h3' p10
          · cases hpv : prevv with
            | none =>
              obtain ⟨z, hz⟩ := getLast?_isSome_of_ne_nil
                (by simp : (A ++ cc :: B : List NodeM) ≠ [])
              rw [hz]
              simp
            | some old =>
              obtain ⟨hcc, _, _⟩ := p12 (by rw [hpv]; rfl)
              rw [hcc, ← hdec]
              show (c₀ :: tail).getLast?.map NodeM.tailId = some t
              exact h4
          · obtain ⟨y, hy⟩ : ∃ y, (A ++ cc :: B).head? = some y := by
              cases A with
              | nil => exact ⟨cc, rfl⟩
              | cons a as => exact ⟨a, rfl⟩
            intro x hx
            rw [hy]
            simp only [Option.map_some', Option.getD_some]
            rw [hk₁ x hx, hk₁ y (List.mem_of_mem_head? hy)]
          · rw [nodeWF.goList_iff]
            exact hwf₁
          · exact le_of_eq hlencs.symm
      | some csib =>
        have pwf1 : nodeWF cap s₁ true cc := p13.1
        have pwf2 : nodeWF cap s₁ true csib := p13.2.1
        have pht : csib.height = c.height := p13.2.2.1
        have hpnone : prevv = none := p13.2.2.2
        have hccne : cc.leafIds ≠ [] :=
          (nodeWF_shape cc.height true cc (Nat.le_refl _) pwf1).1
        have hM'ne : cc.leafIds ++ csib.leafIds ≠ [] := by
          intro hn
          exact hccne (List.append_eq_nil.mp hn).1
        have p5' : ∀ id ∈ cc.leafIds ++ csib.leafIds,
            id ∈ c.leafIds ∨ (fresh ≤ id ∧ id < f₁) := by
          intro id hid
          refine p5 id ?_
          simp only [sibIds]
          exact hid
        have p6' : (cc.leafIds ++ csib.leafIds).Nodup := by
          have hh := p6
          simp only [sibIds] at hh
          exact hh
        have p7' : (cc.leafIds ++ csib.leafIds).head? = c.leafIds.head? := by
          have hh := p7
          simp only [sibIds] at hh
          exact hh
        have p8' : chainOK s₁ (cc.leafIds ++ csib.leafIds)
            (segCont ((B.map NodeM.leafIds).flatten) after) := by
          have hh := p8
          simp only [sibIds] at hh
          exact hh
        have p9' : treeEntries s₁ cc ++ treeEntries s₁ csib =
            refInsert (treeEntries s c) e := by
          have hh := p9
          simp only [optEntries] at hh
          exact hh
        have hfnone : refFind (treeEntries s c) e.fst = none := by
          rw [← p1]
          exact hpnone
        have hsur := nodup_replace_segment hndPMS hfrPMS p2 p6' p5'
        have hchain_new : chainOK s₁ ((A.map NodeM.leafIds).flatten ++
            (cc.leafIds ++ csib.leafIds) ++
            (B.map NodeM.leafIds).flatten) after :=
          chainOK_replace_segment hcne hM'ne p7' hchS hPn hSn p8'
        have hhead_new : ((A.map NodeM.leafIds).flatten ++
            (cc.leafIds ++ csib.leafIds) ++
            (B.map NodeM.leafIds).flatten).head? =
            ((A.map NodeM.leafIds).flatten ++ c.leafIds ++
              (B.map NodeM.leafIds).flatten).head? :=
          head?_append_replace hcne hM'ne p7'
        have hmem₂ : ∀ x ∈ A ++ cc :: csib :: B,
            x ∈ A ∨ x = cc ∨ x = csib ∨ x ∈ B := by
          intro x hx
          rcases List.mem_append.mp hx with h' | h'
          · exact Or.inl h'
          · rcases List.mem_cons.mp h' with h'' | h''
            · exact Or.inr (Or.inl h'')
            · rcases List.mem_cons.mp h'' with h3m | h3m
              · exact Or.inr (Or.inr (Or.inl h3m))
              · exact Or.inr (Or.inr (Or.inr h3m))
        have hk₂ : ∀ x ∈ A ++ cc :: csib :: B, x.height = c.height := by
          intro x hx
          rcases hmem₂ x hx with h' | h' | h' | h'
          · exact hk0 x (by rw [hdec]; simp [h'])
          · rw [h']
            exact p11
          · rw [h']
            exact pht
          · exact hk0 x (by rw [hdec]; simp [h'])
        have hwf₂ : ∀ x ∈ A ++ cc :: csib :: B, nodeWF cap s₁ true x := by
          intro x hx
          rcases hmem₂ x hx with h' | h' | h' | h'
          · exact nodeWF_agree x.height true x (Nat.le_refl _)
              (hpres x (by simp [h'])) (h6 x (by rw [hdec]; simp [h']))
          · rw [h']
            exact pwf1
          · rw [h']
            exact pwf2
          · exact nodeWF_agree x.height true x (Nat.le_refl _)
              (hpres x (by simp [h'])) (h6 x (by rw [hdec]; simp [h']))
        have hidxle : find_idx (fun c => Leaf.firstKey s c.headId) e.fst
            (c₀ :: tail) + 1 ≤ (A ++ cc :: B).length := by
          rw [← hlen]
          simp only [List.length_append, List.length_cons]
          omega
        have hcs' : (A ++ cc :: B).insertIdx (find_idx
            (fun c => Leaf.firstKey s c.headId) e.fst (c₀ :: tail) + 1) csib =
            A ++ cc :: csib :: B := by
          rw [← hlen]
          exact insertIdx_after_cons A cc B csib
        rcases hIOSp : insert_or_split cap (A ++ cc :: B) (find_idx
            (fun c => Leaf.firstKey s c.headId) e.fst (c₀ :: tail) + 1) csib
          with ⟨csL, csU⟩
        have hjoin := insert_or_split_join cap hodd hcap (A ++ cc :: B)
          (find_idx (fun c => Leaf.firstKey s c.headId) e.fst (c₀ :: tail) + 1)
          csib hidxle
        rw [hIOSp] at hjoin
        obtain ⟨hshape₁, hshape₂⟩ := insert_or_split_shape cap hodd hcap
          (A ++ cc :: B)
          (find_idx (fun c => Leaf.firstKey s c.headId) e.fst (c₀ :: tail) + 1)
          csib hidxle
        cases csU with
        | none =>
          simp only [nodeInsert, hget, hrec] at hrun
          rw [hset] at hrun
          simp only [hIOSp] at hrun
          rw [hpnone] at hrun
          have hifp : (if (none : Option (Nat × V)).isNone then
              ((csL.getLast?.map NodeM.tailId).getD t) else t) =
              (csL.getLast?.map NodeM.tailId).getD t := rfl
          rw [hifp] at hrun
          simp only [Prod.mk.injEq] at hrun
          obtain ⟨hn', hs', hf', hprev, hsib⟩ := hrun
          subst hn'
          subst hs'
          subst hf'
          subst hprev
          subst hsib
          have hnotfull : (A ++ cc :: B).length ≠ cap := by
            intro hfl
            obtain ⟨_, u, hu, _⟩ := hshape₂ hfl
            rw [hIOSp] at hu
            simp at hu
          have hcsL : csL = A ++ cc :: csib :: B := by
            have h' := (hshape₁ hnotfull).1
            rw [hIOSp] at h'
            have h'' : csL = (A ++ cc :: B).insertIdx (find_idx
                (fun c => Leaf.firstKey s c.headId) e.fst (c₀ :: tail) + 1)
                csib := by
              injection h' with h₁ h₂
            rw [h'', hcs']
          subst hcsL
          have hidseq : ((A ++ cc :: csib :: B).map NodeM.leafIds).flatten =
              (A.map NodeM.leafIds).flatten ++
                (cc.leafIds ++ csib.leafIds) ++
                (B.map NodeM.leafIds).flatten := by
            simp only [List.map_append, List.map_cons, List.flatten_append,
              List.flatten_cons, List.append_assoc]
          have hltp : (c₀ :: tail).length + 1 =
              (A ++ cc :: csib :: B).length := by
            rw [hdec]
            simp only [List.length_append, List.length_cons]
            omega
          have hgoList₂ : NodeM.height.goList (A ++ cc :: csib :: B) =
              c.height := height_goList_uniform (by simp) hk₂
          refine ⟨?_, ?_, ?_, ?_, ?_, ?_, ?_, ?_, ?_, ?_, ?_, ?_, ?_⟩
          · rw [hfindEp, hfnone]
          · exact p2
          · exact p3
          · intro j hj hjf
            refine p4 j (fun hjc => hj ?_) hjf
            rw [hsplitIds]
            simp [hjc]
          · intro id hid
            simp only [sibIds, List.append_nil, leafIds_internals] at hid
            rw [hidseq] at hid
            rcases hsur.2.2 id hid with hold | hge
            · refine Or.inl ?_
              rw [hsplitIds]
              exact hold
            · exact Or.inr ⟨hge, hsur.2.1 id hid⟩
          · simp only [sibIds, List.append_nil, leafIds_internals]
            rw [hidseq]
            exact hsur.1
          · simp only [sibIds, List.append_nil, leafIds_internals]
            rw [hidseq, hsplitIds']
            exact hhead_new
          · simp only [sibIds, List.append_nil, leafIds_internals]
            rw [hidseq]
            exact hchain_new
          · rw [treeEntries_internals]
            simp only [optEntries, List.append_nil]
            rw [hrefE]
            simp only [List.map_append, List.map_cons, List.flatten_append,
              List.flatten_cons]
            rw [hAfE, hBfE, ← p9']
            simp only [List.append_assoc]
          · rfl
          · simp only [NodeM.height]
            rw [hgoList₂, hgoList]
          · intro hps
            simp at hps
          · refine ⟨⟨?_, ?_, ?_, ?_, ?_, ?_⟩, ?_⟩
            · split_ifs with hst
              · have h1' : minFill cap ≤ (c₀ :: tail).length := by
                  rw [if_pos hst] at h1
                  exact h1
                omega
              · omega
            · rw [← hltp]
              have hlencs : (A ++ cc :: B).length = (c₀ :: tail).length := by
                rw [hdec]
                simp
              rw [hlencs] at hnotfull
              omega
            · exact head?_map_replace_head h3' p10
            · obtain ⟨z, hz⟩ := getLast?_isSome_of_ne_nil
                (by simp : (A ++ cc :: csib :: B : List NodeM) ≠ [])
              rw [hz]
              simp
            · obtain ⟨y, hy⟩ : ∃ y, (A ++ cc :: csib :: B).head? = some y := by
                cases A with
                | nil => exact ⟨cc, rfl⟩
                | cons a as => exact ⟨a, rfl⟩
              intro x hx
              rw [hy]
              simp only [Option.map_some', Option.getD_some]
              rw [hk₂ x hx, hk₂ y (List.mem_of_mem_head? hy)]
            · rw [nodeWF.goList_iff]
              exact hwf₂
            · show (c₀ :: tail).length ≤ (A ++ cc :: csib :: B).length
              omega
        | some upper =>
          simp only [nodeInsert, hget, hrec] at hrun
          rw [hset] at hrun
          simp only [hIOSp, internalsHeadTail] at hrun
          rw [hpnone] at hrun
          have hifp : (if (none : Option (Nat × V)).isNone then
              ((csL.getLast?.map NodeM.tailId).getD t) else t) =
              (csL.getLast?.map NodeM.tailId).getD t := rfl
          rw [hifp] at hrun
          simp only [Prod.mk.injEq] at hrun
          obtain ⟨hn', hs', hf', hprev, hsib⟩ := hrun
          subst hn'
          subst hs'
          subst hf'
          subst hprev
          subst hsib
          have hfull' : (A ++ cc :: B).length = cap := by
            by_contra hnf
            have h' := (hshape₁ hnf).1
            rw [hIOSp] at h'
            simp at h'
          have hlenL : csL.length = minFill cap := by
            have h' := (hshape₂ hfull').1
            rw [hIOSp] at h'
            simpa using h'
          have hlenU : upper.length = minFill cap := by
            obtain ⟨u, hu, hul⟩ := (hshape₂ hfull').2
            rw [hIOSp] at hu
            simp at hu
            rw [hu]
            exact hul
          have hcomb : csL ++ upper = A ++ cc :: csib :: B := by
            have hj := hjoin
            rw [hcs'] at hj
            simpa using hj
          have hLne : csL ≠ [] := by
            intro hn
            rw [hn] at hlenL
            simp only [List.length_nil, minFill] at hlenL
            omega
          have hUne : upper ≠ [] := by
            intro hn
            rw [hn] at hlenU
            simp only [List.length_nil, minFill] at hlenU
            omega
          have hsubL : ∀ x ∈ csL, x ∈ A ++ cc :: csib :: B := by
            intro x hx
            rw [← hcomb]
            exact List.mem_append_left _ hx
          have hsubU : ∀ x ∈ upper, x ∈ A ++ cc :: csib :: B := by
            intro x hx
            rw [← hcomb]
            exact List.mem_append_right _ hx
          have hgoL : NodeM.height.goList csL = c.height :=
            height_goList_uniform hLne (fun x hx => hk₂ x (hsubL x hx))
          have hgoU : NodeM.height.goList upper = c.height :=
            height_goList_uniform hUne (fun x hx => hk₂ x (hsubU x hx))
          have hidseq : (csL.map NodeM.leafIds).flatten ++
              (upper.map NodeM.leafIds).flatten =
              (A.map NodeM.leafIds).flatten ++
                (cc.leafIds ++ csib.leafIds) ++
                (B.map NodeM.leafIds).flatten := by
            rw [← List.flatten_append, ← List.map_append, hcomb]
            simp only [List.map_append, List.map_cons, List.flatten_append,
              List.flatten_cons, List.append_assoc]
          have hhL : csL.head? = (A ++ cc :: csib :: B).head? := by
            rw [← hcomb, List.head?_append_of_ne_nil _ hLne]
          refine ⟨?_, ?_, ?_, ?_, ?_, ?_, ?_, ?_, ?_, ?_, ?_, ?_, ?_⟩
          · rw [hfindEp, hfnone]
          · exact p2
          · exact p3
          · intro j hj hjf
            refine p4 j (fun hjc => hj ?_) hjf
            rw [hsplitIds]
            simp [hjc]
          · intro id hid
            simp only [sibIds, leafIds_internals] at hid
            rw [hidseq] at hid
            rcases hsur.2.2 id hid with hold | hge
            · refine Or.inl ?_
              rw [hsplitIds]
              exact hold
            · exact Or.inr ⟨hge, hsur.2.1 id hid⟩
          · simp only [sibIds, leafIds_internals]
            rw [hidseq]
            exact hsur.1
          · simp only [sibIds, leafIds_internals]
            rw [hidseq, hsplitIds']
            exact hhead_new
          · simp only [sibIds, leafIds_internals]
            rw [hidseq]
            exact hchain_new
          · simp only [optEntries]
            rw [treeEntries_internals, treeEntries_internals]
            rw [← List.flatten_append, ← List.map_append, hcomb, hrefE]
            simp only [List.map_append, List.map_cons, List.flatten_append,
              List.flatten_cons]
            rw [hAfE, hBfE, ← p9']
            simp only [List.append_assoc]
          · rfl
          · simp only [NodeM.height]
            rw [hgoL, hgoList]
          · intro hps
            simp at hps
          · refine ⟨⟨?_, ?_, ?_, ?_, ?_, ?_⟩, ⟨?_, ?_, ?_, ?_, ?_, ?_⟩,
              ?_, rfl⟩
            · show minFill cap ≤ csL.length
              omega
            · show csL.length ≤ cap
              have hl := hlenL
              simp only [minFill] at hl
              omega
            · rw [hhL]
              exact head?_map_replace_head h3' p10
            · obtain ⟨z, hz⟩ := getLast?_isSome_of_ne_nil hLne
              rw [hz]
              simp
            · obtain ⟨y, hy⟩ : ∃ y, csL.head? = some y := by
                cases csL with
                | nil => exact absurd rfl hLne
                | cons a as => exact ⟨a, rfl⟩
              intro x hx
              rw [hy]
              simp only [Option.map_some', Option.getD_some]
              rw [hk₂ x (hsubL x hx), hk₂ y (hsubL y (List.mem_of_mem_head? hy))]
            · rw [nodeWF.goList_iff]
              exact fun x hx => hwf₂ x (hsubL x hx)
            · show minFill cap ≤ upper.length
              omega
            · show upper.length ≤ cap
              have hl := hlenU
              simp only [minFill] at hl
              omega
            · obtain ⟨y, hy⟩ : ∃ y, upper.head? = some y := by
                cases upper with
                | nil => exact absurd rfl hUne
                | cons a as => exact ⟨a, rfl⟩
              rw [hy]
              simp
            · obtain ⟨z, hz⟩ := getLast?_isSome_of_ne_nil hUne
              rw [hz]
              simp
            · obtain ⟨y, hy⟩ : ∃ y, upper.head? = some y := by
                cases upper with
                | nil => exact absurd rfl hUne
                | cons a as => exact ⟨a, rfl⟩
              intro x hx
              rw [hy]
              simp only [Option.map_some', Option.getD_some]
              rw [hk₂ x (hsubU x hx), hk₂ y (hsubU y (List.mem_of_mem_head? hy))]
            · rw [nodeWF.goList_iff]
              exact fun x hx => hwf₂ x (hsubU x hx)
            · simp only [NodeM.height]
              rw [hgoU, hgoList]


/-! ## Remove-side helpers -/

theorem set_get?_self : ∀ {l : List α} {i : Nat} {x : α},
    l.get? i = some x → l.set i x = l := by
  intro l
  induction l with
  | nil => intro i x h; cases h
  | cons a as ih =>
    intro i x h
    cases i with
    | zero =>
      injection h with h'
      rw [h']
      rfl
    | succ n =>
      show a :: as.set n x = a :: as
      rw [ih h]

theorem getLast?_cons_of_ne_nil {xs : List α} (x : α) (h : xs ≠ []) :
    (x :: xs).getLast? = xs.getLast? := by
  cases xs with
  | nil => exact absurd rfl h
  | cons b bs => exact List.getLast?_cons_cons

theorem dropLast_append_getLast : ∀ {l : List α} {x : α},
    l.getLast? = some x → l.dropLast ++ [x] = l := by
  intro l
  induction l with
  | nil => intro x h; cases h
  | cons a as ih =>
    intro x h
    cases as with
    | nil =>
      rw [List.getLast?_singleton] at h
      injection h with h'
      rw [h']
      rfl
    | cons b bs =>
      rw [List.getLast?_cons_cons] at h
      show a :: ((b :: bs).dropLast ++ [x]) = a :: (b :: bs)
      rw [ih h]

theorem head?_dropLast {l : List α} (h : 2 ≤ l.length) :
    l.dropLast.head? = l.head? := by
  cases l with
  | nil => simp at h
  | cons a as =>
    cases as with
    | nil => simp at h
    | cons b bs => rfl

theorem set_append_cons₂ (P : List α) (x y : α) (S : List α) (v : α) :
    (P ++ x :: y :: S).set (P.length + 1) v = P ++ x :: v :: S := by
  induction P with
  | nil => rfl
  | cons p ps ih =>
    show p :: ((ps ++ x :: y :: S).set (ps.length + 1) v) =
      p :: (ps ++ x :: v :: S)
    rw [ih]

theorem eraseIdx_append_cons₂ (P : List α) (x y : α) (S : List α) :
    (P ++ x :: y :: S).eraseIdx (P.length + 1) = P ++ x :: S := by
  induction P with
  | nil => rfl
  | cons p ps ih =>
    show p :: ((ps ++ x :: y :: S).eraseIdx (ps.length + 1)) =
      p :: (ps ++ x :: S)
    rw [ih]

theorem length_le_length_flatten {L : List (List α)} (h : ∀ l ∈ L, l ≠ []) :
    L.length ≤ L.flatten.length := by
  induction L with
  | nil => simp
  | cons x xs ih =>
    have hx : 0 < x.length := List.length_pos.mpr (h x (by simp))
    have := ih (fun l hl => h l (by simp [hl]))
    simp only [List.flatten_cons, List.length_append, List.length_cons]
    omega

/-- `Internal::balance_or_drain` on two leaves-kind siblings: the combined
handle sequence is preserved, the left node keeps its head, the counts are
restored to the fill discipline, and a drain empties the right node. -/
theorem nodeBOD_leaves_spec (cap : Nat) (hodd : cap % 2 = 1) (hcap : 3 < cap)
    {s : Store Nat V} {h₁ t₁ h₂ t₂ : Nat} {cs₁ cs₂ : List Nat}
    {lacking : Bool}
    (hdef : (if lacking then cs₂.length else cs₁.length) = minFill cap - 1)
    (hdon : minFill cap ≤ (if lacking then cs₁.length else cs₂.length))
    (hle₁ : cs₁.length ≤ cap) (hle₂ : cs₂.length ≤ cap) :
    ∃ cs₁' cs₂' dr,
      nodeBalanceOrDrain cap s (.leaves h₁ t₁ cs₁) (.leaves h₂ t₂ cs₂)
        lacking = (.leaves h₁ (cs₁'.getLast?.getD t₁) cs₁',
          .leaves (cs₂'.head?.getD h₂) t₂ cs₂', s, dr) ∧
      cs₁' ++ cs₂' = cs₁ ++ cs₂ ∧
      cs₁'.head? = cs₁.head? ∧
      minFill cap ≤ cs₁'.length ∧ cs₁'.length ≤ cap ∧
      (dr = false → minFill cap ≤ cs₂'.length ∧ cs₂'.length ≤ cap ∧
        cs₂'.getLast? = cs₂.getLast?) ∧
      (dr = true → cs₂' = []) := by
  have hB : 3 ≤ minFill cap := by
    simp only [minFill]
    omega
  cases lacking with
  | true =>
    simp only [if_true] at hdef hdon
    by_cases hgt : minFill cap < cs₁.length
    · have hne₁ : cs₁ ≠ [] := by
        intro hn
        rw [hn] at hdon
        simp at hdon
        omega
      obtain ⟨x, hx⟩ := getLast?_isSome_of_ne_nil hne₁
      have hne₂ : cs₂ ≠ [] := by
        intro hn
        rw [hn] at hdef
        simp at hdef
        omega
      refine ⟨cs₁.dropLast, cs₁.getLast?.getD 0 :: cs₂, false, ?_, ?_, ?_,
        ?_, ?_, ?_, ?_⟩
      · rw [nodeBalanceOrDrain, if_pos ⟨rfl, hgt⟩]
      · rw [hx]
        simp only [Option.getD_some]
        rw [show cs₁.dropLast ++ x :: cs₂ = (cs₁.dropLast ++ [x]) ++ cs₂ by
          simp]
        rw [dropLast_append_getLast hx]
      · exact head?_dropLast (by omega)
      · rw [List.length_dropLast]
        omega
      · rw [List.length_dropLast]
        omega
      · intro _
        refine ⟨?_, ?_, ?_⟩
        · simp only [List.length_cons]
          omega
        · simp only [List.length_cons]
          omega
        · rw [hx]
          simp only [Option.getD_some]
          exact getLast?_cons_of_ne_nil x hne₂
      · intro hdr
        cases hdr
    · have hne₁ : cs₁ ≠ [] := by
        intro hn
        rw [hn] at hdon
        simp at hdon
        omega
      refine ⟨cs₁ ++ cs₂, [], true, ?_, ?_, ?_, ?_, ?_, ?_, ?_⟩
      · rw [nodeBalanceOrDrain, if_neg (fun hc => hgt hc.2),
          if_neg (fun hc => hc.1 rfl)]
        rfl
      · simp
      · exact List.head?_append_of_ne_nil _ hne₁
      · rw [List.length_append]
        omega
      · rw [List.length_append]
        simp only [minFill] at hdef hdon hgt ⊢
        omega
      · intro hdr
        cases hdr
      · intro _
        rfl
  | false =>
    simp only [Bool.false_eq_true, if_false] at hdef hdon
    by_cases hgt : minFill cap < cs₂.length
    · obtain ⟨y, rest, hy⟩ : ∃ y rest, cs₂ = y :: rest := by
        cases hc : cs₂ with
        | nil =>
          rw [hc] at hdon
          simp at hdon
          omega
        | cons y rest => exact ⟨y, rest, rfl⟩
      have hne₁ : cs₁ ≠ [] := by
        intro hn
        rw [hn] at hdef
        simp at hdef
        omega
      have hrest : rest ≠ [] := by
        intro hn
        rw [hy, hn] at hgt
        simp at hgt
        omega
      refine ⟨cs₁ ++ [cs₂.head?.getD 0], cs₂.drop 1, false, ?_, ?_, ?_,
        ?_, ?_, ?_, ?_⟩
      · rw [nodeBalanceOrDrain, if_neg (fun hc => by cases hc.1),
          if_pos ⟨Bool.false_ne_true, hgt⟩]
      · rw [hy]
        simp
      · exact List.head?_append_of_ne_nil _ hne₁
      · simp only [List.length_append, List.length_cons, List.length_nil]
        omega
      · simp only [List.length_append, List.length_cons, List.length_nil]
        omega
      · intro _
        refine ⟨?_, ?_, ?_⟩
        · rw [hy]
          simp only [List.drop_one, List.tail_cons]
          rw [hy] at hgt
          simp only [List.length_cons] at hgt
          omega
        · rw [hy]
          simp only [List.drop_one, List.tail_cons]
          rw [hy] at hle₂
          simp only [List.length_cons] at hle₂
          omega
        · rw [hy]
          simp only [List.drop_one, List.tail_cons]
          exact (getLast?_cons_of_ne_nil y hrest).symm
      · intro hdr
        cases hdr
    · have hne₁ : cs₁ ≠ [] := by
        intro hn
        rw [hn] at hdef
        simp at hdef
        omega
      refine ⟨cs₁ ++ cs₂, [], true, ?_, ?_, ?_, ?_, ?_, ?_, ?_⟩
      · rw [nodeBalanceOrDrain, if_neg (fun hc => by cases hc.1),
          if_neg (fun hc => hgt hc.2)]
        rfl
      · simp
      · exact List.head?_append_of_ne_nil _ hne₁
      · rw [List.length_append]
        omega
      · rw [List.length_append]
        simp only [minFill] at hdef hdon hgt ⊢
        omega
      · intro hdr
        cases hdr
      · intro _
        rfl

/-- `Internal::balance_or_drain` on two internals-kind siblings. -/
theorem nodeBOD_internals_spec (cap : Nat) (hodd : cap % 2 = 1)
    (hcap : 3 < cap) {s : Store Nat V} {h₁ t₁ h₂ t₂ : Nat}
    {cs₁ cs₂ : List NodeM} {lacking : Bool}
    (hdef : (if lacking then cs₂.length else cs₁.length) = minFill cap - 1)
    (hdon : minFill cap ≤ (if lacking then cs₁.length else cs₂.length))
    (hle₁ : cs₁.length ≤ cap) (hle₂ : cs₂.length ≤ cap) :
    ∃ cs₁' cs₂' dr,
      nodeBalanceOrDrain cap s (.internals h₁ t₁ cs₁) (.internals h₂ t₂ cs₂)
        lacking = (.internals h₁ ((cs₁'.getLast?.map NodeM.tailId).getD t₁)
          cs₁', .internals ((cs₂'.head?.map NodeM.headId).getD h₂) t₂ cs₂',
          s, dr) ∧
      cs₁' ++ cs₂' = cs₁ ++ cs₂ ∧
      cs₁'.head? = cs₁.head? ∧
      minFill cap ≤ cs₁'.length ∧ cs₁'.length ≤ cap ∧
      (dr = false → minFill cap ≤ cs₂'.length ∧ cs₂'.length ≤ cap ∧
        cs₂'.getLast? = cs₂.getLast?) ∧
      (dr = true → cs₂' = []) := by
  have hB : 3 ≤ minFill cap := by
    simp only [minFill]
    omega
  cases lacking with
  | true =>
    simp only [if_true] at hdef hdon
    by_cases hgt : minFill cap < cs₁.length
    · have hne₁ : cs₁ ≠ [] := by
        intro hn
        rw [hn] at hdon
        simp at hdon
        omega
      obtain ⟨x, hx⟩ := getLast?_isSome_of_ne_nil hne₁
      have hne₂ : cs₂ ≠ [] := by
        intro hn
        rw [hn] at hdef
        simp at hdef
        omega
      refine ⟨cs₁.dropLast, cs₁.getLast?.toList ++ cs₂, false, ?_, ?_, ?_,
        ?_, ?_, ?_, ?_⟩
      · rw [nodeBalanceOrDrain, if_pos ⟨rfl, hgt⟩]
      · rw [hx]
        simp only [Option.toList_some]
        rw [show cs₁.dropLast ++ ([x] ++ cs₂) = (cs₁.dropLast ++ [x]) ++ cs₂
          by simp]
        rw [dropLast_append_getLast hx]
      · exact head?_dropLast (by omega)
      · rw [List.length_dropLast]
        omega
      · rw [List.length_dropLast]
        omega
      · intro _
        rw [hx]
        simp only [Option.toList_some, List.singleton_append]
        refine ⟨?_, ?_, ?_⟩
        · simp only [List.length_cons]
          omega
        · simp only [List.length_cons]
          omega
        · exact getLast?_cons_of_ne_nil x hne₂
      · intro hdr
        cases hdr
    · have hne₁ : cs₁ ≠ [] := by
        intro hn
        rw [hn] at hdon
        simp at hdon
        omega
      refine ⟨cs₁ ++ cs₂, [], true, ?_, ?_, ?_, ?_, ?_, ?_, ?_⟩
      · rw [nodeBalanceOrDrain, if_neg (fun hc => hgt hc.2),
          if_neg (fun hc => hc.1 rfl)]
        rfl
      · simp
      · exact List.head?_append_of_ne_nil _ hne₁
      · rw [List.length_append]
        omega
      · rw [List.length_append]
        simp only [minFill] at hdef hdon hgt ⊢
        omega
      · intro hdr
        cases hdr
      · intro _
        rfl
  | false =>
    simp only [Bool.false_eq_true, if_false] at hdef hdon
    by_cases hgt : minFill cap < cs₂.length
    · obtain ⟨y, rest, hy⟩ : ∃ y rest, cs₂ = y :: rest := by
        cases hc : cs₂ with
        | nil =>
          rw [hc] at hdon
          simp at hdon
          omega
        | cons y rest => exact ⟨y, rest, rfl⟩
      have hne₁ : cs₁ ≠ [] := by
        intro hn
        rw [hn] at hdef
        simp at hdef
        omega
      have hrest : rest ≠ [] := by
        intro hn
        rw [hy, hn] at hgt
        simp at hgt
        omega
      refine ⟨cs₁ ++ cs₂.head?.toList, cs₂.drop 1, false, ?_, ?_, ?_,
        ?_, ?_, ?_, ?_⟩
      · rw [nodeBalanceOrDrain, if_neg (fun hc => by cases hc.1),
          if_pos ⟨Bool.false_ne_true, hgt⟩]
      · rw [hy]
        simp
      · exact List.head?_append_of_ne_nil _ hne₁
      · rw [hy]
        simp only [List.head?_cons, Option.toList_some, List.length_append,
          List.length_cons, List.length_nil]
        omega
      · rw [hy]
        simp only [List.head?_cons, Option.toList_some, List.length_append,
          List.length_cons, List.length_nil]
        omega
      · intro _
        refine ⟨?_, ?_, ?_⟩
        · rw [hy]
          simp only [List.drop_one, List.tail_cons]
          rw [hy] at hgt
          simp only [List.length_cons] at hgt
          omega
        · rw [hy]
          simp only [List.drop_one, List.tail_cons]
          rw [hy] at hle₂
          simp only [List.length_cons] at hle₂
          omega
        · rw [hy]
          simp only [List.drop_one, List.tail_cons]
          exact (getLast?_cons_of_ne_nil y hrest).symm
      · intro hdr
        cases hdr
    · have hne₁ : cs₁ ≠ [] := by
        intro hn
        rw [hn] at hdef
        simp at hdef
        omega
      refine ⟨cs₁ ++ cs₂, [], true, ?_, ?_, ?_, ?_, ?_, ?_, ?_⟩
      · rw [nodeBalanceOrDrain, if_neg (fun hc => by cases hc.1),
          if_neg (fun hc => hgt hc.2)]
        rfl
      · simp
      · exact List.head?_append_of_ne_nil _ hne₁
      · rw [List.length_append]
        omega
      · rw [List.length_append]
        simp only [minFill] at hdef hdon hgt ⊢
        omega
      · intro hdr
        cases hdr
      · intro _
        rfl


theorem get?_append_cons₂ (P : List α) (x y : α) (S : List α) :
    (P ++ x :: y :: S).get? (P.length + 1) = some y := by
  induction P with
  | nil => rfl
  | cons p ps ih =>
    show (ps ++ x :: y :: S).get? (ps.length + 1) = some y
    exact ih

/-- `Leaf::balance_or_drain` touches only the two named cells. -/
theorem leaf_BOD_frame (cap : Nat) (s : Store K V) (l r : Nat) (f : Bool)
    {j : Nat} (hl : j ≠ l) (hr : j ≠ r) :
    (Leaf.balance_or_drain cap s l r f).1 j = s j := by
  cases hsl : s l with
  | none => simp only [Leaf.balance_or_drain, hsl]
  | some dl =>
    cases hsr : s r with
    | none => simp only [Leaf.balance_or_drain, hsl, hsr]
    | some dr =>
      simp only [Leaf.balance_or_drain, hsl, hsr]
      split_ifs with h₁ h₂
      · cases hx : dl.entries.getLast? with
        | none => rfl
        | some x =>
          show ((s.set l _).set r _) j = s j
          rw [Store.set_other _ _ _ _ hr, Store.set_other _ _ _ _ hl]
      · cases hx : dr.entries with
        | nil => rfl
        | cons y rest =>
          show ((s.set l _).set r _) j = s j
          rw [Store.set_other _ _ _ _ hr, Store.set_other _ _ _ _ hl]
      · show ((s.set l _).set r _) j = s j
        rw [Store.set_other _ _ _ _ hr, Store.set_other _ _ _ _ hl]

/-- The postcondition of `Internal::remove` on a subtree: a miss leaves
everything untouched and corresponds to a failed reference lookup; a hit
removes exactly the entry the reference lookup returns, reuses a subset of
the old leaf handles with the same first leaf, keeps the chain intact and
the cached head and the height unchanged, and reports deficiency such that a
strict subtree is either still strict (`need = false`) or sits exactly one
child under the minimum (`need = true`). -/
def RemPost (cap : Nat) (s : Store Nat V) (strict : Bool) (n : NodeM)
    (q : Nat) (after : Option Nat) (n' : NodeM) (s' : Store Nat V)
    (res : Option ((Nat × V) × Bool)) : Prop :=
  (∀ j, j ∉ n.leafIds → s' j = s j) ∧
  n'.headId = n.headId ∧
  n'.height = n.height ∧
  (match res with
   | none => n' = n ∧ s' = s ∧ refFind (treeEntries s n) q = none
   | some (entry, need) =>
      refFind (treeEntries s n) q = some entry ∧
      treeEntries s' n' = refRemove (treeEntries s n) q ∧
      (∀ id ∈ n'.leafIds, id ∈ n.leafIds) ∧
      n'.leafIds.Nodup ∧
      n'.leafIds.head? = n.leafIds.head? ∧
      chainOK s' n'.leafIds after ∧
      n'.childCount ≤ n.childCount ∧
      (need = false → nodeWF cap s' strict n') ∧
      (need = false →
        n.childCount ≤ n'.childCount ∨ minFill cap ≤ n'.childCount) ∧
      (need = true → strict = true →
        n'.childCount = minFill cap - 1 ∧ nodeWF cap s' false n') ∧
      (need = true → strict = false →
        1 ≤ (refRemove (treeEntries s n) q).length → nodeWF cap s' false n'))

/-- Assembling the hit-case of `RemPost` at a leaves-kind node from the new
handle list's properties. -/
theorem remove_leaves_assemble {cap : Nat} (hcap : 3 < cap)
    {s : Store Nat V} {strict : Bool} {h t : Nat} {cs : List Nat} {q : Nat}
    {after : Option Nat} {entry : Nat × V} {s₂ : Store Nat V}
    {cs' : List Nat} {nd : Bool}
    (hwf : nodeWF cap s strict (.leaves h t cs))
    (hfind : refFind (treeEntries s (.leaves h t cs)) q = some entry)
    (hsub : ∀ id ∈ cs', id ∈ cs) (hnd' : cs'.Nodup)
    (hhd : cs'.head? = cs.head?) (hne' : cs' ≠ [])
    (hlen : cs'.length ≤ cs.length)
    (hfill : ∀ id ∈ cs', ∃ dd, s₂ id = some dd ∧
      minFill cap ≤ dd.entries.length ∧ dd.entries.length ≤ cap)
    (hent : (cs'.map (leafEntries s₂)).flatten =
      refRemove (treeEntries s (.leaves h t cs)) q)
    (hch' : chainOK s₂ cs' after)
    (hframe : ∀ j, j ∉ cs → s₂ j = s j)
    (hndF : nd = false → strict = true → minFill cap ≤ cs'.length)
    (hndT : nd = true → strict = true → cs'.length = minFill cap - 1)
    (hcnt2 : nd = false → cs.length ≤ cs'.length ∨
      minFill cap ≤ cs'.length) :
    RemPost cap s strict (.leaves h t cs) q after
      (.leaves h (cs'.getLast?.getD t) cs') s₂ (some (entry, nd)) := by
  obtain ⟨h1, h2, h3, h4, h5, h6⟩ := hwf
  have hpos : 0 < cs'.length := List.length_pos.mpr hne'
  obtain ⟨z, hz⟩ := getLast?_isSome_of_ne_nil hne'
  have hB3 : 3 ≤ minFill cap := by
    simp only [minFill]
    omega
  have hwfgen : ∀ b : Bool, (if b then minFill cap else 1) ≤ cs'.length →
      nodeWF cap s₂ b (.leaves h (cs'.getLast?.getD t) cs') := by
    intro b hb
    refine ⟨hb, by omega, ?_, ?_, ?_, ?_⟩
    · rw [hhd]
      exact h3
    · rw [hz]
      simp
    · intro id hid
      obtain ⟨dd, hdd, hmin, hmax⟩ := hfill id hid
      refine ⟨dd, hdd, ?_, hmax⟩
      intro hn
      rw [hn] at hmin
      simp only [List.length_nil, minFill] at hmin
      omega
    · intro _ id hid
      obtain ⟨dd, hdd, hmin, _⟩ := hfill id hid
      exact ⟨dd, hdd, hmin⟩
  refine ⟨hframe, rfl, rfl, hfind, hent, hsub, hnd', hhd, hch', hlen,
    ?_, hcnt2, ?_, ?_⟩
  · intro hf
    refine hwfgen strict ?_
    split_ifs with hst
    · exact hndF hf (by rw [hst])
    · omega
  · intro ht hst
    refine ⟨hndT ht hst, hwfgen false (by simpa using hpos)⟩
  · intro _ _ _
    exact hwfgen false (by simpa using hpos)


set_option maxHeartbeats 3000000

theorem strict_minFill_le {cap : Nat} {strict : Bool} {l : List α}
    (hst : strict = true)
    (h1 : (if strict = true then minFill cap else 1) ≤ l.length) :
    minFill cap ≤ l.length := by
  subst hst
  simpa using h1

/-- Strict well-formedness entails relaxed well-formedness. -/
theorem nodeWF_weaken {cap : Nat} (hcap : 3 < cap) {s : Store Nat V} :
    ∀ n : NodeM, nodeWF cap s true n → nodeWF cap s false n := by
  intro n hwf
  cases n with
  | leaves h t cs =>
    obtain ⟨h1, h2, h3, h4, h5, h6⟩ := hwf
    refine ⟨?_, h2, h3, h4, h5, fun _ => h6 (Or.inl rfl)⟩
    rw [if_neg Bool.false_ne_true]
    have h1' : minFill cap ≤ cs.length := strict_minFill_le rfl h1
    simp only [minFill] at h1'
    omega
  | internals h t cs =>
    obtain ⟨h1, h2, h3, h4, h5, h6⟩ := hwf
    refine ⟨?_, h2, h3, h4, h5, h6⟩
    rw [if_neg Bool.false_ne_true]
    have h1' : minFill cap ≤ cs.length := strict_minFill_le rfl h1
    simp only [minFill] at h1'
    omega

/-- Replacing a middle segment by a subset of itself preserves `Nodup`. -/
theorem nodup_subset_replace {P M M' S : List Nat}
    (hnd : (P ++ M ++ S).Nodup) (hM'nd : M'.Nodup)
    (hsub : ∀ id ∈ M', id ∈ M) : (P ++ M' ++ S).Nodup := by
  rw [List.nodup_append, List.nodup_append] at hnd
  rw [List.nodup_append, List.nodup_append]
  obtain ⟨⟨hP, hM, hPM⟩, hS, hPMS⟩ := hnd
  refine ⟨⟨hP, hM'nd, ?_⟩, hS, ?_⟩
  · intro a ha ham
    exact hPM ha (hsub a ham)
  · intro a ha has
    rcases List.mem_append.mp ha with h' | h'
    · exact hPMS (List.mem_append.mpr (Or.inl h')) has
    · exact hPMS (List.mem_append.mpr (Or.inr (hsub a h'))) has


/-- Kind-generic specification of `nodeBalanceOrDrain` on two adjacent
same-height siblings, one of which is exactly one child short of the minimum
fill: the combined child sequence (hence the leaf handles and the entries)
is preserved, the left result keeps the left boundary, heights are unchanged
and both surviving nodes are strictly well-formed. -/
theorem nodeBOD_spec (cap : Nat) (hodd : cap % 2 = 1) (hcap : 3 < cap)
    {s : Store Nat V} {lc rc : NodeM} {lacking : Bool}
    (hht : lc.height = rc.height)
    (hwl : nodeWF cap s false lc) (hwr : nodeWF cap s false rc)
    (hdef : (if lacking then rc.childCount else lc.childCount) =
      minFill cap - 1)
    (hdon : minFill cap ≤
      (if lacking then lc.childCount else rc.childCount)) :
    ∃ L' R' dr, nodeBalanceOrDrain cap s lc rc lacking = (L', R', s, dr) ∧
      L'.headId = lc.headId ∧
      L'.leafIds ++ R'.leafIds = lc.leafIds ++ rc.leafIds ∧
      treeEntries s L' ++ treeEntries s R' =
        treeEntries s lc ++ treeEntries s rc ∧
      L'.height = lc.height ∧
      nodeWF cap s true L' ∧
      (dr = false → R'.height = rc.height ∧ nodeWF cap s true R') ∧
      (dr = true → R'.leafIds = []) := by
  have hB3 : 3 ≤ minFill cap := by
    simp only [minFill]
    omega
  cases lc with
  | leaves h₁ t₁ cs₁ =>
    cases rc with
    | internals h₂ t₂ cs₂ =>
      exfalso
      obtain ⟨g1, g2, g3, g4, g5, g6⟩ := hwr
      obtain ⟨y, ys, rfl⟩ : ∃ y ys, cs₂ = y :: ys := by
        cases cs₂ with
        | nil => cases g3
        | cons y ys => exact ⟨y, ys, rfl⟩
      have hy := height_pos y
      have hgle := height_goList_le (List.mem_cons_self y ys)
      simp only [NodeM.height] at hht
      omega
    | leaves h₂ t₂ cs₂ =>
      obtain ⟨f1, f2, f3, f4, f5, f6⟩ := hwl
      obtain ⟨g1, g2, g3, g4, g5, g6⟩ := hwr
      have hdef' : (if lacking then cs₂.length else cs₁.length) =
          minFill cap - 1 := hdef
      have hdon' : minFill cap ≤
          (if lacking then cs₁.length else cs₂.length) := hdon
      have h2₁ : 2 ≤ cs₁.length := by
        cases lacking
        · simp only [Bool.false_eq_true, if_false] at hdef'
          omega
        · simp only [if_true] at hdon'
          omega
      have h2₂ : 2 ≤ cs₂.length := by
        cases lacking
        · simp only [Bool.false_eq_true, if_false] at hdon'
          omega
        · simp only [if_true] at hdef'
          omega
      obtain ⟨cs₁', cs₂', dr, hres, hcomb, hhd₁, hm₁, hc₁, hdrF, hdrT⟩ :=
        nodeBOD_leaves_spec cap hodd hcap hdef' hdon' f2 g2
      have hsubm : ∀ id ∈ cs₁' ++ cs₂', id ∈ cs₁ ∨ id ∈ cs₂ := by
        intro id hid
        rw [hcomb] at hid
        exact List.mem_append.mp hid
      have hne₁' : cs₁' ≠ [] := by
        intro hn
        rw [hn] at hm₁
        simp only [List.length_nil] at hm₁
        omega
      obtain ⟨z, hz⟩ := getLast?_isSome_of_ne_nil hne₁'
      refine ⟨_, _, dr, hres, rfl, hcomb, ?_, rfl, ?_, ?_, ?_⟩
      · show ((cs₁'.map (leafEntries s)).flatten) ++
          ((cs₂'.map (leafEntries s)).flatten) = _
        rw [← List.flatten_append, ← List.map_append, hcomb,
          List.map_append, List.flatten_append]
        rfl
      · refine ⟨?_, hc₁, ?_, ?_, ?_, ?_⟩
        · rw [if_pos rfl]
          exact hm₁
        · rw [hhd₁]
          exact f3
        · rw [hz]
          simp
        · intro id hid
          rcases hsubm id (by simp [hid]) with h' | h'
          · exact f5 id h'
          · exact g5 id h'
        · intro _ id hid
          rcases hsubm id (by simp [hid]) with h' | h'
          · exact f6 (Or.inr h2₁) id h'
          · exact g6 (Or.inr h2₂) id h'
      · intro hdr
        obtain ⟨hm₂, hc₂, hlast₂⟩ := hdrF hdr
        have hne₂' : cs₂' ≠ [] := by
          intro hn
          rw [hn] at hm₂
          simp only [List.length_nil] at hm₂
          omega
        obtain ⟨y₂, hy₂⟩ : ∃ y₂, cs₂'.head? = some y₂ := by
          cases hc : cs₂' with
          | nil => exact absurd hc hne₂'
          | cons a l => exact ⟨a, rfl⟩
        refine ⟨rfl, ?_, hc₂, ?_, ?_, ?_, ?_⟩
        · rw [if_pos rfl]
          exact hm₂
        · rw [hy₂]
          simp
        · rw [hlast₂]
          exact g4
        · intro id hid
          rcases hsubm id (by simp [hid]) with h' | h'
          · exact f5 id h'
          · exact g5 id h'
        · intro _ id hid
          rcases hsubm id (by simp [hid]) with h' | h'
          · exact f6 (Or.inr h2₁) id h'
          · exact g6 (Or.inr h2₂) id h'
      · intro hdr
        show cs₂' = []
        exact hdrT hdr
  | internals h₁ t₁ cs₁ =>
    cases rc with
    | leaves h₂ t₂ cs₂ =>
      exfalso
      obtain ⟨f1, f2, f3, f4, f5, f6⟩ := hwl
      obtain ⟨y, ys, rfl⟩ : ∃ y ys, cs₁ = y :: ys := by
        cases cs₁ with
        | nil => cases f3
        | cons y ys => exact ⟨y, ys, rfl⟩
      have hy := height_pos y
      have hgle := height_goList_le (List.mem_cons_self y ys)
      simp only [NodeM.height] at hht
      omega
    | internals h₂ t₂ cs₂ =>
      obtain ⟨f1, f2, f3, f4, f5, f6⟩ := hwl
      obtain ⟨g1, g2, g3, g4, g5, g6⟩ := hwr
      rw [nodeWF.goList_iff] at f6 g6
      have hdef' : (if lacking then cs₂.length else cs₁.length) =
          minFill cap - 1 := hdef
      have hdon' : minFill cap ≤
          (if lacking then cs₁.length else cs₂.length) := hdon
      have h2₁ : 2 ≤ cs₁.length := by
        cases lacking
        · simp only [Bool.false_eq_true, if_false] at hdef'
          omega
        · simp only [if_true] at hdon'
          omega
      have h2₂ : 2 ≤ cs₂.length := by
        cases lacking
        · simp only [Bool.false_eq_true, if_false] at hdon'
          omega
        · simp only [if_true] at hdef'
          omega
      obtain ⟨x₁, xs₁, rfl⟩ : ∃ x₁ xs₁, cs₁ = x₁ :: xs₁ := by
        cases cs₁ with
        | nil => cases f3
        | cons x₁ xs₁ => exact ⟨x₁, xs₁, rfl⟩
      obtain ⟨x₂, xs₂, rfl⟩ : ∃ x₂ xs₂, cs₂ = x₂ :: xs₂ := by
        cases cs₂ with
        | nil => cases g3
        | cons x₂ xs₂ => exact ⟨x₂, xs₂, rfl⟩
      have hgl₁ : NodeM.height.goList (x₁ :: xs₁) = x₁.height :=
        height_goList_uniform (by simp) (fun c hc => f5 c hc)
      have hgl₂ : NodeM.height.goList (x₂ :: xs₂) = x₂.height :=
        height_goList_uniform (by simp) (fun c hc => g5 c hc)
      have hx12 : x₁.height = x₂.height := by
        simp only [NodeM.height] at hht
        rw [hgl₁, hgl₂] at hht
        omega
      obtain ⟨cs₁', cs₂', dr, hres, hcomb, hhd₁, hm₁, hc₁, hdrF, hdrT⟩ :=
        nodeBOD_internals_spec cap hodd hcap hdef' hdon' f2 g2
      have hsubm : ∀ c ∈ cs₁' ++ cs₂', c ∈ x₁ :: xs₁ ∨ c ∈ x₂ :: xs₂ := by
        intro c hc
        rw [hcomb] at hc
        exact List.mem_append.mp hc
      have hunif : ∀ c, c ∈ x₁ :: xs₁ ∨ c ∈ x₂ :: xs₂ →
          c.height = x₁.height := by
        intro c hc
        rcases hc with h' | h'
        · exact f5 c h'
        · rw [g5 c h']
          exact hx12.symm
      have hwfu : ∀ c, c ∈ x₁ :: xs₁ ∨ c ∈ x₂ :: xs₂ →
          nodeWF cap s true c := by
        intro c hc
        rcases hc with h' | h'
        · exact f6 c h'
        · exact g6 c h'
      have hne₁' : cs₁' ≠ [] := by
        intro hn
        rw [hn] at hm₁
        simp only [List.length_nil] at hm₁
        omega
      obtain ⟨z, hz⟩ := getLast?_isSome_of_ne_nil hne₁'
      have hglL : NodeM.height.goList cs₁' = x₁.height :=
        height_goList_uniform hne₁' (fun c hc => hunif c
          (hsubm c (by simp [hc])))
      refine ⟨_, _, dr, hres, rfl, ?_, ?_, ?_, ?_, ?_, ?_⟩
      · rw [leafIds_internals, leafIds_internals, leafIds_internals,
          leafIds_internals]
        rw [← List.flatten_append, ← List.map_append, hcomb,
          List.map_append, List.flatten_append]
      · rw [treeEntries_internals, treeEntries_internals,
          treeEntries_internals, treeEntries_internals]
        rw [← List.flatten_append, ← List.map_append, hcomb,
          List.map_append, List.flatten_append]
      · simp only [NodeM.height]
        rw [hglL, hgl₁]
      · refine ⟨?_, hc₁, ?_, ?_, ?_, ?_⟩
        · rw [if_pos rfl]
          exact hm₁
        · rw [hhd₁]
          exact f3
        · rw [hz]
          simp
        · intro c hc
          rw [hhd₁]
          rw [show ((x₁ :: xs₁ : List NodeM).head?.map NodeM.height).getD 0
            = x₁.height from rfl]
          exact hunif c (hsubm c (by simp [hc]))
        · rw [nodeWF.goList_iff]
          intro c hc
          exact hwfu c (hsubm c (by simp [hc]))
      · intro hdr
        obtain ⟨hm₂, hc₂, hlast₂⟩ := hdrF hdr
        have hne₂' : cs₂' ≠ [] := by
          intro hn
          rw [hn] at hm₂
          simp only [List.length_nil] at hm₂
          omega
        obtain ⟨y₂, hy₂⟩ : ∃ y₂, cs₂'.head? = some y₂ := by
          cases hc : cs₂' with
          | nil => exact absurd hc hne₂'
          | cons a l => exact ⟨a, rfl⟩
        have hglR : NodeM.height.goList cs₂' = x₁.height :=
          height_goList_uniform hne₂' (fun c hc => hunif c
            (hsubm c (by simp [hc])))
        refine ⟨?_, ?_, hc₂, ?_, ?_, ?_, ?_⟩
        · simp only [NodeM.height]
          rw [hglR, hgl₂, hx12]
        · rw [if_pos rfl]
          exact hm₂
        · rw [hy₂]
          simp
        · rw [hlast₂]
          exact g4
        · intro c hc
          rw [hy₂]
          have hy₂m : y₂ ∈ cs₂' := List.mem_of_mem_head? hy₂
          rw [show ((some y₂).map NodeM.height).getD 0 = y₂.height from rfl]
          rw [hunif c (hsubm c (by simp [hc]))]
          rw [hunif y₂ (hsubm y₂ (by simp [hy₂m]))]
        · rw [nodeWF.goList_iff]
          intro c hc
          exact hwfu c (hsubm c (by simp [hc]))
      · intro hdr
        rw [leafIds_internals, hdrT hdr]
        rfl


/-- Assembling the hit-case of `RemPost` at an internals-kind node from the
new child list's properties. -/
theorem remove_internals_assemble {cap : Nat} (hcap : 3 < cap)
    {s : Store Nat V} {strict : Bool} {h t : Nat} {cs : List NodeM} {q : Nat}
    {after : Option Nat} {entry : Nat × V} {s₂ : Store Nat V}
    {cs' : List NodeM} {nd : Bool}
    (hwf : nodeWF cap s strict (.internals h t cs))
    (hfind : refFind (treeEntries s (.internals h t cs)) q = some entry)
    (hsub : ∀ id ∈ (cs'.map NodeM.leafIds).flatten,
      id ∈ (cs.map NodeM.leafIds).flatten)
    (hnd' : ((cs'.map NodeM.leafIds).flatten).Nodup)
    (hhd : ((cs'.map NodeM.leafIds).flatten).head? =
      ((cs.map NodeM.leafIds).flatten).head?)
    (hh3 : cs'.head?.map NodeM.headId = some h)
    (hne' : cs' ≠ [])
    (hlen : cs'.length ≤ cs.length)
    (hwfc : ∀ c ∈ cs', nodeWF cap s₂ true c)
    (hhts : ∀ c ∈ cs', c.height = (cs.head?.map NodeM.height).getD 0)
    (hent : (cs'.map (treeEntries s₂)).flatten =
      refRemove (treeEntries s (.internals h t cs)) q)
    (hch' : chainOK s₂ ((cs'.map NodeM.leafIds).flatten) after)
    (hframe : ∀ j, j ∉ (NodeM.internals h t cs).leafIds → s₂ j = s j)
    (hndF : nd = false → strict = true → minFill cap ≤ cs'.length)
    (hndT : nd = true → strict = true → cs'.length = minFill cap - 1)
    (hcnt2 : nd = false → cs.length ≤ cs'.length ∨
      minFill cap ≤ cs'.length) :
    RemPost cap s strict (.internals h t cs) q after
      (.internals h ((cs'.getLast?.map NodeM.tailId).getD t) cs') s₂
      (some (entry, nd)) := by
  obtain ⟨h1, h2, h3, h4, h5, h6⟩ := hwf
  have hpos : 0 < cs'.length := List.length_pos.mpr hne'
  obtain ⟨z, hz⟩ := getLast?_isSome_of_ne_nil hne'
  have hB3 : 3 ≤ minFill cap := by
    simp only [minFill]
    omega
  have hcsne : cs ≠ [] := by
    intro hn
    rw [hn] at h3
    cases h3
  have hgl₁ := height_goList_uniform hcsne h5
  have hgl₂ := height_goList_uniform hne' hhts
  have hhtn : (NodeM.internals h ((cs'.getLast?.map NodeM.tailId).getD t)
      cs').height = (NodeM.internals h t cs).height := by
    simp only [NodeM.height]
    rw [hgl₁, hgl₂]
  have hwfgen : ∀ b : Bool, (if b then minFill cap else 1) ≤ cs'.length →
      nodeWF cap s₂ b (.internals h
        ((cs'.getLast?.map NodeM.tailId).getD t) cs') := by
    intro b hb
    refine ⟨hb, by omega, hh3, ?_, ?_, ?_⟩
    · rw [hz]
      simp
    · intro c hc
      obtain ⟨y, hy⟩ : ∃ y, cs'.head? = some y := by
        cases hcc : cs' with
        | nil => exact absurd hcc hne'
        | cons a l => exact ⟨a, rfl⟩
      rw [hy]
      rw [show ((some y).map NodeM.height).getD 0 = y.height from rfl]
      rw [hhts c hc, hhts y (List.mem_of_mem_head? hy)]
    · rw [nodeWF.goList_iff]
      exact hwfc
  refine ⟨hframe, rfl, hhtn, hfind, ?_, ?_, ?_, ?_, ?_, hlen, ?_, hcnt2,
    ?_, ?_⟩
  · rw [treeEntries_internals]
    exact hent
  · intro id hid
    rw [leafIds_internals] at hid ⊢
    exact hsub id hid
  · rw [leafIds_internals]
    exact hnd'
  · rw [leafIds_internals, leafIds_internals]
    exact hhd
  · rw [leafIds_internals]
    exact hch'
  · intro hf
    refine hwfgen strict ?_
    split_ifs with hst
    · exact hndF hf (by rw [hst])
    · omega
  · intro ht hst
    refine ⟨hndT ht hst, hwfgen false (by simpa using hpos)⟩
  · intro _ _ _
    exact hwfgen false (by simpa using hpos)

/-- `Internal::remove` preservation at a leaves-kind node. -/
theorem nodeRemove_leaves_spec {cap : Nat} (hodd : cap % 2 = 1)
    (hcap : 3 < cap) {s : Store Nat V} {strict : Bool} {h t : Nat}
    {cs : List Nat} {q : Nat} {after : Option Nat}
    (hwf : nodeWF cap s strict (.leaves h t cs))
    (hsorted : sortedKeys (treeEntries s (.leaves h t cs)))
    (hnd : cs.Nodup) (hch : chainOK s cs after) (fuel : Nat)
    {n' : NodeM} {s' : Store Nat V} {res : Option ((Nat × V) × Bool)}
    (hrun : nodeRemove cap s (fuel + 1) (.leaves h t cs) q = (n', s', res)) :
    RemPost cap s strict (.leaves h t cs) q after n' s' res := by
  have hwfO := hwf
  obtain ⟨h1, h2, h3, h4, h5, h6⟩ := hwf
  have hB3 : 3 ≤ minFill cap := by
    simp only [minFill]
    omega
  by_cases htail : Leaf.lastKey s (NodeM.leaves h t cs).tailId < q
  · have hci : child_idx s (.leaves h t cs) q = none := by
      unfold child_idx
      rw [if_pos htail]
    simp only [nodeRemove, hci] at hrun
    simp only [Prod.mk.injEq] at hrun
    obtain ⟨hn', hs', hres⟩ := hrun
    subst hn'
    subst hs'
    subst hres
    have hfind := (refFind_of_tail_lt hwfO hsorted htail).1
    exact ⟨fun j _ => rfl, rfl, rfl, rfl, rfl, hfind⟩
  · have hci : child_idx s (.leaves h t cs) q =
        some (find_idx (fun id => Leaf.firstKey s id) q cs) := by
      unfold child_idx
      rw [if_neg htail]
    obtain ⟨c₀, tail, rfl⟩ : ∃ c₀ tail, cs = c₀ :: tail := by
      cases cs with
      | nil => simp at h3
      | cons c₀ tail => exact ⟨c₀, tail, rfl⟩
    have hE : treeEntries s (.leaves h t (c₀ :: tail)) =
        ((c₀ :: tail).map (leafEntries s)).flatten := rfl
    obtain ⟨A, cid, B, hdec, hlen, hA, hB⟩ :=
      find_idx_routing (fun id => Leaf.firstKey s id) (leafEntries s) q c₀
        tail (fun id hid => leaf_block_head (h5 id hid))
        (by rw [← hE]; exact hsorted)
    have hget : (c₀ :: tail).get? (find_idx (fun id => Leaf.firstKey s id)
        q (c₀ :: tail)) = some cid := by
      rw [← hlen, hdec]
      exact get?_append_cons A cid B
    have hcid_mem : cid ∈ c₀ :: tail := by
      rw [hdec]
      simp
    obtain ⟨d, hd, hdne, hdlen⟩ := h5 cid hcid_mem
    have hblk : leafEntries s cid = d.entries := by simp [leafEntries, hd]
    have hsortblk : sortedKeys d.entries := by
      rw [← hblk]
      rw [hE, hdec] at hsorted
      simp only [List.map_append, List.map_cons, List.flatten_append,
        List.flatten_cons] at hsorted
      exact (sortedKeys_append.mp (sortedKeys_append.mp hsorted).2.1).1
    have hAne : ∀ a ∈ (A.map (leafEntries s)).flatten, a.fst ≠ q := by
      intro a ha
      have := hA a ha
      omega
    have hBne : ∀ b ∈ (B.map (leafEntries s)).flatten, b.fst ≠ q := by
      intro b hb
      have := hB b hb
      omega
    have hfindE : refFind (treeEntries s (.leaves h t (c₀ :: tail))) q =
        refFind d.entries q := by
      rw [hE, hdec]
      simp only [List.map_append, List.map_cons, List.flatten_append,
        List.flatten_cons]
      rw [refFind_append_left hAne]
      rw [refFind_append_right hBne]
      rw [hblk]
    have hremE : refRemove (treeEntries s (.leaves h t (c₀ :: tail))) q =
        (A.map (leafEntries s)).flatten ++ refRemove d.entries q ++
          (B.map (leafEntries s)).flatten := by
      rw [hE, hdec]
      simp only [List.map_append, List.map_cons, List.flatten_append,
        List.flatten_cons]
      rw [refRemove_append_left hAne]
      rw [refRemove_append_right hBne]
      rw [hblk, List.append_assoc]
    have hAidsne : ∀ x ∈ A, x ≠ cid := by
      intro x hx
      have hndh := hnd
      rw [hdec, List.nodup_append] at hndh
      exact fun hxc => hndh.2.2 hx (by rw [hxc] at hx ⊢; simp)
    have hBidsne : ∀ x ∈ B, x ≠ cid := by
      intro x hx
      have hndh := hnd
      rw [hdec, List.nodup_append] at hndh
      have hcons := hndh.2.1
      rw [List.nodup_cons] at hcons
      exact fun hxc => hcons.1 (by rw [← hxc]; exact hx)
    have hhdA : (A ++ cid :: B).head? = (c₀ :: tail).head? := by
      rw [hdec]
    have hchA : chainOK s (A ++ cid :: B) after := by
      rw [← hdec]
      exact hch
    have hndA : (A ++ cid :: B).Nodup := by
      rw [← hdec]
      exact hnd
    simp only [nodeRemove, hci, hget] at hrun
    rcases hLR : Leaf.remove cap natCmp s cid q with ⟨s₁, res₁⟩
    have hspec := @leaf_remove_spec V cap s cid d hd hsortblk q
    cases res₁ with
    | none =>
      have hzero : Leaf.remove cap natCmp s cid q = (s, none) :=
        hspec.2.2 (by rw [hLR])
      have hfm := hspec.1 hzero
      have hs₁ : s₁ = s := by
        have hx := congrArg Prod.fst hzero
        rw [hLR] at hx
        exact hx
      simp only [hLR] at hrun
      simp only [Prod.mk.injEq] at hrun
      obtain ⟨hn', hs', hres⟩ := hrun
      subst hn'
      subst hs'
      subst hres
      subst hs₁
      exact ⟨fun j _ => rfl, rfl, rfl, rfl, rfl, by rw [hfindE]; exact hfm.1⟩
    | some pr =>
      obtain ⟨entry, need⟩ := pr
      obtain ⟨hfindB, hs₁, hlenB, hneedval⟩ := hspec.2.1 s₁ entry need hLR
      have hfindP : refFind (treeEntries s (.leaves h t (c₀ :: tail))) q =
          some entry := by
        rw [hfindE]
        exact hfindB
      have hframe₁ : ∀ j, j ≠ cid → s₁ j = s j := by
        intro j hj
        rw [hs₁]
        exact Store.set_other _ _ _ _ hj
      have hs₁cid : s₁ cid =
          some { d with entries := refRemove d.entries q } := by
        rw [hs₁]
        exact Store.set_self ..
      have hle₁cid : leafEntries s₁ cid = refRemove d.entries q := by
        rw [hs₁, leafEntries_set_self]
      have hAf : A.map (leafEntries s₁) = A.map (leafEntries s) :=
        List.map_congr_left (fun x hx => by
          rw [leafEntries, leafEntries, hframe₁ x (hAidsne x hx)])
      have hBf : B.map (leafEntries s₁) = B.map (leafEntries s) :=
        List.map_congr_left (fun x hx => by
          rw [leafEntries, leafEntries, hframe₁ x (hBidsne x hx)])
      have hfillAB : ∀ id, id ∈ A ∨ id ∈ B → ∃ dd, s₁ id = some dd ∧
          minFill cap ≤ dd.entries.length ∧ dd.entries.length ≤ cap := by
        intro id hid
        have hlen2 : 2 ≤ (c₀ :: tail).length := by
          rw [hdec]
          simp only [List.length_append, List.length_cons]
          rcases hid with h' | h'
          · have := List.length_pos_of_mem h'
            omega
          · have := List.length_pos_of_mem h'
            omega
        have hidmem : id ∈ c₀ :: tail := by
          rw [hdec]
          rcases hid with h' | h'
          · simp [h']
          · simp [h']
        have hidne : id ≠ cid := by
          rcases hid with h' | h'
          · exact hAidsne id h'
          · exact hBidsne id h'
        obtain ⟨dd, hdd, hddne, hddlen⟩ := h5 id hidmem
        obtain ⟨de, hde, hdemin⟩ := h6 (Or.inr hlen2) id hidmem
        rw [hdd] at hde
        injection hde with hde'
        refine ⟨dd, ?_, ?_, hddlen⟩
        · rw [hframe₁ id hidne]
          exact hdd
        · rw [hde']
          exact hdemin
      have hch₁ : chainOK s₁ (A ++ cid :: B) after := by
        refine chainOK_congr (fun x hx => ?_) hchA
        by_cases hxc : x = cid
        · subst hxc
          rw [hs₁cid, hd]
          rfl
        · rw [hframe₁ x hxc]
      have hentNN : ((A ++ cid :: B).map (leafEntries s₁)).flatten =
          refRemove (treeEntries s (.leaves h t (c₀ :: tail))) q := by
        rw [hremE]
        simp only [List.map_append, List.map_cons, List.flatten_append,
          List.flatten_cons]
        rw [hAf, hBf, hle₁cid]
        simp only [List.append_assoc]
      simp only [hLR] at hrun
      by_cases hlt : (refRemove d.entries q).length < minFill cap
      · have hneedT : need = true := by
          rw [hneedval]
          simp [hlt]
        subst hneedT
        rw [if_neg (not_not_intro rfl)] at hrun
        rw [← hlen, hdec] at hrun
        have hdefB : (refRemove d.entries q).length = minFill cap - 1 ∨
            (c₀ :: tail).length = 1 := by
          by_cases hl2 : 2 ≤ (c₀ :: tail).length
          · obtain ⟨de, hde, hdemin⟩ := h6 (Or.inr hl2) cid hcid_mem
            rw [hd] at hde
            injection hde with hde'
            rw [← hde'] at hdemin
            left
            omega
          · right
            have : 1 ≤ (c₀ :: tail).length := by simp
            omega
        rcases List.eq_nil_or_concat A with rfl | ⟨A₀, lid, rfl⟩
        · simp only [List.nil_append, List.length_nil] at hrun
          simp only [if_true] at hrun
          cases B with
          | nil =>
            simp only [List.get?_cons_zero, List.get?_cons_succ,
              List.get?_nil] at hrun
            simp only [Prod.mk.injEq] at hrun
            obtain ⟨hn', hs', hres⟩ := hrun
            subst hn'
            subst hs'
            subst hres
            have hone : (c₀ :: tail) = [cid] := by
              rw [hdec]
              rfl
            injection hone with hc₀ htl
            subst htl
            have hc₀' : cid = c₀ := hc₀.symm
            subst hc₀'
            refine ⟨fun j hj => hframe₁ j (fun hc => hj (by rw [hc]; exact hcid_mem)),
              rfl, rfl, hfindP, ?_, ?_, ?_, ?_, ?_, ?_,
              ?_, ?_, ?_, ?_⟩
            · show ((cid :: ([] : List Nat)).map (leafEntries s₁)).flatten = _
              rw [hremE]
              simp only [List.map_nil, List.flatten_nil, List.map_cons,
                List.flatten_cons, List.nil_append, List.append_nil,
                hle₁cid]
            · intro id hid
              exact hid
            · exact hnd
            · rfl
            · show chainOK s₁ (cid :: ([] : List Nat)) after
              obtain ⟨dd, hdd, hnext⟩ := hch
              refine ⟨{ d with entries := refRemove d.entries q },
                hs₁cid, ?_⟩
              show d.next = after
              rw [hd] at hdd
              injection hdd with hdd'
              rw [hdd']
              exact hnext
            · exact Nat.le_refl _
            · intro hc
              cases hc
            · intro hc
              cases hc
            · intro _ hst
              exfalso
              have h1' := strict_minFill_le hst h1
              simp only [List.length_cons, List.length_nil] at h1'
              omega
            · intro _ _ hlen1
              have hone' : (refRemove (treeEntries s
                  (.leaves h t [cid])) q) = refRemove d.entries q := by
                rw [hremE]
                simp
              rw [hone'] at hlen1
              refine ⟨by simp, h2, h3, h4, ?_, ?_⟩
              · intro id hid
                rcases List.mem_singleton.mp hid with rfl
                refine ⟨{ d with entries := refRemove d.entries q },
                  hs₁cid, ?_, ?_⟩
                · intro hn
                  have hn' : refRemove d.entries q = [] := hn
                  rw [hn'] at hlen1
                  simp at hlen1
                · show (refRemove d.entries q).length ≤ cap
                  omega
              · intro hcond id hid
                exfalso
                simp at hcond
          | cons rid B₀ =>
            simp only [List.get?_cons_zero, List.get?_cons_succ,
              Nat.zero_add] at hrun
            have hcidrid : cid ≠ rid := by
              have hh := hndA
              simp only [List.nil_append, List.nodup_cons] at hh
              intro hn
              exact hh.1 (by rw [hn]; simp)
            obtain ⟨drd, hdrd, hdrdmin, hdrdlen⟩ :=
              hfillAB rid (Or.inr (by simp))
            have hdefB' : (refRemove d.entries q).length =
                minFill cap - 1 := by
              rcases hdefB with h' | h'
              · exact h'
              · exfalso
                rw [hdec] at h'
                simp at h'
            rcases hBOD : Leaf.balance_or_drain cap s₁ cid rid false
              with ⟨s₂, dr⟩
            simp only [hBOD] at hrun
            have hBODspec := leaf_balance_or_drain_spec cap hodd hcap
              hcidrid hs₁cid hdrd false (by simpa using hdefB')
              (by simpa using hdrdmin)
            have hfr₂ : ∀ j, j ≠ cid → j ≠ rid → s₂ j = s j := by
              intro j hjc hjr
              have hf := leaf_BOD_frame cap s₁ cid rid false hjc hjr
              rw [hBOD] at hf
              have hf' : s₂ j = s₁ j := hf
              rw [hf']
              exact hframe₁ j hjc
            by_cases hgt : minFill cap < drd.entries.length
            · obtain ⟨hdr0, x, rest, hxr, hs₂cid', hs₂rid', hm₁, hm₂⟩ :=
                hBODspec.2.1 rfl hgt
              rw [hBOD] at hdr0 hs₂cid' hs₂rid'
              have hdrF : dr = false := hdr0
              subst hdrF
              have hs₂cid : s₂ cid = some { entries := refRemove d.entries q ++ [x], prev := d.prev, next := d.next } := hs₂cid'
              have hs₂rid : s₂ rid = some { drd with entries := rest } := hs₂rid'
              rw [if_neg Bool.false_ne_true] at hrun
              simp only [Prod.mk.injEq] at hrun
              obtain ⟨hn', hs', hres⟩ := hrun
              subst hn'
              subst hs'
              subst hres
              refine remove_leaves_assemble hcap hwfO hfindP
                (by intro id hid; rw [hdec]; simpa using hid)
                (by have := hndA; simpa using this)
                (by have := hhdA; simpa using this)
                (by simp)
                (by rw [hdec]; simp)
                ?hfill ?hent ?hch ?hframe ?hndF ?hndT ?hcnt2
              case hcnt2 =>
                intro _
                left
                exact le_of_eq (by rw [hdec]; simp)
              case hfill =>
                intro id hid
                rcases List.mem_cons.mp hid with rfl | hid'
                · refine ⟨_, hs₂cid, ?_, ?_⟩
                  · simpa using hm₁
                  · show (refRemove d.entries q ++ [x]).length ≤ cap
                    simp only [List.length_append, List.length_cons,
                      List.length_nil]
                    simp only [minFill] at hdefB' hB3
                    omega
                · rcases List.mem_cons.mp hid' with rfl | hid''
                  · refine ⟨_, hs₂rid, ?_, ?_⟩
                    · simpa using hm₂
                    · show rest.length ≤ cap
                      rw [hxr] at hdrdlen
                      simp only [List.length_cons] at hdrdlen
                      omega
                  · obtain ⟨dd, hdd, hm, hl⟩ := hfillAB id (Or.inr (by
                      simp [hid'']))
                    refine ⟨dd, ?_, hm, hl⟩
                    have hidrid : id ≠ rid := by
                      have hh := hndA
                      simp only [List.nil_append, List.nodup_cons] at hh
                      intro hn
                      exact hh.2.1 (by rw [hn] at hid''; exact hid'')
                    have hidcid : id ≠ cid := hBidsne id (by simp [hid''])
                    rw [hfr₂ id hidcid hidrid]
                    rw [← hframe₁ id hidcid]
                    exact hdd
              case hent =>
                rw [hremE]
                simp only [List.map_nil, List.flatten_nil, List.map_cons,
                  List.flatten_cons, List.nil_append]
                have hBf₂ : B₀.map (leafEntries s₂) =
                    B₀.map (leafEntries s) := by
                  refine List.map_congr_left (fun z hz => ?_)
                  have hzr : z ≠ rid := by
                    have hh := hndA
                    simp only [List.nil_append, List.nodup_cons] at hh
                    intro hn
                    exact hh.2.1 (by rw [hn] at hz; exact hz)
                  have hzc : z ≠ cid := hBidsne z (by simp [hz])
                  rw [leafEntries, leafEntries, hfr₂ z hzc hzr]
                rw [hBf₂]
                rw [show leafEntries s₂ cid = refRemove d.entries q ++ [x]
                  from by simp [leafEntries, hs₂cid]]
                rw [show leafEntries s₂ rid = rest from by
                  simp [leafEntries, hs₂rid]]
                rw [show leafEntries s rid = x :: rest from by
                  have hsr : s rid = some drd := by
                    rw [← hframe₁ rid (Ne.symm hcidrid)]
                    exact hdrd
                  simp [leafEntries, hsr, hxr]]
                simp [List.append_assoc]
              case hch =>
                refine chainOK_congr (fun z hz => ?_) (by
                  have := hch₁
                  simpa using this)
                rcases List.mem_cons.mp hz with rfl | hz'
                · rw [hs₂cid, hs₁cid]
                  rfl
                · rcases List.mem_cons.mp hz' with rfl | hz''
                  · rw [hs₂rid, hdrd]
                    rfl
                  · have hzr : z ≠ rid := by
                      have hh := hndA
                      simp only [List.nil_append, List.nodup_cons] at hh
                      intro hn
                      exact hh.2.1 (by rw [hn] at hz''; exact hz'')
                    have hzc : z ≠ cid := hBidsne z (by simp [hz''])
                    rw [hfr₂ z hzc hzr, ← hframe₁ z hzc]
              case hframe =>
                intro j hj
                have hjc : j ≠ cid := fun hc => hj (by rw [hc]; exact hcid_mem)
                have hjr : j ≠ rid := fun hc => hj (by rw [hc, hdec]; simp)
                exact hfr₂ j hjc hjr
              case hndF =>
                intro _ hst
                have h1' := strict_minFill_le hst h1
                rw [hdec] at h1'
                simpa using h1'
              case hndT =>
                intro hdt hst
                have h1' := strict_minFill_le hst h1
                rw [hdec] at h1'
                simp only [List.nil_append, List.length_cons] at h1'
                simp only [decide_eq_true_eq, List.length_cons] at hdt
                simp only [List.length_cons]
                omega
            · have hdoneq : drd.entries.length = minFill cap := by omega
              obtain ⟨hdr1, hs₂cid', hs₂rid', hcaplen⟩ :=
                hBODspec.2.2 (by simpa using hdoneq)
              rw [hBOD] at hdr1 hs₂cid' hs₂rid'
              have hdrT : dr = true := hdr1
              subst hdrT
              have hs₂cid : s₂ cid = some { entries := refRemove d.entries q ++ drd.entries, prev := d.prev, next := drd.next } := hs₂cid'
              have hs₂rid : s₂ rid = some { drd with entries := ([] : List (Nat × V)), next := none } := hs₂rid'
              rw [if_pos rfl] at hrun
              rw [show (cid :: rid :: B₀).eraseIdx 1 = cid :: B₀ from rfl]
                at hrun
              simp only [Prod.mk.injEq] at hrun
              obtain ⟨hn', hs', hres⟩ := hrun
              subst hn'
              subst hs'
              subst hres
              have hdrdnext : drd.next = segCont B₀ after := by
                have hchPMS : chainOK s₁ (([] : List Nat) ++ [cid, rid] ++
                    B₀) after := by
                  have := hch₁
                  simpa using this
                have hmid := chainOK_middle (by simp) hchPMS
                obtain ⟨⟨d₁, hd₁, hnx₁⟩, d₂, hd₂, hnx₂⟩ := hmid
                rw [hdrd] at hd₂
                injection hd₂ with hdd'
                rw [← hdd'] at hnx₂
                exact hnx₂
              refine remove_leaves_assemble hcap hwfO hfindP
                (by intro id hid; rw [hdec]
                    rcases List.mem_cons.mp hid with rfl | hid'
                    · simp
                    · simp [hid'])
                (by have hh := hndA
                    simp only [List.nil_append, List.nodup_cons,
                      List.mem_cons] at hh
                    refine List.nodup_cons.mpr ⟨?_, hh.2.2⟩
                    intro hc
                    exact hh.1 (Or.inr hc))
                (by have := hhdA; simpa using this)
                (by simp)
                (by rw [hdec]; simp)
                ?hfill ?hent ?hch ?hframe ?hndF ?hndT ?hcnt2
              case hcnt2 =>
                intro hdf
                right
                simp only [decide_eq_false_iff_not, List.length_cons] at hdf
                simp only [List.length_cons]
                omega
              case hfill =>
                intro id hid
                rcases List.mem_cons.mp hid with rfl | hid'
                · refine ⟨_, hs₂cid, ?_, ?_⟩
                  · show minFill cap ≤ (refRemove d.entries q ++
                      drd.entries).length
                    simp only [List.length_append]
                    omega
                  · show (refRemove d.entries q ++ drd.entries).length ≤ cap
                    exact hcaplen
                · obtain ⟨dd, hdd, hm, hl⟩ := hfillAB id (Or.inr (by
                    simp [hid']))
                  refine ⟨dd, ?_, hm, hl⟩
                  have hidrid : id ≠ rid := by
                    have hh := hndA
                    simp only [List.nil_append, List.nodup_cons] at hh
                    intro hn
                    exact hh.2.1 (by rw [hn] at hid'; exact hid')
                  have hidcid : id ≠ cid := hBidsne id (by simp [hid'])
                  rw [hfr₂ id hidcid hidrid, ← hframe₁ id hidcid]
                  exact hdd
              case hent =>
                rw [hremE]
                simp only [List.map_nil, List.flatten_nil, List.map_cons,
                  List.flatten_cons, List.nil_append]
                have hBf₂ : B₀.map (leafEntries s₂) =
                    B₀.map (leafEntries s) := by
                  refine List.map_congr_left (fun z hz => ?_)
                  have hzr : z ≠ rid := by
                    have hh := hndA
                    simp only [List.nil_append, List.nodup_cons] at hh
                    intro hn
                    exact hh.2.1 (by rw [hn] at hz; exact hz)
                  have hzc : z ≠ cid := hBidsne z (by simp [hz])
                  rw [leafEntries, leafEntries, hfr₂ z hzc hzr]
                rw [hBf₂]
                rw [show leafEntries s₂ cid = refRemove d.entries q ++
                  drd.entries from by simp [leafEntries, hs₂cid]]
                rw [show leafEntries s rid = drd.entries from by
                  have hsr : s rid = some drd := by
                    rw [← hframe₁ rid (Ne.symm hcidrid)]
                    exact hdrd
                  simp [leafEntries, hsr]]
                simp [List.append_assoc]
              case hch =>
                have hM1 : chainOK s₁ (([] : List Nat) ++ [cid, rid] ++ B₀)
                    after := by
                  have := hch₁
                  simpa using this
                have HCH : chainOK s₂ (([] : List Nat) ++ [cid] ++ B₀)
                    after := by
                  refine chainOK_replace_segment (by simp) (by simp)
                    (by simp) hM1 (by intro z hz; simp at hz) ?_ ?_
                  · intro z hz
                    have hzr : z ≠ rid := by
                      have hh := hndA
                      simp only [List.nil_append, List.nodup_cons] at hh
                      intro hn
                      exact hh.2.1 (by rw [hn] at hz; exact hz)
                    have hzc : z ≠ cid := hBidsne z (by simp [hz])
                    rw [hfr₂ z hzc hzr, ← hframe₁ z hzc]
                  · exact ⟨_, hs₂cid, hdrdnext⟩
                simpa using HCH
              case hframe =>
                intro j hj
                have hjc : j ≠ cid := fun hc => hj (by rw [hc]; exact hcid_mem)
                have hjr : j ≠ rid := fun hc => hj (by rw [hc, hdec]; simp)
                exact hfr₂ j hjc hjr
              case hndF =>
                intro hdf hst
                simp only [decide_eq_false_iff_not, List.length_cons] at hdf
                simp only [List.length_cons]
                omega
              case hndT =>
                intro hdt hst
                have h1' := strict_minFill_le hst h1
                rw [hdec] at h1'
                simp only [List.nil_append, List.length_cons] at h1'
                simp only [decide_eq_true_eq, List.length_cons] at hdt
                simp only [List.length_cons]
                omega
        · simp only [List.concat_eq_append] at hrun hdec hlen hA hAne
          simp only [List.concat_eq_append] at hAidsne hhdA hchA hndA
          simp only [List.concat_eq_append] at hch₁ hentNN hremE hAf hfillAB
          have hne0 : ¬((A₀ ++ [lid]).length = 0) := by simp
          rw [if_neg hne0] at hrun
          have hlsub : (A₀ ++ [lid]).length - 1 = A₀.length := by simp
          rw [hlsub] at hrun
          have hp1 : (((true, A₀.length)) : Bool × Nat).1 = true := rfl
          have hp2 : (((true, A₀.length)) : Bool × Nat).2 = A₀.length := rfl
          rw [hp2, hp1] at hrun
          have hform : (A₀ ++ [lid]) ++ cid :: B = A₀ ++ lid :: cid :: B := by
            simp
          rw [hform] at hrun
          have hgl : (A₀ ++ lid :: cid :: B).get? A₀.length = some lid :=
            get?_append_cons A₀ lid (cid :: B)
          have hgc : (A₀ ++ lid :: cid :: B).get? (A₀.length + 1) =
              some cid := get?_append_cons₂ A₀ lid cid B
          simp only [hgl, hgc] at hrun
          have hndF : (A₀ ++ lid :: cid :: B).Nodup := by
            rw [← hform]
            exact hndA
          have hch₁' : chainOK s₁ (A₀ ++ lid :: cid :: B) after := by
            rw [← hform]
            exact hch₁
          have hhdF : (A₀ ++ lid :: cid :: B).head? = (c₀ :: tail).head? := by
            rw [← hform]
            exact hhdA
          have hA₀ne : ∀ z ∈ A₀, z ≠ lid ∧ z ≠ cid := by
            intro z hz
            have hh := hndF
            rw [List.nodup_append] at hh
            constructor
            · intro hn
              exact hh.2.2 hz (by rw [hn]; simp)
            · intro hn
              exact hh.2.2 hz (by rw [hn]; simp)
          have hBne₂ : ∀ z ∈ B, z ≠ lid ∧ z ≠ cid := by
            intro z hz
            refine ⟨?_, hBidsne z hz⟩
            intro hn
            have hh := hndF
            rw [List.nodup_append] at hh
            have h₂ := hh.2.1
            rw [List.nodup_cons] at h₂
            refine h₂.1 ?_
            rw [hn] at hz
            simp [hz]
          have hlidA : lid ∈ A₀ ++ [lid] := by simp
          have hlidcid : lid ≠ cid := hAidsne lid hlidA
          obtain ⟨dlft, hdlft, hdlftmin, hdlftlen⟩ :=
            hfillAB lid (Or.inl hlidA)
          have hdefB' : (refRemove d.entries q).length =
              minFill cap - 1 := by
            rcases hdefB with h' | h'
            · exact h'
            · exfalso
              rw [hdec] at h'
              simp only [List.length_append, List.length_cons,
                List.length_nil] at h'
              omega
          rcases hBOD : Leaf.balance_or_drain cap s₁ lid cid true
            with ⟨s₂, dr⟩
          simp only [hBOD] at hrun
          have hBODspec := leaf_balance_or_drain_spec cap hodd hcap
            hlidcid hdlft hs₁cid true (by simpa using hdefB')
            (by simpa using hdlftmin)
          have hfr₂ : ∀ j, j ≠ lid → j ≠ cid → s₂ j = s j := by
            intro j hjl hjc
            have hf := leaf_BOD_frame cap s₁ lid cid true hjl hjc
            rw [hBOD] at hf
            have hf' : s₂ j = s₁ j := hf
            rw [hf']
            exact hframe₁ j hjc
          have hA₀f : A₀.map (leafEntries s₂) = A₀.map (leafEntries s) := by
            refine List.map_congr_left (fun z hz => ?_)
            obtain ⟨hzl, hzc⟩ := hA₀ne z hz
            rw [leafEntries, leafEntries, hfr₂ z hzl hzc]
          have hBf₂ : B.map (leafEntries s₂) = B.map (leafEntries s) := by
            refine List.map_congr_left (fun z hz => ?_)
            obtain ⟨hzl, hzc⟩ := hBne₂ z hz
            rw [leafEntries, leafEntries, hfr₂ z hzl hzc]
          have hslid0 : s lid = some dlft := by
            rw [← hframe₁ lid hlidcid]
            exact hdlft
          have hchPMS2 : chainOK s₁ (A₀ ++ [lid, cid] ++ B) after := by
            rw [List.append_assoc]
            exact hch₁'
          have hmid := chainOK_middle (by simp) hchPMS2
          obtain ⟨⟨d₁, hd₁, hnx₁⟩, d₂, hd₂, hnx₂⟩ := hmid
          have hdnext : d.next = segCont B after := by
            rw [hs₁cid] at hd₂
            injection hd₂ with hdd'
            rw [← hdd'] at hnx₂
            exact hnx₂
          by_cases hgt : minFill cap < dlft.entries.length
          · obtain ⟨hdr0, x, hx, hs₂lid, hs₂cid', hm₁, hm₂⟩ :=
              hBODspec.1 rfl hgt
            rw [hBOD] at hdr0 hs₂lid hs₂cid'
            have hdrF : dr = false := hdr0
            subst hdrF
            have hslid : s₂ lid = some { dlft with entries := dlft.entries.dropLast } := hs₂lid
            have hscid : s₂ cid = some { d with entries := x :: refRemove d.entries q } := hs₂cid'
            rw [if_neg Bool.false_ne_true] at hrun
            simp only [Prod.mk.injEq] at hrun
            obtain ⟨hn', hs', hres⟩ := hrun
            subst hn'
            subst hs'
            subst hres
            refine remove_leaves_assemble hcap hwfO hfindP ?_ hndF hhdF
              (by simp) (le_of_eq (by rw [hdec, hform])) ?_ ?_ ?_ ?_ ?_ ?_
              (by intro hnf; left; exact le_of_eq (by rw [hdec, hform]))
            · intro id hid
              rw [hdec, hform]
              exact hid
            · intro id hid
              rcases List.mem_append.mp hid with hidA | hidM
              · obtain ⟨hzl, hzc⟩ := hA₀ne id hidA
                obtain ⟨dd, hdd, hm, hl⟩ := hfillAB id (Or.inl (by
                  simp [hidA]))
                refine ⟨dd, ?_, hm, hl⟩
                rw [hfr₂ id hzl hzc, ← hframe₁ id hzc]
                exact hdd
              · rcases List.mem_cons.mp hidM with rfl | hidM'
                · refine ⟨_, hslid, hm₁, ?_⟩
                  show dlft.entries.dropLast.length ≤ cap
                  simp only [List.length_dropLast]
                  omega
                · rcases List.mem_cons.mp hidM' with rfl | hidB
                  · refine ⟨_, hscid, hm₂, ?_⟩
                    show (x :: refRemove d.entries q).length ≤ cap
                    simp only [List.length_cons, minFill] at hdefB' ⊢
                    omega
                  · obtain ⟨hzl, hzc⟩ := hBne₂ id hidB
                    obtain ⟨dd, hdd, hm, hl⟩ := hfillAB id (Or.inr hidB)
                    refine ⟨dd, ?_, hm, hl⟩
                    rw [hfr₂ id hzl hzc, ← hframe₁ id hzc]
                    exact hdd
            · rw [hremE]
              simp only [List.map_append, List.map_cons,
                List.flatten_append, List.flatten_cons, List.flatten_nil,
                List.append_nil, List.nil_append, List.map_nil]
              rw [hA₀f, hBf₂]
              rw [show leafEntries s₂ lid = dlft.entries.dropLast from by
                simp [leafEntries, hslid]]
              rw [show leafEntries s₂ cid = x :: refRemove d.entries q
                from by simp [leafEntries, hscid]]
              rw [show leafEntries s lid = dlft.entries from by
                simp [leafEntries, hslid0]]
              have hkey : ∀ Z : List (Nat × V),
                  dlft.entries.dropLast ++ x :: Z = dlft.entries ++ Z := by
                intro Z
                rw [← dropLast_append_getLast hx]
                simp
              simp only [List.append_assoc, List.cons_append,
                List.nil_append]
              rw [hkey]
            · refine chainOK_congr (fun z hz => ?_) hch₁'
              rcases List.mem_append.mp hz with hzA | hzM
              · obtain ⟨hzl, hzc⟩ := hA₀ne z hzA
                rw [hfr₂ z hzl hzc, ← hframe₁ z hzc]
              · rcases List.mem_cons.mp hzM with rfl | hzM'
                · rw [hslid, hdlft]
                  rfl
                · rcases List.mem_cons.mp hzM' with rfl | hzB
                  · rw [hscid, hs₁cid]
                    rfl
                  · obtain ⟨hzl, hzc⟩ := hBne₂ z hzB
                    rw [hfr₂ z hzl hzc, ← hframe₁ z hzc]
            · intro j hj
              have hjl : j ≠ lid := fun hc => hj (by rw [hc, hdec]; simp)
              have hjc : j ≠ cid := fun hc => hj (by rw [hc]; exact hcid_mem)
              exact hfr₂ j hjl hjc
            · intro _ hst
              have h1' := strict_minFill_le hst h1
              rw [hdec, hform] at h1'
              exact h1'
            · intro hdt hst
              have h1' := strict_minFill_le hst h1
              rw [hdec, hform] at h1'
              simp only [decide_eq_true_eq] at hdt
              omega
          · have hdoneq : dlft.entries.length = minFill cap := by omega
            obtain ⟨hdr1, hs₂lid, hs₂cid', hcaplen⟩ :=
              hBODspec.2.2 (by simpa using hdoneq)
            rw [hBOD] at hdr1 hs₂lid hs₂cid'
            have hdrT : dr = true := hdr1
            subst hdrT
            have hslid : s₂ lid = some ({ entries := dlft.entries ++ refRemove d.entries q, prev := dlft.prev, next := d.next } : LeafData Nat V) := hs₂lid
            have hscid : s₂ cid = some { d with entries := ([] : List (Nat × V)), next := none } := hs₂cid'
            rw [if_pos rfl] at hrun
            rw [eraseIdx_append_cons₂ A₀ lid cid B] at hrun
            simp only [Prod.mk.injEq] at hrun
            obtain ⟨hn', hs', hres⟩ := hrun
            subst hn'
            subst hs'
            subst hres
            refine remove_leaves_assemble hcap hwfO hfindP ?_ ?_ ?_
              (by simp) ?_ ?_ ?_ ?_ ?_ ?_ ?_
              (by intro hdf; right
                  simp only [decide_eq_false_iff_not, Nat.not_lt] at hdf
                  exact hdf)
            · intro id hid
              rw [hdec, hform]
              rcases List.mem_append.mp hid with h' | h'
              · exact List.mem_append.mpr (Or.inl h')
              · rcases List.mem_cons.mp h' with rfl | h''
                · simp
                · simp [h'']
            · have hsb : List.Sublist (A₀ ++ lid :: B)
                  (A₀ ++ lid :: cid :: B) := by
                rw [← eraseIdx_append_cons₂ A₀ lid cid B]
                exact List.eraseIdx_sublist _ _
              exact List.Nodup.sublist hsb hndF
            · rw [← hhdF]
              cases A₀ <;> simp
            · rw [hdec, hform]
              simp only [List.length_append, List.length_cons]
              omega
            · intro id hid
              rcases List.mem_append.mp hid with hidA | hidM
              · obtain ⟨hzl, hzc⟩ := hA₀ne id hidA
                obtain ⟨dd, hdd, hm, hl⟩ := hfillAB id (Or.inl (by
                  simp [hidA]))
                refine ⟨dd, ?_, hm, hl⟩
                rw [hfr₂ id hzl hzc, ← hframe₁ id hzc]
                exact hdd
              · rcases List.mem_cons.mp hidM with rfl | hidB
                · refine ⟨_, hslid, ?_, ?_⟩
                  · show minFill cap ≤
                      (dlft.entries ++ refRemove d.entries q).length
                    simp only [List.length_append]
                    omega
                  · show (dlft.entries ++ refRemove d.entries q).length ≤
                      cap
                    exact hcaplen
                · obtain ⟨hzl, hzc⟩ := hBne₂ id hidB
                  obtain ⟨dd, hdd, hm, hl⟩ := hfillAB id (Or.inr hidB)
                  refine ⟨dd, ?_, hm, hl⟩
                  rw [hfr₂ id hzl hzc, ← hframe₁ id hzc]
                  exact hdd
            · rw [hremE]
              simp only [List.map_append, List.map_cons,
                List.flatten_append, List.flatten_cons, List.flatten_nil,
                List.append_nil, List.nil_append, List.map_nil]
              rw [hA₀f, hBf₂]
              rw [show leafEntries s₂ lid = dlft.entries ++
                refRemove d.entries q from by simp [leafEntries, hslid]]
              rw [show leafEntries s lid = dlft.entries from by
                simp [leafEntries, hslid0]]
              simp [List.append_assoc]
            · have HCH : chainOK s₂ (A₀ ++ [lid] ++ B) after := by
                refine chainOK_replace_segment (by simp) (by simp)
                  (by simp) hchPMS2 ?_ ?_ ?_
                · intro z hz
                  obtain ⟨hzl, hzc⟩ := hA₀ne z hz
                  rw [hfr₂ z hzl hzc, ← hframe₁ z hzc]
                · intro z hz
                  obtain ⟨hzl, hzc⟩ := hBne₂ z hz
                  rw [hfr₂ z hzl hzc, ← hframe₁ z hzc]
                · exact ⟨_, hslid, hdnext⟩
              have hfm2 : A₀ ++ [lid] ++ B = A₀ ++ lid :: B := by simp
              rw [← hfm2]
              exact HCH
            · intro j hj
              have hjl : j ≠ lid := fun hc => hj (by rw [hc, hdec]; simp)
              have hjc : j ≠ cid := fun hc => hj (by rw [hc]; exact hcid_mem)
              exact hfr₂ j hjl hjc
            · intro hdf _
              simp only [decide_eq_false_iff_not, Nat.not_lt] at hdf
              exact hdf
            · intro hdt hst
              have h1' := strict_minFill_le hst h1
              rw [hdec, hform] at h1'
              simp only [decide_eq_true_eq] at hdt
              simp only [List.length_append, List.length_cons] at h1' hdt ⊢
              omega
      · have hneedF : need = false := by
          rw [hneedval]
          simp [hlt]
        subst hneedF
        rw [if_pos Bool.false_ne_true] at hrun
        rw [hdec] at hrun
        simp only [Prod.mk.injEq] at hrun
        obtain ⟨hn', hs', hres⟩ := hrun
        subst hn'
        subst hs'
        subst hres
        refine remove_leaves_assemble hcap hwfO hfindP
          (fun id hid => by rw [hdec]; exact hid) hndA hhdA (by simp)
          (le_of_eq (by rw [hdec])) ?_ hentNN hch₁
          (fun j hj => hframe₁ j (fun hc => hj (by rw [hc]; exact hcid_mem)))
          ?_ ?_ (by intro hnf; left; exact le_of_eq (by rw [hdec]))
        · intro id hid
          rcases List.mem_append.mp hid with hid' | hid'
          · exact hfillAB id (Or.inl hid')
          · rcases List.mem_cons.mp hid' with rfl | hid''
            · refine ⟨_, hs₁cid, ?_, ?_⟩
              · exact Nat.le_of_not_lt hlt
              · show (refRemove d.entries q).length ≤ cap
                omega
            · exact hfillAB id (Or.inr hid'')
        · intro _ hst
          have h1' := strict_minFill_le hst h1
          rw [hdec] at h1'
          exact h1'
        · intro hc
          cases hc


theorem nodeWF_count {cap : Nat} {s : Store Nat V} {n : NodeM}
    (h : nodeWF cap s true n) :
    minFill cap ≤ n.childCount ∧ n.childCount ≤ cap := by
  cases n with
  | leaves hh tt cs =>
    obtain ⟨h1, h2, _⟩ := h
    exact ⟨strict_minFill_le rfl h1, h2⟩
  | internals hh tt cs =>
    obtain ⟨h1, h2, _⟩ := h
    exact ⟨strict_minFill_le rfl h1, h2⟩

/-- `Internal::remove` preservation at every height: under the invariants the
fuelled removal realises the reference removal, frames the store outside the
subtree's leaves, keeps the handle chain and boundary caches consistent, and
reports deficiency exactly when the child count drops below the minimum
fill. -/
theorem nodeRemove_spec {cap : Nat} (hodd : cap % 2 = 1) (hcap : 3 < cap)
    {s : Store Nat V} {q : Nat} :
    ∀ (fuel : Nat) (strict : Bool) (n : NodeM) (after : Option Nat),
      n.height ≤ fuel → nodeWF cap s strict n →
      sortedKeys (treeEntries s n) → n.leafIds.Nodup →
      chainOK s n.leafIds after →
      (strict = true ∨ 2 ≤ n.childCount ∨ n.height = 1) →
      ∀ (n' : NodeM) (s' : Store Nat V) (res : Option ((Nat × V) × Bool)),
        nodeRemove cap s fuel n q = (n', s', res) →
        RemPost cap s strict n q after n' s' res := by
  intro fuel
  induction fuel with
  | zero =>
    intro strict n after hk _ _ _ _ _ n' s' res _
    have := height_pos n
    omega
  | succ fuel ih =>
    intro strict n after hk hwf hsorted hnd hch hcnt n' s' res hrun
    cases n with
    | leaves h t cs =>
      exact nodeRemove_leaves_spec hodd hcap hwf hsorted hnd hch fuel hrun
    | internals h t cs =>
      have hwf' := hwf
      obtain ⟨h1, h2, h3, h4, h5, h6⟩ := hwf
      rw [nodeWF.goList_iff] at h6
      have hB3 : 3 ≤ minFill cap := by
        simp only [minFill]
        omega
      by_cases htail : Leaf.lastKey s (NodeM.internals h t cs).tailId < q
      · have hci : child_idx s (.internals h t cs) q = none := by
          unfold child_idx
          rw [if_pos htail]
        simp only [nodeRemove, hci] at hrun
        simp only [Prod.mk.injEq] at hrun
        obtain ⟨hn', hs', hres⟩ := hrun
        subst hn'
        subst hs'
        subst hres
        have hfind := (refFind_of_tail_lt hwf' hsorted htail).1
        exact ⟨fun j _ => rfl, rfl, rfl, rfl, rfl, hfind⟩
      · have hci : child_idx s (.internals h t cs) q =
            some (find_idx (fun c => Leaf.firstKey s c.headId) q cs) := by
          unfold child_idx
          rw [if_neg htail]
        obtain ⟨c₀, tail, rfl⟩ : ∃ c₀ tail, cs = c₀ :: tail := by
          cases cs with
          | nil => cases h3
          | cons c₀ tail => exact ⟨c₀, tail, rfl⟩
        have hE := treeEntries_internals s h t (c₀ :: tail)
        obtain ⟨A, c, B, hdec, hlen, hA, hB⟩ :=
          find_idx_routing (fun c => Leaf.firstKey s c.headId)
            (treeEntries s) q c₀ tail
            (fun c hc => by
              obtain ⟨hne', hhd', _⟩ := nodeWF_boundary_keys (h6 c hc)
              exact ⟨hne', hhd'⟩)
            (by rw [← hE]; exact hsorted)
        have hget : (c₀ :: tail).get? (find_idx
            (fun c => Leaf.firstKey s c.headId) q (c₀ :: tail)) = some c := by
          rw [← hlen, hdec]
          exact get?_append_cons A c B
        have hcmem : c ∈ c₀ :: tail := by
          rw [hdec]
          simp
        have hsortc : sortedKeys (treeEntries s c) := by
          rw [hE, hdec] at hsorted
          simp only [List.map_append, List.map_cons, List.flatten_append,
            List.flatten_cons] at hsorted
          exact (sortedKeys_append.mp (sortedKeys_append.mp hsorted).2.1).1
        have hAne : ∀ a ∈ (A.map (treeEntries s)).flatten, a.fst ≠ q := by
          intro a ha
          have := hA a ha
          omega
        have hBne : ∀ b ∈ (B.map (treeEntries s)).flatten, b.fst ≠ q := by
          intro b hb
          have := hB b hb
          omega
        have hremEp : refRemove (treeEntries s
            (.internals h t (c₀ :: tail))) q =
            (A.map (treeEntries s)).flatten ++
              refRemove (treeEntries s c) q ++
              (B.map (treeEntries s)).flatten := by
          rw [hE, hdec]
          simp only [List.map_append, List.map_cons, List.flatten_append,
            List.flatten_cons]
          rw [refRemove_append_left hAne]
          rw [refRemove_append_right hBne]
          rw [List.append_assoc]
        have hfindEp : refFind (treeEntries s (.internals h t (c₀ :: tail)))
            q = refFind (treeEntries s c) q := by
          rw [hE, hdec]
          simp only [List.map_append, List.map_cons, List.flatten_append,
            List.flatten_cons]
          rw [refFind_append_left hAne]
          rw [refFind_append_right hBne]
        have hsplitIds' : ((c₀ :: tail).map NodeM.leafIds).flatten =
            (A.map NodeM.leafIds).flatten ++ c.leafIds ++
              (B.map NodeM.leafIds).flatten := by
          rw [hdec]
          simp only [List.map_append, List.map_cons, List.flatten_append,
            List.flatten_cons, List.append_assoc]
        have hsplitIds : (NodeM.internals h t (c₀ :: tail)).leafIds =
            (A.map NodeM.leafIds).flatten ++ c.leafIds ++
              (B.map NodeM.leafIds).flatten := by
          rw [leafIds_internals]
          exact hsplitIds'
        have hcwf : nodeWF cap s true c := h6 c hcmem
        have hcne : c.leafIds ≠ [] :=
          (nodeWF_shape c.height true c (Nat.le_refl _) hcwf).1
        have hndPMS : ((A.map NodeM.leafIds).flatten ++ c.leafIds ++
            (B.map NodeM.leafIds).flatten).Nodup := by
          rw [← hsplitIds]
          exact hnd
        have hcnd : c.leafIds.Nodup := by
          have hh := hndPMS
          rw [List.nodup_append, List.nodup_append] at hh
          exact hh.1.2.1
        have hchS : chainOK s ((A.map NodeM.leafIds).flatten ++ c.leafIds ++
            (B.map NodeM.leafIds).flatten) after := by
          rw [← hsplitIds]
          exact hch
        have hcch : chainOK s c.leafIds
            (segCont ((B.map NodeM.leafIds).flatten) after) :=
          chainOK_middle hcne hchS
        have hchh : c.height ≤ fuel := by
          have := nodeWF_child_height hwf' hcmem
          omega
        have hk0 : ∀ x ∈ c₀ :: tail, x.height = c.height := by
          intro x hx
          rw [h5 x hx, h5 c hcmem]
        have h3' : (A ++ c :: B).head?.map NodeM.headId = some h := by
          rw [← hdec]
          exact h3
        rcases hrec : nodeRemove cap s fuel c q with ⟨cc, s₁, res₁⟩
        obtain ⟨p1, p2, p3, pres⟩ :=
          ih true c (segCont ((B.map NodeM.leafIds).flatten) after) hchh hcwf
            hsortc hcnd hcch (Or.inl rfl) cc s₁ res₁ hrec
        cases res₁ with
        | none =>
          obtain ⟨hcceq, hs₁eq, hfnone⟩ := pres
          have hsetself : (c₀ :: tail).set (find_idx
              (fun c => Leaf.firstKey s c.headId) q (c₀ :: tail)) cc =
              c₀ :: tail := by
            rw [hcceq]
            exact set_get?_self hget
          simp only [nodeRemove, hci, hget, hrec] at hrun
          rw [hsetself, hs₁eq] at hrun
          simp only [Prod.mk.injEq] at hrun
          obtain ⟨hn', hs', hres⟩ := hrun
          subst hn'
          subst hs'
          subst hres
          refine ⟨fun j _ => rfl, rfl, rfl, rfl, rfl, ?_⟩
          rw [hfindEp]
          exact hfnone
        | some pr =>
          obtain ⟨entry, need⟩ := pr
          obtain ⟨pfind, pent, psub, pnd, phd, pch, pcnt, pwfF, pcnt2,
            pwfTs, pwfTn⟩ := pres
          have hfindP : refFind (treeEntries s
              (.internals h t (c₀ :: tail))) q = some entry := by
            rw [hfindEp]
            exact pfind
          have hdisj := hndPMS
          rw [List.nodup_append, List.nodup_append] at hdisj
          have hPS : ∀ id, (id ∈ (A.map NodeM.leafIds).flatten ∨
              id ∈ (B.map NodeM.leafIds).flatten) → s₁ id = s id := by
            intro id hid
            refine p1 id ?_
            intro hidc
            rcases hid with h' | h'
            · exact hdisj.1.2.2 h' hidc
            · exact hdisj.2.2
                (by simp [hidc] :
                  id ∈ (A.map NodeM.leafIds).flatten ++ c.leafIds) h'
          have hpres : ∀ x ∈ A ++ B, agreeOn s s₁ x.leafIds := by
            intro x hx id hid
            rcases List.mem_append.mp hx with h' | h'
            · exact (hPS id (Or.inl (List.mem_flatten.mpr
                ⟨x.leafIds, List.mem_map_of_mem _ h', hid⟩))).symm ▸ rfl
            · exact (hPS id (Or.inr (List.mem_flatten.mpr
                ⟨x.leafIds, List.mem_map_of_mem _ h', hid⟩))).symm ▸ rfl
          have hPn : ∀ x ∈ (A.map NodeM.leafIds).flatten,
              (s₁ x).map LeafData.next = (s x).map LeafData.next := by
            intro x hx
            rw [hPS x (Or.inl hx)]
          have hSn : ∀ x ∈ (B.map NodeM.leafIds).flatten,
              (s₁ x).map LeafData.next = (s x).map LeafData.next := by
            intro x hx
            rw [hPS x (Or.inr hx)]
          have hAfE : A.map (treeEntries s₁) = A.map (treeEntries s) :=
            List.map_congr_left (fun x hx => treeEntries_agree
              (hpres x (by simp [hx])))
          have hBfE : B.map (treeEntries s₁) = B.map (treeEntries s) :=
            List.map_congr_left (fun x hx => treeEntries_agree
              (hpres x (by simp [hx])))
          have hwfAB : ∀ x, (x ∈ A ∨ x ∈ B) → nodeWF cap s₁ true x := by
            intro x hx
            have hxm : x ∈ c₀ :: tail := by
              rw [hdec]
              rcases hx with h' | h'
              · simp [h']
              · simp [h']
            refine nodeWF_agree x.height true x (Nat.le_refl _)
              (hpres x ?_) (h6 x hxm)
            rcases hx with h' | h'
            · simp [h']
            · simp [h']
          have hchd : ∃ y, c.leafIds.head? = some y := by
            cases hcl : c.leafIds with
            | nil => exact absurd hcl hcne
            | cons a l => exact ⟨a, rfl⟩
          obtain ⟨y, hy⟩ := hchd
          have hccne : cc.leafIds ≠ [] := by
            intro hn
            rw [hn, hy] at phd
            cases phd
          have hnd_new := nodup_subset_replace hndPMS pnd psub
          have hchain_new : chainOK s₁ ((A.map NodeM.leafIds).flatten ++
              cc.leafIds ++ (B.map NodeM.leafIds).flatten) after :=
            chainOK_replace_segment hcne hccne phd hchS hPn hSn pch
          have hhead_new : ((A.map NodeM.leafIds).flatten ++ cc.leafIds ++
              (B.map NodeM.leafIds).flatten).head? =
              ((A.map NodeM.leafIds).flatten ++ c.leafIds ++
                (B.map NodeM.leafIds).flatten).head? :=
            head?_append_replace hcne hccne phd
          have hidseq : ((A ++ cc :: B).map NodeM.leafIds).flatten =
              (A.map NodeM.leafIds).flatten ++ cc.leafIds ++
                (B.map NodeM.leafIds).flatten := by
            simp only [List.map_append, List.map_cons, List.flatten_append,
              List.flatten_cons, List.append_assoc]
          have hentP : ((A ++ cc :: B).map (treeEntries s₁)).flatten =
              refRemove (treeEntries s (.internals h t (c₀ :: tail))) q := by
            rw [hremEp]
            simp only [List.map_append, List.map_cons, List.flatten_append,
              List.flatten_cons]
            rw [hAfE, hBfE, pent]
            simp only [List.append_assoc]
          have hset : (c₀ :: tail).set (find_idx
              (fun c => Leaf.firstKey s c.headId) q (c₀ :: tail)) cc =
              A ++ cc :: B := by
            rw [← hlen, hdec]
            exact set_append_cons A c B cc
          have hh3n : (A ++ cc :: B).head?.map NodeM.headId = some h :=
            head?_map_replace_head h3' p2
          have hsubflat : ∀ id ∈ ((A ++ cc :: B).map NodeM.leafIds).flatten,
              id ∈ ((c₀ :: tail).map NodeM.leafIds).flatten := by
            intro id hid
            rw [hidseq] at hid
            rw [hsplitIds']
            rcases List.mem_append.mp hid with h' | h'
            · rcases List.mem_append.mp h' with h'' | h''
              · exact List.mem_append.mpr (Or.inl
                  (List.mem_append.mpr (Or.inl h'')))
              · exact List.mem_append.mpr (Or.inl
                  (List.mem_append.mpr (Or.inr (psub id h''))))
            · exact List.mem_append.mpr (Or.inr h')
          cases need with
          | false =>
            have pwf : nodeWF cap s₁ true cc := pwfF rfl
            simp only [nodeRemove, hci, hget, hrec] at hrun
            rw [if_pos Bool.false_ne_true] at hrun
            rw [hset] at hrun
            simp only [Prod.mk.injEq] at hrun
            obtain ⟨hn', hs', hres⟩ := hrun
            subst hn'
            subst hs'
            subst hres
            refine remove_internals_assemble hcap hwf' hfindP hsubflat
              ?_ ?_ hh3n (by simp) (le_of_eq (by rw [hdec]; simp)) ?_ ?_
              hentP ?_ ?_ ?_ ?_
              (by intro hnf; left; exact le_of_eq (by rw [hdec]; simp))
            · rw [hidseq]
              exact hnd_new
            · rw [hidseq, hsplitIds']
              exact hhead_new
            · intro x hx
              rcases List.mem_append.mp hx with h' | h'
              · exact hwfAB x (Or.inl h')
              · rcases List.mem_cons.mp h' with rfl | h''
                · exact pwf
                · exact hwfAB x (Or.inr h'')
            · intro x hx
              rcases List.mem_append.mp hx with h' | h'
              · exact h5 x (by rw [hdec]; simp [h'])
              · rcases List.mem_cons.mp h' with rfl | h''
                · rw [p3]
                  exact h5 c hcmem
                · exact h5 x (by rw [hdec]; simp [h''])
            · rw [hidseq]
              exact hchain_new
            · intro j hj
              refine p1 j (fun hjc => hj ?_)
              rw [hsplitIds]
              simp [hjc]
            · intro _ hst
              have h1' := strict_minFill_le hst h1
              rw [hdec] at h1'
              simp only [List.length_append, List.length_cons] at h1' ⊢
              omega
            · intro hc _
              exact Bool.noConfusion hc
          | true =>
            obtain ⟨hccCnt, hccwf⟩ := pwfTs rfl rfl
            simp only [nodeRemove, hci, hget, hrec] at hrun
            rw [if_neg (not_not_intro trivial)] at hrun
            rw [hset] at hrun
            rw [← hlen] at hrun
            rcases List.eq_nil_or_concat A with rfl | hAcc
            · simp only [List.nil_append, List.length_nil] at hrun
              simp only [if_true] at hrun
              cases B with
              | nil =>
                exfalso
                have hlen1 : (c₀ :: tail).length = 1 := by
                  rw [hdec]
                  rfl
                rcases hcnt with hst | hge | hh1
                · have h1' := strict_minFill_le hst h1
                  rw [hlen1] at h1'
                  omega
                · have hge' : 2 ≤ (c₀ :: tail).length := hge
                  omega
                · have hc₀p := height_pos c₀
                  have hgle := height_goList_le
                    (List.mem_cons_self c₀ tail)
                  simp only [NodeM.height] at hh1
                  omega
              | cons rc B₀ =>
                simp only [List.get?_cons_zero, List.get?_cons_succ] at hrun
                have hrcmem : rc ∈ c₀ :: tail := by
                  rw [hdec]
                  simp
                have hrcwf₁ : nodeWF cap s₁ true rc :=
                  nodeWF_agree rc.height true rc (Nat.le_refl _)
                    (hpres rc (by simp)) (h6 rc hrcmem)
                have hht : cc.height = rc.height := by
                  rw [p3, hk0 rc hrcmem]
                have hrcwfF : nodeWF cap s₁ false rc :=
                  nodeWF_weaken hcap rc hrcwf₁
                have hdefB : (if (false : Bool) = true then rc.childCount
                    else cc.childCount) = minFill cap - 1 := by
                  simpa using hccCnt
                have hdonB : minFill cap ≤ (if (false : Bool) = true then
                    cc.childCount else rc.childCount) := by
                  simpa using (nodeWF_count hrcwf₁).1
                obtain ⟨L', R', dr, hBODeq, hLh, hLids, hLent, hLht, hLwf,
                  hRdF, hRdT⟩ :=
                  nodeBOD_spec cap hodd hcap hht hccwf hrcwfF hdefB hdonB
                simp only [hBODeq] at hrun
                rw [show ((cc :: rc :: B₀).set 0 L').set (0 + 1) R' =
                  L' :: R' :: B₀ from rfl] at hrun
                have hh3nn : (L' :: R' :: B₀).head?.map NodeM.headId =
                    some h := by
                  have hcc0 : cc.headId = h := by
                    have := hh3n
                    simp only [List.nil_append, List.head?_cons,
                      Option.map_some'] at this
                    injection this
                  simp only [List.head?_cons, Option.map_some']
                  rw [hLh, hcc0]
                have hflatBOD : ((L' :: R' :: B₀).map NodeM.leafIds).flatten
                    = ((cc :: rc :: B₀).map NodeM.leafIds).flatten := by
                  simp only [List.map_cons, List.flatten_cons]
                  rw [← List.append_assoc, hLids, List.append_assoc]
                have hentBOD : ((L' :: R' :: B₀).map (treeEntries s₁)).flatten
                    = ((cc :: rc :: B₀).map (treeEntries s₁)).flatten := by
                  simp only [List.map_cons, List.flatten_cons]
                  rw [← List.append_assoc, hLent, List.append_assoc]
                cases dr with
                | false =>
                  obtain ⟨hRht, hRwf⟩ := hRdF rfl
                  rw [if_neg Bool.false_ne_true] at hrun
                  simp only [Prod.mk.injEq] at hrun
                  obtain ⟨hn', hs', hres⟩ := hrun
                  subst hn'
                  subst hs'
                  subst hres
                  refine remove_internals_assemble hcap hwf' hfindP
                    ?_ ?_ ?_ hh3nn (by simp)
                    (le_of_eq (by rw [hdec]; simp)) ?_ ?_ ?_ ?_ ?_ ?_ ?_
                    (by intro hdf; right
                        simp only [decide_eq_false_iff_not,
                          Nat.not_lt] at hdf
                        exact hdf)
                  · intro id hid
                    rw [hflatBOD] at hid
                    refine hsubflat id ?_
                    simpa using hid
                  · rw [hflatBOD]
                    have := hnd_new
                    rw [← hidseq] at this
                    simpa using this
                  · rw [hflatBOD]
                    have := hhead_new
                    rw [← hidseq, ← hsplitIds'] at this
                    simpa using this
                  · intro x hx
                    rcases List.mem_cons.mp hx with rfl | hx'
                    · exact hLwf
                    · rcases List.mem_cons.mp hx' with rfl | hx''
                      · exact hRwf
                      · exact hwfAB x (Or.inr (by simp [hx'']))
                  · intro x hx
                    rcases List.mem_cons.mp hx with rfl | hx'
                    · rw [hLht, p3]
                      exact h5 c hcmem
                    · rcases List.mem_cons.mp hx' with rfl | hx''
                      · rw [hRht]
                        exact h5 rc hrcmem
                      · exact h5 x (by rw [hdec]; simp [hx''])
                  · rw [hentBOD]
                    have := hentP
                    simpa using this
                  · rw [hflatBOD]
                    have := hchain_new
                    rw [← hidseq] at this
                    simpa using this
                  · intro j hj
                    refine p1 j (fun hjc => hj ?_)
                    rw [hsplitIds]
                    simp [hjc]
                  · intro hdf hst
                    simp only [decide_eq_false_iff_not, Nat.not_lt] at hdf
                    exact hdf
                  · intro hdt hst
                    have h1' := strict_minFill_le hst h1
                    rw [hdec] at h1'
                    simp only [decide_eq_true_eq, List.length_cons] at hdt
                    simp only [List.nil_append, List.length_cons] at h1'
                    simp only [List.length_cons]
                    omega
                | true =>
                  have hRids : R'.leafIds = [] := hRdT rfl
                  have hL'ids : L'.leafIds = cc.leafIds ++ rc.leafIds := by
                    have := hLids
                    rw [hRids] at this
                    simpa using this
                  have hRent : treeEntries s₁ R' = [] := by
                    rw [treeEntries, hRids]
                    rfl
                  have hL'ent : treeEntries s₁ L' =
                      treeEntries s₁ cc ++ treeEntries s₁ rc := by
                    have := hLent
                    rw [hRent] at this
                    simpa using this
                  rw [if_pos rfl] at hrun
                  rw [show (L' :: R' :: B₀).eraseIdx (0 + 1) = L' :: B₀
                    from rfl] at hrun
                  have hflatB2 : ((L' :: B₀).map NodeM.leafIds).flatten
                      = ((cc :: rc :: B₀).map NodeM.leafIds).flatten := by
                    simp only [List.map_cons, List.flatten_cons]
                    rw [hL'ids]
                    simp only [List.append_assoc]
                  have hentB2 : ((L' :: B₀).map (treeEntries s₁)).flatten
                      = ((cc :: rc :: B₀).map (treeEntries s₁)).flatten := by
                    simp only [List.map_cons, List.flatten_cons]
                    rw [hL'ent]
                    simp only [List.append_assoc]
                  have hh3n2 : (L' :: B₀).head?.map NodeM.headId =
                      some h := by
                    have hcc0 : cc.headId = h := by
                      have := hh3n
                      simp only [List.nil_append, List.head?_cons,
                        Option.map_some'] at this
                      injection this
                    simp only [List.head?_cons, Option.map_some']
                    rw [hLh, hcc0]
                  simp only [Prod.mk.injEq] at hrun
                  obtain ⟨hn', hs', hres⟩ := hrun
                  subst hn'
                  subst hs'
                  subst hres
                  refine remove_internals_assemble hcap hwf' hfindP
                    ?_ ?_ ?_ hh3n2 (by simp)
                    (by rw [hdec]; simp only [List.nil_append,
                      List.length_cons]; omega) ?_ ?_ ?_ ?_ ?_ ?_ ?_
                    (by intro hdf; right
                        simp only [decide_eq_false_iff_not,
                          Nat.not_lt] at hdf
                        exact hdf)
                  · intro id hid
                    rw [hflatB2] at hid
                    refine hsubflat id ?_
                    simpa using hid
                  · rw [hflatB2]
                    have := hnd_new
                    rw [← hidseq] at this
                    simpa using this
                  · rw [hflatB2]
                    have := hhead_new
                    rw [← hidseq, ← hsplitIds'] at this
                    simpa using this
                  · intro x hx
                    rcases List.mem_cons.mp hx with rfl | hx'
                    · exact hLwf
                    · exact hwfAB x (Or.inr (by simp [hx']))
                  · intro x hx
                    rcases List.mem_cons.mp hx with rfl | hx'
                    · rw [hLht, p3]
                      exact h5 c hcmem
                    · exact h5 x (by rw [hdec]; simp [hx'])
                  · rw [hentB2]
                    have := hentP
                    simpa using this
                  · rw [hflatB2]
                    have := hchain_new
                    rw [← hidseq] at this
                    simpa using this
                  · intro j hj
                    refine p1 j (fun hjc => hj ?_)
                    rw [hsplitIds]
                    simp [hjc]
                  · intro hdf hst
                    simp only [decide_eq_false_iff_not, Nat.not_lt] at hdf
                    exact hdf
                  · intro hdt hst
                    have h1' := strict_minFill_le hst h1
                    rw [hdec] at h1'
                    simp only [decide_eq_true_eq, List.length_cons] at hdt
                    simp only [List.nil_append, List.length_cons] at h1'
                    simp only [List.length_cons]
                    omega
            · obtain ⟨A₀, lA, hAeq⟩ := hAcc
              rw [List.concat_eq_append] at hAeq
              subst hAeq
              have hne0 : ¬((A₀ ++ [lA]).length = 0) := by simp
              rw [if_neg hne0] at hrun
              have hlsub : (A₀ ++ [lA]).length - 1 = A₀.length := by simp
              rw [hlsub] at hrun
              have hp1 : (((true, A₀.length)) : Bool × Nat).1 = true := rfl
              have hp2 : (((true, A₀.length)) : Bool × Nat).2 =
                  A₀.length := rfl
              rw [hp2, hp1] at hrun
              have hform : (A₀ ++ [lA]) ++ cc :: B = A₀ ++ lA :: cc :: B := by
                simp
              rw [hform] at hrun
              have hgl : (A₀ ++ lA :: cc :: B).get? A₀.length = some lA :=
                get?_append_cons A₀ lA (cc :: B)
              have hgc : (A₀ ++ lA :: cc :: B).get? (A₀.length + 1) =
                  some cc := get?_append_cons₂ A₀ lA cc B
              simp only [hgl, hgc] at hrun
              have hlAmem : lA ∈ c₀ :: tail := by
                rw [hdec]
                simp
              have hlAwf₁ : nodeWF cap s₁ true lA :=
                nodeWF_agree lA.height true lA (Nat.le_refl _)
                  (hpres lA (by simp)) (h6 lA hlAmem)
              have hht : lA.height = cc.height := by
                rw [p3, hk0 lA hlAmem]
              have hlAwfF : nodeWF cap s₁ false lA :=
                nodeWF_weaken hcap lA hlAwf₁
              have hdefB : (if (true : Bool) = true then cc.childCount
                  else lA.childCount) = minFill cap - 1 := by
                simpa using hccCnt
              have hdonB : minFill cap ≤ (if (true : Bool) = true then
                  lA.childCount else cc.childCount) := by
                simpa using (nodeWF_count hlAwf₁).1
              obtain ⟨L', R', dr, hBODeq, hLh, hLids, hLent, hLht, hLwf,
                hRdF, hRdT⟩ :=
                nodeBOD_spec cap hodd hcap hht hlAwfF hccwf hdefB hdonB
              simp only [hBODeq] at hrun
              rw [set_append_cons A₀ lA (cc :: B) L'] at hrun
              rw [set_append_cons₂ A₀ L' cc B R'] at hrun
              have hlA0 : (A₀ ++ lA :: cc :: B).head?.map NodeM.headId =
                  some h := by
                have hperm : (A₀ ++ [lA]) ++ cc :: B = A₀ ++ lA :: cc :: B :=
                  hform
                rw [← hperm]
                exact hh3n
              have hh3nn : (A₀ ++ L' :: R' :: B).head?.map NodeM.headId =
                  some h := head?_map_replace_head hlA0 hLh
              have hflatBOD : ((A₀ ++ L' :: R' :: B).map
                  NodeM.leafIds).flatten =
                  ((A₀ ++ lA :: cc :: B).map NodeM.leafIds).flatten := by
                simp only [List.map_append, List.map_cons,
                  List.flatten_append, List.flatten_cons]
                rw [← List.append_assoc L'.leafIds, hLids,
                  List.append_assoc]
              have hentBOD : ((A₀ ++ L' :: R' :: B).map
                  (treeEntries s₁)).flatten =
                  ((A₀ ++ lA :: cc :: B).map (treeEntries s₁)).flatten := by
                simp only [List.map_append, List.map_cons,
                  List.flatten_append, List.flatten_cons]
                rw [← List.append_assoc (treeEntries s₁ L'), hLent,
                  List.append_assoc]
              have hidsO : ((A₀ ++ lA :: cc :: B).map NodeM.leafIds).flatten
                  = (((A₀ ++ [lA]) ++ cc :: B).map NodeM.leafIds).flatten := by
                rw [hform]
              have hentO : ((A₀ ++ lA :: cc :: B).map
                  (treeEntries s₁)).flatten =
                  (((A₀ ++ [lA]) ++ cc :: B).map (treeEntries s₁)).flatten := by
                rw [hform]
              cases dr with
              | false =>
                obtain ⟨hRht, hRwf⟩ := hRdF rfl
                rw [if_neg Bool.false_ne_true] at hrun
                simp only [Prod.mk.injEq] at hrun
                obtain ⟨hn', hs', hres⟩ := hrun
                subst hn'
                subst hs'
                subst hres
                refine remove_internals_assemble hcap hwf' hfindP
                  ?_ ?_ ?_ hh3nn (by simp)
                  (le_of_eq (by rw [hdec]; simp)) ?_ ?_ ?_ ?_ ?_ ?_ ?_
                  (by intro hdf; right
                      simp only [decide_eq_false_iff_not,
                        Nat.not_lt] at hdf
                      exact hdf)
                · intro id hid
                  rw [hflatBOD, hidsO] at hid
                  exact hsubflat id hid
                · rw [hflatBOD, hidsO, hidseq]
                  exact hnd_new
                · rw [hflatBOD, hidsO, hidseq, hsplitIds']
                  exact hhead_new
                · intro x hx
                  rcases List.mem_append.mp hx with hx' | hx'
                  · exact hwfAB x (Or.inl (by simp [hx']))
                  · rcases List.mem_cons.mp hx' with rfl | hx''
                    · exact hLwf
                    · rcases List.mem_cons.mp hx'' with rfl | hx3
                      · exact hRwf
                      · exact hwfAB x (Or.inr hx3)
                · intro x hx
                  rcases List.mem_append.mp hx with hx' | hx'
                  · exact h5 x (by rw [hdec]; simp [hx'])
                  · rcases List.mem_cons.mp hx' with rfl | hx''
                    · rw [hLht, hk0 lA hlAmem]
                      exact h5 c hcmem
                    · rcases List.mem_cons.mp hx'' with rfl | hx3
                      · rw [hRht, p3]
                        exact h5 c hcmem
                      · exact h5 x (by rw [hdec]; simp [hx3])
                · rw [hentBOD, hentO]
                  exact hentP
                · rw [hflatBOD, hidsO, hidseq]
                  exact hchain_new
                · intro j hj
                  refine p1 j (fun hjc => hj ?_)
                  rw [hsplitIds]
                  simp [hjc]
                · intro hdf hst
                  simp only [decide_eq_false_iff_not, Nat.not_lt] at hdf
                  exact hdf
                · intro hdt hst
                  have h1' := strict_minFill_le hst h1
                  rw [hdec] at h1'
                  simp only [decide_eq_true_eq, List.length_append,
                    List.length_cons] at hdt
                  simp only [List.length_append, List.length_cons,
                    List.length_nil] at h1'
                  simp only [List.length_append, List.length_cons]
                  omega
              | true =>
                have hRids : R'.leafIds = [] := hRdT rfl
                have hL'ids : L'.leafIds = lA.leafIds ++ cc.leafIds := by
                  have := hLids
                  rw [hRids] at this
                  simpa using this
                have hRent : treeEntries s₁ R' = [] := by
                  rw [treeEntries, hRids]
                  rfl
                have hL'ent : treeEntries s₁ L' =
                    treeEntries s₁ lA ++ treeEntries s₁ cc := by
                  have := hLent
                  rw [hRent] at this
                  simpa using this
                rw [if_pos rfl] at hrun
                rw [eraseIdx_append_cons₂ A₀ L' R' B] at hrun
                have hflatB2 : ((A₀ ++ L' :: B).map NodeM.leafIds).flatten
                    = ((A₀ ++ lA :: cc :: B).map NodeM.leafIds).flatten := by
                  simp only [List.map_append, List.map_cons,
                    List.flatten_append, List.flatten_cons]
                  rw [hL'ids]
                  simp only [List.append_assoc]
                have hentB2 : ((A₀ ++ L' :: B).map (treeEntries s₁)).flatten
                    = ((A₀ ++ lA :: cc :: B).map (treeEntries s₁)).flatten := by
                  simp only [List.map_append, List.map_cons,
                    List.flatten_append, List.flatten_cons]
                  rw [hL'ent]
                  simp only [List.append_assoc]
                have hh3n2 : (A₀ ++ L' :: B).head?.map NodeM.headId =
                    some h := head?_map_replace_head hlA0 hLh
                simp only [Prod.mk.injEq] at hrun
                obtain ⟨hn', hs', hres⟩ := hrun
                subst hn'
                subst hs'
                subst hres
                refine remove_internals_assemble hcap hwf' hfindP
                  ?_ ?_ ?_ hh3n2 (by simp)
                  (by rw [hdec]; simp only [List.length_append,
                    List.length_cons, List.length_nil]; omega)
                  ?_ ?_ ?_ ?_ ?_ ?_ ?_
                  (by intro hdf; right
                      simp only [decide_eq_false_iff_not,
                        Nat.not_lt] at hdf
                      exact hdf)
                · intro id hid
                  rw [hflatB2, hidsO] at hid
                  exact hsubflat id hid
                · rw [hflatB2, hidsO, hidseq]
                  exact hnd_new
                · rw [hflatB2, hidsO, hidseq, hsplitIds']
                  exact hhead_new
                · intro x hx
                  rcases List.mem_append.mp hx with hx' | hx'
                  · exact hwfAB x (Or.inl (by simp [hx']))
                  · rcases List.mem_cons.mp hx' with rfl | hx''
                    · exact hLwf
                    · exact hwfAB x (Or.inr hx'')
                · intro x hx
                  rcases List.mem_append.mp hx with hx' | hx'
                  · exact h5 x (by rw [hdec]; simp [hx'])
                  · rcases List.mem_cons.mp hx' with rfl | hx''
                    · rw [hLht, hk0 lA hlAmem]
                      exact h5 c hcmem
                    · exact h5 x (by rw [hdec]; simp [hx''])
                · rw [hentB2, hentO]
                  exact hentP
                · rw [hflatB2, hidsO, hidseq]
                  exact hchain_new
                · intro j hj
                  refine p1 j (fun hjc => hj ?_)
                  rw [hsplitIds]
                  simp [hjc]
                · intro hdf hst
                  simp only [decide_eq_false_iff_not, Nat.not_lt] at hdf
                  exact hdf
                · intro hdt hst
                  have h1' := strict_minFill_le hst h1
                  rw [hdec] at h1'
                  simp only [decide_eq_true_eq, List.length_append,
                    List.length_cons] at hdt
                  simp only [List.length_append, List.length_cons,
                    List.length_nil] at h1'
                  simp only [List.length_append, List.length_cons]
                  omega


/-! ## Facade layer: the map against the reference sorted association list -/

theorem height_le_leafIds {cap : Nat} (hcap : 3 < cap) {s : Store Nat V} :
    ∀ (k : Nat) (n : NodeM), n.height ≤ k → nodeWF cap s true n →
      n.height ≤ n.leafIds.length := by
  intro k
  induction k with
  | zero =>
    intro n hk _
    have := height_pos n
    omega
  | succ k ih =>
    intro n hk hwf
    cases n with
    | leaves h t cs =>
      obtain ⟨h1, _⟩ := hwf
      have h1' := strict_minFill_le rfl h1
      show 1 ≤ cs.length
      simp only [minFill] at h1'
      omega
    | internals h t cs =>
      obtain ⟨h1, h2, h3, h4, h5, h6⟩ := hwf
      rw [nodeWF.goList_iff] at h6
      have h1' := strict_minFill_le rfl h1
      have hB3 : 3 ≤ minFill cap := by
        simp only [minFill]
        omega
      obtain ⟨x₀, x₁, x₂, rest, rfl⟩ : ∃ x₀ x₁ x₂ rest,
          cs = x₀ :: x₁ :: x₂ :: rest := by
        cases cs with
        | nil =>
          exfalso
          simp only [List.length_nil] at h1'
          omega
        | cons x₀ cs₁ =>
          cases cs₁ with
          | nil =>
            exfalso
            simp only [List.length_cons, List.length_nil] at h1'
            omega
          | cons x₁ cs₂ =>
            cases cs₂ with
            | nil =>
              exfalso
              simp only [List.length_cons, List.length_nil] at h1'
              omega
            | cons x₂ rest => exact ⟨x₀, x₁, x₂, rest, rfl⟩
      have hgl : NodeM.height.goList (x₀ :: x₁ :: x₂ :: rest) = x₀.height :=
        height_goList_uniform (by simp) h5
      have hx₀ : x₀.height ≤ x₀.leafIds.length := by
        refine ih x₀ ?_ (h6 x₀ (by simp))
        have hlt := height_child_lt (h := h) (t := t)
          (List.mem_cons_self x₀ (x₁ :: x₂ :: rest))
        omega
      have hne₁ : x₁.leafIds ≠ [] :=
        (nodeWF_shape x₁.height true x₁ (Nat.le_refl _) (h6 x₁ (by simp))).1
      have hne₂ : x₂.leafIds ≠ [] :=
        (nodeWF_shape x₂.height true x₂ (Nat.le_refl _) (h6 x₂ (by simp))).1
      have hp₁ : 0 < x₁.leafIds.length := List.length_pos.mpr hne₁
      have hp₂ : 0 < x₂.leafIds.length := List.length_pos.mpr hne₂
      show (NodeM.internals h t (x₀ :: x₁ :: x₂ :: rest)).height ≤
        (NodeM.internals h t (x₀ :: x₁ :: x₂ :: rest)).leafIds.length
      rw [leafIds_internals]
      simp only [NodeM.height]
      rw [hgl]
      simp only [List.map_cons, List.flatten_cons, List.length_append]
      omega

theorem root_height_le {cap : Nat} (hcap : 3 < cap) {s : Store Nat V}
    {r : NodeM} (hwf : nodeWF cap s false r) :
    r.height ≤ r.leafIds.length + 1 := by
  cases r with
  | leaves h t cs =>
    show 1 ≤ cs.length + 1
    omega
  | internals h t cs =>
    obtain ⟨h1, h2, h3, h4, h5, h6⟩ := hwf
    rw [nodeWF.goList_iff] at h6
    obtain ⟨c₀, rest, rfl⟩ : ∃ c₀ rest, cs = c₀ :: rest := by
      cases cs with
      | nil => cases h3
      | cons c₀ rest => exact ⟨c₀, rest, rfl⟩
    have hgl : NodeM.height.goList (c₀ :: rest) = c₀.height :=
      height_goList_uniform (by simp) h5
    have hc₀ : c₀.height ≤ c₀.leafIds.length :=
      height_le_leafIds hcap c₀.height c₀ (Nat.le_refl _) (h6 c₀ (by simp))
    show (NodeM.internals h t (c₀ :: rest)).height ≤
      (NodeM.internals h t (c₀ :: rest)).leafIds.length + 1
    rw [leafIds_internals]
    simp only [NodeM.height]
    rw [hgl]
    simp only [List.map_cons, List.flatten_cons, List.length_append]
    omega

theorem leafIds_le_entries {cap : Nat} {s : Store Nat V} {b : Bool}
    {n : NodeM} (hwf : nodeWF cap s b n) :
    n.leafIds.length ≤ (treeEntries s n).length := by
  obtain ⟨_, _, _, hbase⟩ := nodeWF_shape n.height b n (Nat.le_refl _) hwf
  rw [treeEntries]
  have hall : ∀ l ∈ n.leafIds.map (leafEntries s), l ≠ [] := by
    intro l hl
    obtain ⟨id, hid, rfl⟩ := List.mem_map.mp hl
    exact (leaf_block_head (hbase id hid)).1
  have := length_le_length_flatten hall
  simpa using this

theorem toList_none {m : MapM V} (h : m.root = none) : m.toList = [] := by
  simp only [MapM.toList, h]

theorem toList_some {m : MapM V} {r : NodeM} (h : m.root = some r) :
    m.toList = treeEntries m.store r := by
  simp only [MapM.toList, h]
  rfl


/-- The facade `insert_entry` refines the reference map: the returned
previous binding is the reference lookup, the master invariant is preserved,
and the enumeration becomes the reference insertion. -/
theorem MapM.insert_entry_spec (cap : Nat) (hodd : cap % 2 = 1)
    (hcap : 3 < cap) {m : MapM V} (hInv : Inv cap m) (e : Nat × V)
    {m' : MapM V} {prev : Option (Nat × V)}
    (hrun : m.insert_entry cap e = (m', prev)) :
    prev = refFind m.toList e.fst ∧ Inv cap m' ∧
    m'.toList = refInsert m.toList e := by
  cases hroot : m.root with
  | none =>
    have hlen0 : m.length = 0 := by
      simp only [Inv, hroot] at hInv
      exact hInv
    have htl : m.toList = [] := toList_none hroot
    simp only [MapM.insert_entry, hroot] at hrun
    simp only [Prod.mk.injEq] at hrun
    obtain ⟨hm', hprev⟩ := hrun
    subst hm'
    subst hprev
    have hstid : (m.store.set m.fresh
        { entries := [e], prev := none, next := none }) m.fresh =
        some { entries := [e], prev := none, next := none } :=
      Store.set_self ..
    refine ⟨by rw [htl]; rfl, ?_, ?_⟩
    · simp only [Inv]
      refine ⟨?_, trivial, ?_, ?_, ?_, ?_, ?_⟩
      · refine ⟨by simp, ?_, rfl, rfl, ?_, ?_⟩
        · show ([m.fresh] : List Nat).length ≤ cap
          simp only [List.length_cons, List.length_nil]
          omega
        · intro id hid
          rcases List.mem_singleton.mp hid with rfl
          refine ⟨_, hstid, by simp, ?_⟩
          show ([e] : List (Nat × V)).length ≤ cap
          simp only [List.length_cons, List.length_nil]
          omega
        · intro hcond id hid
          exfalso
          rcases hcond with hc | hc
          · exact Bool.noConfusion hc
          · have hc' : 2 ≤ ([m.fresh] : List Nat).length := hc
            simp only [List.length_cons, List.length_nil] at hc'
            omega
      · show ([m.fresh] : List Nat).Nodup
        simp
      · intro id hid
        rcases List.mem_singleton.mp hid with rfl
        omega
      · exact ⟨_, hstid, rfl⟩
      · show sortedKeys (treeEntries _ (.leaves m.fresh m.fresh [m.fresh]))
        rw [treeEntries, leafIds_leaves]
        simp only [List.map_cons, List.map_nil, List.flatten_cons,
          List.flatten_nil, List.append_nil]
        rw [show leafEntries (m.store.set m.fresh
          { entries := [e], prev := none, next := none }) m.fresh = [e]
          from by simp [leafEntries, hstid]]
        simp [sortedKeys, keys]
      · show m.length + 1 = (treeEntries _
          (.leaves m.fresh m.fresh [m.fresh])).length
        rw [treeEntries, leafIds_leaves]
        simp only [List.map_cons, List.map_nil, List.flatten_cons,
          List.flatten_nil, List.append_nil]
        rw [show leafEntries (m.store.set m.fresh
          { entries := [e], prev := none, next := none }) m.fresh = [e]
          from by simp [leafEntries, hstid]]
        simp [hlen0]
    · rw [htl]
      show treeEntries _ (.leaves m.fresh m.fresh [m.fresh]) = [e]
      rw [treeEntries, leafIds_leaves]
      simp only [List.map_cons, List.map_nil, List.flatten_cons,
        List.flatten_nil, List.append_nil]
      rw [show leafEntries (m.store.set m.fresh
        { entries := [e], prev := none, next := none }) m.fresh = [e]
        from by simp [leafEntries, hstid]]
  | some r =>
    simp only [Inv, hroot] at hInv
    obtain ⟨hwf, hsh, hnd, hfr, hch, hsorted, hlen⟩ := hInv
    have htl : m.toList = treeEntries m.store r := toList_some hroot
    have hfuel : r.height ≤ m.length + 2 := by
      have h₁ := root_height_le hcap hwf
      have h₂ := leafIds_le_entries hwf
      omega
    simp only [MapM.insert_entry, hroot] at hrun
    rcases hI : nodeInsert cap m.store m.fresh (m.length + 2) r e with
      ⟨r', s', f', prevv, sib⟩
    simp only [hI] at hrun
    obtain ⟨q1, q2, q3, q4, q5, q6, q7, q8, q9, q10, q11, q12, q13⟩ :=
      nodeInsert_spec hodd hcap (m.length + 2) false r none hfuel hwf
        hsorted hnd hfr hch r' s' f' prevv sib hI
    cases sib with
    | none =>
      obtain ⟨q13a, q13b⟩ := q13
      simp only [Prod.mk.injEq] at hrun
      obtain ⟨hm', hprev⟩ := hrun
      subst hm'
      subst hprev
      have hq6 : r'.leafIds.Nodup := by
        have hh := q6
        simp only [sibIds, List.append_nil] at hh
        exact hh
      have hq8 : chainOK s' r'.leafIds none := by
        have hh := q8
        simp only [sibIds, List.append_nil] at hh
        exact hh
      have hq9 : treeEntries s' r' =
          refInsert (treeEntries m.store r) e := by
        have hh := q9
        simp only [optEntries, List.append_nil] at hh
        exact hh
      have hlen' : (if prevv.isNone then m.length + 1 else m.length) =
          (refInsert (treeEntries m.store r) e).length := by
        cases hpv : prevv with
        | none =>
          have hfn : refFind (treeEntries m.store r) e.fst = none := by
            rw [← q1, hpv]
          rw [refFind_none_length hfn]
          simp [hlen]
        | some old =>
          have hfs : refFind (treeEntries m.store r) e.fst = some old := by
            rw [← q1, hpv]
          rw [refFind_some_length hsorted hfs]
          simp [hlen]
      refine ⟨by rw [htl]; exact q1, ?_, ?_⟩
      · simp only [Inv]
        refine ⟨q13a, ?_, hq6, ?_, hq8, ?_, ?_⟩
        · cases r' with
          | leaves _ _ _ => trivial
          | internals a b cs' =>
            cases r with
            | leaves hh tt cs0 =>
              exfalso
              obtain ⟨w1, w2, w3, _⟩ := q13a
              obtain ⟨y, ys, hys⟩ : ∃ y ys, cs' = y :: ys := by
                cases cs' with
                | nil => cases w3
                | cons y ys => exact ⟨y, ys, rfl⟩
              subst hys
              have hy := height_pos y
              have hgle := height_goList_le (List.mem_cons_self y ys)
              simp only [NodeM.height] at q11
              omega
            | internals hh tt cs0 =>
              exact le_trans hsh q13b
        · intro id hid
          rcases q5 id (by simp [hid]) with hold | hnew
          · have := hfr id hold
            omega
          · exact hnew.2
        · rw [hq9]
          exact refInsert_sorted hsorted
        · rw [hq9]
          exact hlen'
      · rw [htl]
        show treeEntries s' r' = refInsert (treeEntries m.store r) e
        exact hq9
    | some sb =>
      obtain ⟨q13a, q13b, q13c, q13d⟩ := q13
      subst q13d
      simp only [Prod.mk.injEq] at hrun
      obtain ⟨hm', hprev⟩ := hrun
      subst hm'
      subst hprev
      have hfn : refFind (treeEntries m.store r) e.fst = none := q1.symm
      have hq9 : treeEntries s' r' ++ treeEntries s' sb =
          refInsert (treeEntries m.store r) e := by
        have hh := q9
        simp only [optEntries] at hh
        exact hh
      have hidsN : (NodeM.internals r'.headId sb.tailId [r', sb]).leafIds =
          r'.leafIds ++ sb.leafIds := by
        rw [leafIds_internals]
        simp
      have hentN : treeEntries s' (NodeM.internals r'.headId sb.tailId
          [r', sb]) = treeEntries s' r' ++ treeEntries s' sb := by
        rw [treeEntries_internals]
        simp
      refine ⟨by rw [htl]; exact q1, ?_, ?_⟩
      · simp only [Inv]
        refine ⟨?_, by simp, ?_, ?_, ?_, ?_, ?_⟩
        · refine ⟨by simp, ?_, rfl, rfl, ?_, ?_⟩
          · show ([r', sb] : List NodeM).length ≤ cap
            simp only [List.length_cons, List.length_nil]
            omega
          · intro c hc
            rcases List.mem_cons.mp hc with rfl | hc'
            · rfl
            · rcases List.mem_cons.mp hc' with rfl | hc''
              · show c.height = r'.height
                rw [q13c, q11]
              · cases hc''
          · rw [nodeWF.goList_iff]
            intro c hc
            rcases List.mem_cons.mp hc with rfl | hc'
            · exact q13a
            · rcases List.mem_cons.mp hc' with rfl | hc''
              · exact q13b
              · cases hc''
        · rw [hidsN]
          have hh := q6
          simp only [sibIds] at hh
          exact hh
        · rw [hidsN]
          intro id hid
          rcases q5 id (by simpa using hid) with hold | hnew
          · have := hfr id hold
            omega
          · exact hnew.2
        · rw [hidsN]
          have hh := q8
          simp only [sibIds] at hh
          exact hh
        · rw [hentN, hq9]
          exact refInsert_sorted hsorted
        · rw [hentN, hq9]
          show m.length + 1 = _
          rw [refFind_none_length hfn]
          simp [hlen]
      · rw [htl]
        show treeEntries s' (NodeM.internals r'.headId sb.tailId [r', sb])
          = refInsert (treeEntries m.store r) e
        rw [hentN, hq9]

/-- When the query falls below the subtree's first key (the cached `head`
boundary), the reference lookup misses. -/
theorem boundary_refFind_none {cap : Nat} {s : Store Nat V} {b : Bool}
    {r : NodeM} (hwf : nodeWF cap s b r)
    (hsorted : sortedKeys (treeEntries s r)) {q : Nat}
    (hlow : ¬ check_lower s r q = true) :
    refFind (treeEntries s r) q = none := by
  obtain ⟨hne, hhd, hlast⟩ := nodeWF_boundary_keys hwf
  have hall := sorted_head_le hsorted hhd
  have hql : ¬ Leaf.firstKey s r.headId ≤ q := by
    simpa [check_lower] using hlow
  refine refFind_eq_none ?_
  intro a ha
  have := hall a ha
  omega

/-- Assembling the master invariant for a map state with a present root from
the per-component facts. -/
theorem Inv_build {cap : Nat} {rt : NodeM} {L F : Nat} {s' : Store Nat V}
    (hwf : nodeWF cap s' false rt)
    (hshape : ∀ a b cs, rt = .internals a b cs → 2 ≤ cs.length)
    (hnd : rt.leafIds.Nodup)
    (hfr : ∀ id ∈ rt.leafIds, id < F)
    (hch : chainOK s' rt.leafIds none)
    (hsort : sortedKeys (treeEntries s' rt))
    (hlen : L = (treeEntries s' rt).length) :
    Inv cap { root := some rt, length := L, store := s', fresh := F } := by
  simp only [Inv]
  refine ⟨hwf, ?_, hnd, hfr, hch, hsort, hlen⟩
  cases rt with
  | leaves _ _ _ => trivial
  | internals a b cs => exact hshape a b cs rfl

/-- The facade's read path agrees with the reference lookup: the boundary
check only filters out queries the reference lookup would miss anyway. -/
theorem MapM.entry_spec (cap : Nat) (hcap : 3 < cap) {m : MapM V}
    (hInv : Inv cap m) (q : Nat) :
    m.entry cap q = refFind m.toList q := by
  cases hroot : m.root with
  | none =>
    simp only [MapM.entry, hroot]
    rw [toList_none hroot]
    rfl
  | some r =>
    simp only [Inv, hroot] at hInv
    obtain ⟨hwf, hsh, hnd, hfr, hch, hsorted, hlen⟩ := hInv
    rw [toList_some hroot]
    simp only [MapM.entry, hroot]
    by_cases hlow : check_lower m.store r q = true
    · rw [if_pos hlow]
      have hfuel : r.height ≤ m.length + 2 := by
        have h₁ := root_height_le hcap hwf
        have h₂ := leafIds_le_entries hwf
        omega
      exact nodeGet_spec (m.length + 2) false r hfuel hwf hsorted q
    · rw [if_neg hlow]
      exact (boundary_refFind_none hwf hsorted hlow).symm

/-- The facade `remove_entry` refines the reference map: the returned entry
is the reference lookup, the master invariant is preserved (including the
root collapse through `pop_depth`), and the enumeration becomes the
reference removal. -/
theorem MapM.remove_entry_spec (cap : Nat) (hodd : cap % 2 = 1)
    (hcap : 3 < cap) {m : MapM V} (hInv : Inv cap m) (q : Nat)
    {m' : MapM V} {prev : Option (Nat × V)}
    (hrun : m.remove_entry cap q = (m', prev)) :
    prev = refFind m.toList q ∧ Inv cap m' ∧
    m'.toList = refRemove m.toList q := by
  cases hroot : m.root with
  | none =>
    have htl := toList_none hroot
    simp only [MapM.remove_entry, hroot] at hrun
    simp only [Prod.mk.injEq] at hrun
    obtain ⟨hm', hprev⟩ := hrun
    subst hm'
    subst hprev
    refine ⟨by rw [htl]; rfl, hInv, by rw [htl]; rfl⟩
  | some r =>
    have hInvKeep := hInv
    simp only [Inv, hroot] at hInv
    obtain ⟨hwf, hsh, hnd, hfr, hch, hsorted, hlen⟩ := hInv
    have htl : m.toList = treeEntries m.store r := toList_some hroot
    simp only [MapM.remove_entry, hroot] at hrun
    by_cases hlow : check_lower m.store r q = true
    · rw [if_pos hlow] at hrun
      have hfuel : r.height ≤ m.length + 2 := by
        have h₁ := root_height_le hcap hwf
        have h₂ := leafIds_le_entries hwf
        omega
      have hcnt : (false : Bool) = true ∨ 2 ≤ r.childCount ∨
          r.height = 1 := by
        cases r with
        | leaves a b cs => exact Or.inr (Or.inr rfl)
        | internals a b cs => exact Or.inr (Or.inl hsh)
      rcases hR : nodeRemove cap m.store (m.length + 2) r q with ⟨r', s', res⟩
      obtain ⟨p1, p2, p3, pres⟩ :=
        nodeRemove_spec hodd hcap (m.length + 2) false r none hfuel hwf
          hsorted hnd hch hcnt r' s' res hR
      cases res with
      | none =>
        obtain ⟨hr'eq, hs'eq, hfnone⟩ := pres
        simp only [hR] at hrun
        simp only [Prod.mk.injEq] at hrun
        obtain ⟨hm', hprev⟩ := hrun
        subst hm'
        subst hprev
        subst hr'eq
        subst hs'eq
        have hm'eq : ({ m with root := some r', store := m.store } : MapM V)
            = m := by
          rw [← hroot]
        refine ⟨by rw [htl]; exact hfnone.symm, ?_, ?_⟩
        · rw [hm'eq]
          exact hInvKeep
        · rw [hm'eq, htl, refFind_none_refRemove hfnone]
      | some pr =>
        obtain ⟨entry, need⟩ := pr
        obtain ⟨pfind, pent, psub, pnd, phd, pch, pcnt, pwfF, pcnt2,
          pwfTs, pwfTn⟩ := pres
        simp only [hR] at hrun
        have hremlen : (refRemove (treeEntries m.store r) q).length + 1 =
            m.length := by
          have := refFind_some_refRemove_length pfind
          omega
        by_cases hlz : m.length - 1 = 0
        · rw [if_pos hlz] at hrun
          simp only [Prod.mk.injEq] at hrun
          obtain ⟨hm', hprev⟩ := hrun
          subst hm'
          subst hprev
          refine ⟨by rw [htl]; exact pfind.symm, ?_, ?_⟩
          · exact rfl
          · have hz : (refRemove (treeEntries m.store r) q).length = 0 := by
              omega
            have hz' := List.length_eq_zero.mp hz
            rw [htl, hz']
            rfl
        · rw [if_neg hlz] at hrun
          have hrem1 : 1 ≤ (refRemove (treeEntries m.store r) q).length := by
            omega
          cases need with
          | false =>
            have hwfR : nodeWF cap s' false r' := pwfF rfl
            rw [if_neg Bool.false_ne_true] at hrun
            simp only [Prod.mk.injEq] at hrun
            obtain ⟨hm', hprev⟩ := hrun
            subst hm'
            subst hprev
            refine ⟨by rw [htl]; exact pfind.symm, ?_, ?_⟩
            · refine Inv_build hwfR ?_ pnd
                (fun id hid => hfr id (psub id hid)) pch
                (by rw [pent]; exact refRemove_sorted hsorted)
                (by rw [pent]; omega)
              intro a b cs hr'eq
              rcases pcnt2 rfl with hle | hmin
              · cases r with
                | leaves hh tt cs0 =>
                  exfalso
                  obtain ⟨w1, w2, w3, _⟩ := hr'eq ▸ hwfR
                  obtain ⟨y, ys, hys⟩ : ∃ y ys, cs = y :: ys := by
                    cases cs with
                    | nil => cases w3
                    | cons y ys => exact ⟨y, ys, rfl⟩
                  subst hys
                  have hy := height_pos y
                  have hgle := height_goList_le (List.mem_cons_self y ys)
                  rw [hr'eq] at p3
                  simp only [NodeM.height] at p3
                  omega
                | internals hh tt cs0 =>
                  have hle' : cs0.length ≤ cs.length := by
                    rw [hr'eq] at hle
                    exact hle
                  exact le_trans hsh hle'
              · have hmin' : minFill cap ≤ cs.length := by
                  rw [hr'eq] at hmin
                  exact hmin
                simp only [minFill] at hmin'
                omega
            · rw [htl]
              show treeEntries s' r' = refRemove (treeEntries m.store r) q
              exact pent
          | true =>
            have hwfR : nodeWF cap s' false r' := pwfTn rfl rfl hrem1
            rw [if_pos rfl] at hrun
            cases r' with
            | leaves a b cs =>
              have hpop : popDepth (NodeM.leaves a b cs) = none := rfl
              rw [hpop, Option.getD_none] at hrun
              simp only [Prod.mk.injEq] at hrun
              obtain ⟨hm', hprev⟩ := hrun
              subst hm'
              subst hprev
              refine ⟨by rw [htl]; exact pfind.symm, ?_, ?_⟩
              · refine Inv_build hwfR (fun a' b' cs' hne => by cases hne)
                  pnd (fun id hid => hfr id (psub id hid)) pch
                  (by rw [pent]; exact refRemove_sorted hsorted)
                  (by rw [pent]; omega)
              · rw [htl]
                show treeEntries s' (NodeM.leaves a b cs) =
                  refRemove (treeEntries m.store r) q
                exact pent
            | internals a b cs =>
              cases cs with
              | nil =>
                exfalso
                obtain ⟨w1, w2, w3, _⟩ := hwfR
                cases w3
              | cons c1 cs2 =>
                cases cs2 with
                | nil =>
                  obtain ⟨w1, w2, w3, w4, w5, wgl⟩ := hwfR
                  have hwfc1 : nodeWF cap s' true c1 := wgl.1
                  have hpop : popDepth (NodeM.internals a b [c1]) =
                      some c1 := rfl
                  rw [hpop, Option.getD_some] at hrun
                  simp only [Prod.mk.injEq] at hrun
                  obtain ⟨hm', hprev⟩ := hrun
                  subst hm'
                  subst hprev
                  have hids : (NodeM.internals a b [c1]).leafIds =
                      c1.leafIds := by
                    rw [leafIds_internals]
                    simp
                  have hent1 : treeEntries s' (NodeM.internals a b [c1]) =
                      treeEntries s' c1 := by
                    rw [treeEntries_internals]
                    simp
                  rw [hids] at pnd pch
                  rw [hent1] at pent
                  refine ⟨by rw [htl]; exact pfind.symm, ?_, ?_⟩
                  · refine Inv_build (nodeWF_weaken hcap c1 hwfc1) ?_ pnd
                      (fun id hid => hfr id (psub id (by
                        rw [hids]; exact hid))) pch
                      (by rw [pent]; exact refRemove_sorted hsorted)
                      (by rw [pent]; omega)
                    intro x y zs hc1eq
                    have hmc := (nodeWF_count hwfc1).1
                    have hmc' : minFill cap ≤ zs.length := by
                      rw [hc1eq] at hmc
                      exact hmc
                    simp only [minFill] at hmc'
                    omega
                  · rw [htl]
                    show treeEntries s' c1 =
                      refRemove (treeEntries m.store r) q
                    exact pent
                | cons c2 cs3 =>
                  have hpop : popDepth (NodeM.internals a b
                      (c1 :: c2 :: cs3)) = none := rfl
                  rw [hpop, Option.getD_none] at hrun
                  simp only [Prod.mk.injEq] at hrun
                  obtain ⟨hm', hprev⟩ := hrun
                  subst hm'
                  subst hprev
                  refine ⟨by rw [htl]; exact pfind.symm, ?_, ?_⟩
                  · refine Inv_build hwfR ?_ pnd
                      (fun id hid => hfr id (psub id hid)) pch
                      (by rw [pent]; exact refRemove_sorted hsorted)
                      (by rw [pent]; omega)
                    intro x y zs heq
                    injection heq with h1 h2 h3
                    rw [← h3]
                    simp only [List.length_cons]
                    omega
                  · rw [htl]
                    show treeEntries s' (NodeM.internals a b
                      (c1 :: c2 :: cs3)) = refRemove (treeEntries m.store r) q
                    exact pent
    · rw [if_neg hlow] at hrun
      simp only [Prod.mk.injEq] at hrun
      obtain ⟨hm', hprev⟩ := hrun
      subst hm'
      subst hprev
      have hfnone : refFind (treeEntries m.store r) q = none :=
        boundary_refFind_none hwf hsorted hlow
      refine ⟨by rw [htl]; exact hfnone.symm, hInvKeep, ?_⟩
      rw [htl, refFind_none_refRemove hfnone]

/-- One public operation on the tree map returns the reference map's result,
preserves the master invariant, and keeps the enumerations aligned. -/
theorem stepMap_refines (cap : Nat) (hodd : cap % 2 = 1) (hcap : 3 < cap)
    {m : MapM V} (hInv : Inv cap m) (op : Op V) :
    (stepMap cap m op).2 = (stepRef m.toList op).2 ∧
    Inv cap (stepMap cap m op).1 ∧
    (stepMap cap m op).1.toList = (stepRef m.toList op).1 := by
  cases op with
  | ins k v =>
    rcases hI : m.insert_entry cap (k, v) with ⟨m2, prev⟩
    obtain ⟨h1, h2, h3⟩ := MapM.insert_entry_spec cap hodd hcap hInv (k, v) hI
    simp only [stepMap, stepRef, hI]
    exact ⟨h1, h2, h3⟩
  | del k =>
    rcases hI : m.remove_entry cap k with ⟨m2, prev⟩
    obtain ⟨h1, h2, h3⟩ := MapM.remove_entry_spec cap hodd hcap hInv k hI
    simp only [stepMap, stepRef, hI]
    exact ⟨h1, h2, h3⟩
  | get k =>
    simp only [stepMap, stepRef]
    exact ⟨MapM.entry_spec cap hcap hInv k, hInv, trivial⟩

/-- Running any operation sequence on the tree map yields the reference
map's result list, preserves the invariant, and ends with the reference
enumeration. -/
theorem runMap_refines (cap : Nat) (hodd : cap % 2 = 1) (hcap : 3 < cap) :
    ∀ (ops : List (Op V)) (m : MapM V), Inv cap m →
      (runMap cap m ops).2 = (runRef m.toList ops).2 ∧
      Inv cap (runMap cap m ops).1 ∧
      (runMap cap m ops).1.toList = (runRef m.toList ops).1 := by
  intro ops
  induction ops with
  | nil =>
    intro m hInv
    exact ⟨rfl, hInv, rfl⟩
  | cons op ops ih =>
    intro m hInv
    obtain ⟨h1, h2, h3⟩ := stepMap_refines cap hodd hcap hInv op
    rcases hS : stepMap cap m op with ⟨m1, r1⟩
    rcases hSR : stepRef m.toList op with ⟨l1, r1d⟩
    rw [hS, hSR] at h1
    rw [hS] at h2 h3
    rw [hSR] at h3
    have h1x : r1 = r1d := h1
    have h2x : Inv cap m1 := h2
    have h3x : m1.toList = l1 := h3
    obtain ⟨g1, g2, g3⟩ := ih m1 h2x
    rw [h3x] at g1 g3
    rcases hRM : runMap cap m1 ops with ⟨m2, rs⟩
    rcases hRR : runRef l1 ops with ⟨l2, rsd⟩
    rw [hRM, hRR] at g1
    rw [hRM] at g2 g3
    rw [hRR] at g3
    have g1x : rs = rsd := g1
    have g2x : Inv cap m2 := g2
    have g3x : m2.toList = l2 := g3
    simp only [runMap, runRef, hS, hSR, hRM, hRR]
    exact ⟨by rw [g1x, h1x], g2x, g3x⟩

/-- Every sequence of insert, remove, and get operations (duplicate keys and
absent keys included) applied to a freshly constructed map and to the
reference ordered map returns the same result at every step, and the final
enumerations of key/value pairs in key order coincide. -/
theorem op_sequence_refinement (cap : Nat) {m0 : MapM V}
    (hnew : MapM.new V cap = some m0) (ops : List (Op V)) :
    (runMap cap m0 ops).2 = (runRef [] ops).2 ∧
    (runMap cap m0 ops).1.toList = (runRef [] ops).1 := by
  have hcond : cap % 2 = 1 ∧ 3 < cap := by
    by_contra hc
    rw [MapM.new, if_neg hc] at hnew
    cases hnew
  obtain ⟨hodd, hcap⟩ := hcond
  have hm0 : m0 = MapM.empty V := by
    rw [MapM.new, if_pos ⟨hodd, hcap⟩] at hnew
    injection hnew with h
    rw [← h]
    rfl
  subst hm0
  have hInv : Inv cap (MapM.empty V) := rfl
  have htl : (MapM.empty V).toList = [] := rfl
  obtain ⟨h1, h2, h3⟩ := runMap_refines cap hodd hcap ops (MapM.empty V) hInv
  rw [htl] at h1 h3
  exact ⟨h1, h3⟩

/-- Concrete instance of `op_sequence_refinement` (`cap = 5`): a sequence
with a leaf split, a duplicate-key insert, lookups of absent keys, and a
removal of an absent key. -/
theorem op_sequence_refinement_witness :
    MapM.new Nat 5 = some (MapM.empty Nat) ∧
    ((runMap 5 (MapM.empty Nat)
        [.ins 1 10, .ins 2 20, .ins 3 30, .ins 4 40, .ins 5 50, .ins 6 60,
         .ins 1 11, .get 1, .get 7, .del 2, .del 9, .get 2]).2 =
      (runRef []
        [.ins 1 10, .ins 2 20, .ins 3 30, .ins 4 40, .ins 5 50, .ins 6 60,
         .ins 1 11, .get 1, .get 7, .del 2, .del 9, .get 2]).2 ∧
     (runMap 5 (MapM.empty Nat)
        [.ins 1 10, .ins 2 20, .ins 3 30, .ins 4 40, .ins 5 50, .ins 6 60,
         .ins 1 11, .get 1, .get 7, .del 2, .del 9, .get 2]).1.toList =
      (runRef []
        [.ins 1 10, .ins 2 20, .ins 3 30, .ins 4 40, .ins 5 50, .ins 6 60,
         .ins 1 11, .get 1, .get 7, .del 2, .del 9, .get 2]).1) :=
  ⟨rfl, op_sequence_refinement 5 rfl
    [.ins 1 10, .ins 2 20, .ins 3 30, .ins 4 40, .ins 5 50, .ins 6 60,
     .ins 1 11, .get 1, .get 7, .del 2, .del 9, .get 2]⟩

/-- The proper descendants of a node (every node strictly below it). -/
def subNodes : NodeM → List NodeM
  | .leaves _ _ _ => []
  | .internals _ _ cs => cs ++ goList cs
where goList : List NodeM → List NodeM
  | [] => []
  | c :: rest => subNodes c ++ goList rest

theorem subNodes_goList_mem {x : NodeM} :
    ∀ {cs : List NodeM}, x ∈ subNodes.goList cs ↔ ∃ c ∈ cs, x ∈ subNodes c := by
  intro cs
  induction cs with
  | nil => simp [subNodes.goList]
  | cons c rest ih =>
    simp only [subNodes.goList, List.mem_append, ih, List.mem_cons]
    constructor
    · rintro (hx | ⟨c2, hc2, hx⟩)
      · exact ⟨c, Or.inl rfl, hx⟩
      · exact ⟨c2, Or.inr hc2, hx⟩
    · rintro ⟨c2, hc2 | hc2, hx⟩
      · rw [hc2] at hx
        exact Or.inl hx
      · exact Or.inr ⟨c2, hc2, hx⟩

/-- Fill bounds below a strictly well-formed node: every proper descendant
node and every leaf block holds between `B` and `CAP` elements. -/
theorem subNodes_bounds {cap : Nat} {s : Store Nat V} :
    ∀ (k : Nat) (n : NodeM), n.height ≤ k → nodeWF cap s true n →
      (∀ c ∈ subNodes n, minFill cap ≤ c.childCount ∧ c.childCount ≤ cap) ∧
      (∀ id ∈ n.leafIds, ∃ d, s id = some d ∧
        minFill cap ≤ d.entries.length ∧ d.entries.length ≤ cap) := by
  intro k
  induction k with
  | zero =>
    intro n h0 _
    have := height_pos n
    omega
  | succ k ih =>
    intro n hk hwf
    cases n with
    | leaves h t cs =>
      obtain ⟨h1, h2, h3, h4, h5, h6⟩ := hwf
      constructor
      · intro c hc
        simp only [subNodes] at hc
        cases hc
      · intro id hid
        rw [leafIds_leaves] at hid
        obtain ⟨d, hd, hdne, hdle⟩ := h5 id hid
        obtain ⟨d2, hd2, hmin⟩ := h6 (Or.inl rfl) id hid
        rw [hd] at hd2
        injection hd2 with hd2e
        refine ⟨d, hd, ?_, hdle⟩
        rw [hd2e]
        exact hmin
    | internals h t cs =>
      obtain ⟨h1, h2, h3, h4, h5, h6⟩ := hwf
      rw [nodeWF.goList_iff] at h6
      have hchk : ∀ c ∈ cs, c.height ≤ k := by
        intro c hc
        have := height_child_lt (h := h) (t := t) hc
        omega
      constructor
      · intro c hc
        simp only [subNodes, List.mem_append] at hc
        rcases hc with hc | hc
        · exact nodeWF_count (h6 c hc)
        · obtain ⟨c2, hc2, hcx⟩ := subNodes_goList_mem.mp hc
          exact (ih c2 (hchk c2 hc2) (h6 c2 hc2)).1 c hcx
      · intro id hid
        rw [leafIds_internals] at hid
        obtain ⟨l, hl, hidl⟩ := List.mem_flatten.mp hid
        obtain ⟨c, hcmem, rfl⟩ := List.mem_map.mp hl
        exact (ih c (hchk c hcmem) (h6 c hcmem)).2 id hidl

/-- After any sequence of public operations from a fresh map whose resulting
root holds more than one element, every non-root node holds between
`B = CAP/2 + 1` and `CAP` children and every leaf block holds between `B`
and `CAP` entries; only the root is exempt from the lower bound. -/
theorem fill_invariant_spec (cap : Nat) {m0 : MapM V}
    (hnew : MapM.new V cap = some m0) (ops : List (Op V)) {r : NodeM}
    (hroot : (runMap cap m0 ops).1.root = some r)
    (hgt : 2 ≤ r.childCount) :
    (∀ c ∈ subNodes r, minFill cap ≤ c.childCount ∧ c.childCount ≤ cap) ∧
    (∀ id ∈ r.leafIds, ∃ d, (runMap cap m0 ops).1.store id = some d ∧
      minFill cap ≤ d.entries.length ∧ d.entries.length ≤ cap) := by
  have hcond : cap % 2 = 1 ∧ 3 < cap := by
    by_contra hc
    rw [MapM.new, if_neg hc] at hnew
    cases hnew
  obtain ⟨hodd, hcap⟩ := hcond
  have hm0 : m0 = MapM.empty V := by
    rw [MapM.new, if_pos ⟨hodd, hcap⟩] at hnew
    injection hnew with hx
    rw [← hx]
    rfl
  subst hm0
  have hInv0 : Inv cap (MapM.empty V) := rfl
  obtain ⟨_, hInvF, _⟩ :=
    runMap_refines cap hodd hcap ops (MapM.empty V) hInv0
  simp only [Inv, hroot] at hInvF
  obtain ⟨hwf, hsh, hnd, hfr, hch, hsorted, hlen⟩ := hInvF
  cases r with
  | leaves h t cs =>
    obtain ⟨h1, h2, h3, h4, h5, h6⟩ := hwf
    constructor
    · intro c hc
      simp only [subNodes] at hc
      cases hc
    · intro id hid
      rw [leafIds_leaves] at hid
      have hgt2 : 2 ≤ cs.length := hgt
      obtain ⟨d, hd, hdne, hdle⟩ := h5 id hid
      obtain ⟨d2, hd2, hmin⟩ := h6 (Or.inr hgt2) id hid
      rw [hd] at hd2
      injection hd2 with hd2e
      refine ⟨d, hd, ?_, hdle⟩
      rw [hd2e]
      exact hmin
  | internals h t cs =>
    obtain ⟨h1, h2, h3, h4, h5, h6⟩ := hwf
    rw [nodeWF.goList_iff] at h6
    constructor
    · intro c hc
      simp only [subNodes, List.mem_append] at hc
      rcases hc with hc | hc
      · exact nodeWF_count (h6 c hc)
      · obtain ⟨c2, hc2, hcx⟩ := subNodes_goList_mem.mp hc
        exact (subNodes_bounds c2.height c2 (Nat.le_refl _) (h6 c2 hc2)).1
          c hcx
    · intro id hid
      rw [leafIds_internals] at hid
      obtain ⟨l, hl, hidl⟩ := List.mem_flatten.mp hid
      obtain ⟨c, hcmem, rfl⟩ := List.mem_map.mp hl
      exact (subNodes_bounds c.height c (Nat.le_refl _) (h6 c hcmem)).2
        id hidl

/-- Concrete instance of `fill_invariant_spec`: six inserts at `cap = 5`
split the first leaf, leaving a root with two leaf children. -/
theorem fill_invariant_spec_witness :
    ∃ r, (runMap 5 (MapM.empty Nat)
        [.ins 1 10, .ins 2 20, .ins 3 30, .ins 4 40, .ins 5 50,
         .ins 6 60]).1.root = some r ∧
      2 ≤ r.childCount ∧
      ((∀ c ∈ subNodes r, minFill 5 ≤ c.childCount ∧ c.childCount ≤ 5) ∧
       (∀ id ∈ r.leafIds, ∃ d, (runMap 5 (MapM.empty Nat)
          [.ins 1 10, .ins 2 20, .ins 3 30, .ins 4 40, .ins 5 50,
           .ins 6 60]).1.store id = some d ∧
         minFill 5 ≤ d.entries.length ∧ d.entries.length ≤ 5)) :=
  ⟨_, rfl, by decide,
    fill_invariant_spec 5 rfl
      [.ins 1 10, .ins 2 20, .ins 3 30, .ins 4 40, .ins 5 50, .ins 6 60]
      rfl (by decide)⟩

/-- Sortedness of a flattened child-entry sequence restricts to each child.
-/
theorem sortedKeys_flatten_mem {s : Store Nat V} :
    ∀ (cs : List NodeM),
      sortedKeys ((cs.map (treeEntries s)).flatten) →
      ∀ c ∈ cs, sortedKeys (treeEntries s c) := by
  intro cs
  induction cs with
  | nil =>
    intro _ c hc
    cases hc
  | cons c0 rest ih =>
    intro hs c hc
    simp only [List.map_cons, List.flatten_cons] at hs
    obtain ⟨hA, hB, _⟩ := sortedKeys_append.mp hs
    rcases List.mem_cons.mp hc with rfl | hc2
    · exact hA
    · exact ih hB c hc2

/-- Boundary caches of every node of a sorted, well-formed subtree: the
cached `head`/`tail` are the first/last leaf of the node's leaf enumeration,
and their first/last keys are the minimum/maximum key of the node's
entries. -/
theorem cache_minmax {cap : Nat} {s : Store Nat V} :
    ∀ (k : Nat) (b : Bool) (n : NodeM), n.height ≤ k → nodeWF cap s b n →
      sortedKeys (treeEntries s n) →
      ∀ x, x = n ∨ x ∈ subNodes n →
        x.leafIds.head? = some x.headId ∧
        x.leafIds.getLast? = some x.tailId ∧
        Leaf.firstKey s x.headId ∈ keys (treeEntries s x) ∧
        Leaf.lastKey s x.tailId ∈ keys (treeEntries s x) ∧
        ∀ a ∈ treeEntries s x, Leaf.firstKey s x.headId ≤ a.fst ∧
          a.fst ≤ Leaf.lastKey s x.tailId := by
  intro k
  induction k with
  | zero =>
    intro b n h0 _ _ x _
    have := height_pos n
    omega
  | succ k ih =>
    intro b n hk hwf hsorted x hx
    rcases hx with rfl | hx
    · obtain ⟨hne, hhd, hlast, hbase⟩ :=
        nodeWF_shape x.height b x (Nat.le_refl _) hwf
      obtain ⟨hneE, hkhd, hklast⟩ := nodeWF_boundary_keys hwf
      refine ⟨hhd, hlast, ?_, ?_, ?_⟩
      · exact List.mem_of_mem_head? hkhd
      · exact mem_of_getLast?_eq hklast
      · intro a ha
        exact ⟨sorted_head_le hsorted hkhd a ha,
          sorted_le_last hsorted hklast a ha⟩
    · cases n with
      | leaves h t cs =>
        simp only [subNodes] at hx
        cases hx
      | internals h t cs =>
        obtain ⟨h1, h2, h3, h4, h5, h6⟩ := hwf
        rw [nodeWF.goList_iff] at h6
        have hsortc : ∀ c ∈ cs, sortedKeys (treeEntries s c) := by
          refine sortedKeys_flatten_mem cs ?_
          rw [← treeEntries_internals]
          exact hsorted
        simp only [subNodes, List.mem_append] at hx
        rcases hx with hx | hx
        · exact ih true x
            (by have := height_child_lt (h := h) (t := t) hx; omega)
            (h6 x hx) (hsortc x hx) x (Or.inl rfl)
        · obtain ⟨c2, hc2, hcx⟩ := subNodes_goList_mem.mp hx
          exact ih true c2
            (by have := height_child_lt (h := h) (t := t) hc2; omega)
            (h6 c2 hc2) (hsortc c2 hc2) x (Or.inr hcx)

/-- After any sequence of public operations from a fresh map, every node of
the resulting tree (root included) caches as `head` its leftmost descendant
leaf — whose first entry key is the subtree's minimum key — and as `tail`
its rightmost descendant leaf — whose last entry key is the subtree's
maximum key. -/
theorem head_tail_cache_spec (cap : Nat) {m0 : MapM V}
    (hnew : MapM.new V cap = some m0) (ops : List (Op V)) {r : NodeM}
    (hroot : (runMap cap m0 ops).1.root = some r) (n : NodeM)
    (hn : n = r ∨ n ∈ subNodes r) :
    n.leafIds.head? = some n.headId ∧
    n.leafIds.getLast? = some n.tailId ∧
    Leaf.firstKey (runMap cap m0 ops).1.store n.headId ∈
      keys (treeEntries (runMap cap m0 ops).1.store n) ∧
    Leaf.lastKey (runMap cap m0 ops).1.store n.tailId ∈
      keys (treeEntries (runMap cap m0 ops).1.store n) ∧
    ∀ a ∈ treeEntries (runMap cap m0 ops).1.store n,
      Leaf.firstKey (runMap cap m0 ops).1.store n.headId ≤ a.fst ∧
      a.fst ≤ Leaf.lastKey (runMap cap m0 ops).1.store n.tailId := by
  have hcond : cap % 2 = 1 ∧ 3 < cap := by
    by_contra hc
    rw [MapM.new, if_neg hc] at hnew
    cases hnew
  obtain ⟨hodd, hcap⟩ := hcond
  have hm0 : m0 = MapM.empty V := by
    rw [MapM.new, if_pos ⟨hodd, hcap⟩] at hnew
    injection hnew with hx
    rw [← hx]
    rfl
  subst hm0
  have hInv0 : Inv cap (MapM.empty V) := rfl
  obtain ⟨_, hInvF, _⟩ :=
    runMap_refines cap hodd hcap ops (MapM.empty V) hInv0
  simp only [Inv, hroot] at hInvF
  obtain ⟨hwf, hsh, hnd, hfr, hch, hsorted, hlen⟩ := hInvF
  exact cache_minmax r.height false r (Nat.le_refl _) hwf hsorted n hn

/-- Concrete instance of `head_tail_cache_spec` at the root after six
inserts and a removal (`cap = 5`). -/
theorem head_tail_cache_spec_witness :
    ∃ r, (runMap 5 (MapM.empty Nat)
        [.ins 1 10, .ins 2 20, .ins 3 30, .ins 4 40, .ins 5 50, .ins 6 60,
         .del 3]).1.root = some r ∧
      (r.leafIds.head? = some r.headId ∧
       r.leafIds.getLast? = some r.tailId ∧
       Leaf.firstKey (runMap 5 (MapM.empty Nat)
          [.ins 1 10, .ins 2 20, .ins 3 30, .ins 4 40, .ins 5 50, .ins 6 60,
           .del 3]).1.store r.headId ∈
         keys (treeEntries (runMap 5 (MapM.empty Nat)
          [.ins 1 10, .ins 2 20, .ins 3 30, .ins 4 40, .ins 5 50, .ins 6 60,
           .del 3]).1.store r) ∧
       Leaf.lastKey (runMap 5 (MapM.empty Nat)
          [.ins 1 10, .ins 2 20, .ins 3 30, .ins 4 40, .ins 5 50, .ins 6 60,
           .del 3]).1.store r.tailId ∈
         keys (treeEntries (runMap 5 (MapM.empty Nat)
          [.ins 1 10, .ins 2 20, .ins 3 30, .ins 4 40, .ins 5 50, .ins 6 60,
           .del 3]).1.store r) ∧
       ∀ a ∈ treeEntries (runMap 5 (MapM.empty Nat)
          [.ins 1 10, .ins 2 20, .ins 3 30, .ins 4 40, .ins 5 50, .ins 6 60,
           .del 3]).1.store r,
         Leaf.firstKey (runMap 5 (MapM.empty Nat)
          [.ins 1 10, .ins 2 20, .ins 3 30, .ins 4 40, .ins 5 50, .ins 6 60,
           .del 3]).1.store r.headId ≤ a.fst ∧
         a.fst ≤ Leaf.lastKey (runMap 5 (MapM.empty Nat)
          [.ins 1 10, .ins 2 20, .ins 3 30, .ins 4 40, .ins 5 50, .ins 6 60,
           .del 3]).1.store r.tailId) :=
  ⟨_, rfl, head_tail_cache_spec 5 rfl
    [.ins 1 10, .ins 2 20, .ins 3 30, .ins 4 40, .ins 5 50, .ins 6 60,
     .del 3] rfl _ (Or.inl rfl)⟩

/-- Split-time chain relinking as the code actually performs it
(`Leaf::insert`, leaf.rs lines 120-136): after a split the new leaf's `prev`
is the split leaf and its `next` is the split leaf's old `next`, and the
split leaf's `next` is the new leaf — but no other leaf is touched: in
particular the old `next` leaf's `prev` is left stale rather than updated
to the new leaf. -/
theorem leaf_split_relink_spec {cap : Nat} (hodd : cap % 2 = 1)
    (hcap : 3 < cap) {s : Store Nat V} {id fresh : Nat} {d : LeafData Nat V}
    (hs : s id = some d) (hsorted : sortedKeys d.entries)
    (hlen : d.entries.length ≤ cap) (hne : id ≠ fresh) (e : Nat × V)
    {s' : Store Nat V} {f' : Nat} {prev : Option (Nat × V)} {nid : Nat}
    (hrun : Leaf.insert cap natCmp s id fresh e = (s', f', prev, some nid)) :
    ∃ d₁ d₂, s' id = some d₁ ∧ s' nid = some d₂ ∧
      d₂.prev = some id ∧ d₂.next = d.next ∧
      d₁.next = some nid ∧ d₁.prev = d.prev ∧
      ∀ j, j ≠ id → j ≠ nid → s' j = s j := by
  obtain ⟨hnid, hf', hprev, hfind, hfull, E₁, E₂, hcat, hl1, hl2, hs'⟩ :=
    (leaf_insert_spec hodd hcap hs hsorted hlen hne e).2 s' f' prev nid hrun
  subst hnid
  subst hs'
  refine ⟨⟨E₁, d.prev, some nid⟩, ⟨E₂, some id, d.next⟩, ?_, ?_, rfl, rfl,
    rfl, rfl, ?_⟩
  · rw [Store.set_other _ _ _ _ hne]
    exact Store.set_self ..
  · exact Store.set_self ..
  · intro j hj1 hj2
    rw [Store.set_other _ _ _ _ hj2, Store.set_other _ _ _ _ hj1]

/-- A full leaf (`cap = 5`) about to split under one more insert. -/
def c5store : Store Nat Nat :=
  Store.set (fun _ => none) 0
    { entries := [(1, 1), (2, 2), (3, 3), (4, 4), (5, 5)], prev := none,
      next := none }

/-- The stored block of `c5store` at handle 0. -/
def c5leaf : LeafData Nat Nat :=
  { entries := [(1, 1), (2, 2), (3, 3), (4, 4), (5, 5)], prev := none,
    next := none }

/-- Concrete instance of `leaf_split_relink_spec`: inserting key 6 into the
full leaf 0 splits it into leaves 0 and 1 with the stated links. -/
theorem leaf_split_relink_spec_witness :
    (c5store 0 = some c5leaf ∧ sortedKeys c5leaf.entries ∧
     c5leaf.entries.length ≤ 5 ∧ (0 : Nat) ≠ 1) ∧
    ∃ d₁ d₂,
      (Leaf.insert 5 natCmp c5store 0 1 (6, 60)).1 0 = some d₁ ∧
      (Leaf.insert 5 natCmp c5store 0 1 (6, 60)).1 1 = some d₂ ∧
      d₂.prev = some 0 ∧ d₂.next = c5leaf.next ∧
      d₁.next = some 1 ∧ d₁.prev = c5leaf.prev ∧
      ∀ j, j ≠ 0 → j ≠ 1 →
        (Leaf.insert 5 natCmp c5store 0 1 (6, 60)).1 j = c5store j :=
  ⟨⟨rfl, by unfold sortedKeys keys; decide, by decide, by decide⟩,
    @leaf_split_relink_spec Nat 5 rfl (by decide) c5store 0 1 c5leaf rfl
      (by unfold sortedKeys keys; decide) (by decide) (by decide) (6, 60)
      _ _ _ _ rfl⟩

end Bpt
